import Mathlib

/-!
Verification of the big-integer slow-path core of a string-to-float parser.

The development shallowly embeds `lexical-parse-float/src/bigint.rs`,
`binary.rs`, `slow.rs` and `limits.rs` for the 64-bit limb configuration
(`Limb = u64`, `Wide = u128`, `LIMB_BITS = 64`) with the `power-of-two` and
`radix` build features enabled.  A `StackVec<SIZE>` is modelled as a
`List Nat` of limbs in little-endian order together with the capacity
`SIZE`; each limb is kept below `2 ^ 64` by explicit hypotheses.
Fallible operations (`try_push`, `try_resize`, ...) return `Option`;
operations of the source that discard such an `Option` are modelled by
discarding it here as well.  Panics (`unwrap`, `assert!`) are modelled by
`Option` results or by theorem hypotheses matching the assertion.
-/

namespace LexBig

/-- `LIMB_BITS` for the 64-bit limb configuration. -/
def LIMB_BITS : Nat := 64

/-- All limbs of the vector are in range for a `u64`. -/
def limbs_bounded (x : List Nat) : Prop := ∀ l ∈ x, l < 2 ^ 64

instance (x : List Nat) : Decidable (limbs_bounded x) := by
  unfold limbs_bounded; infer_instance

/-- Numeric value of a little-endian limb vector. -/
def natVal (x : List Nat) : Nat := x.foldr (fun d acc => d + 2 ^ 64 * acc) 0

/-- `scalar_add`: wrapping add and overflow flag (`overflowing_add`). -/
def scalar_add (x y : Nat) : Nat × Bool :=
  ((x + y) % 2 ^ 64, decide (2 ^ 64 ≤ x + y))

/-- `scalar_sub`: wrapping sub and borrow flag (`overflowing_sub`).
For limb-bounded inputs `(x + 2^64 - y) % 2^64` is the two's-complement
wrapped difference. -/
def scalar_sub (x y : Nat) : Nat × Bool :=
  ((x + 2 ^ 64 - y) % 2 ^ 64, decide (x < y))

/-- `scalar_mul`: `x * y + carry` split into (low, high) limbs. -/
def scalar_mul (x y carry : Nat) : Nat × Nat :=
  ((x * y + carry) % 2 ^ 64, (x * y + carry) / 2 ^ 64)

/-- `scalar_div`: divide the 2-limb value `(rem << 64) | x` by `y`,
returning quotient and remainder.  The source panics on `y = 0`; theorems
assume `0 < y`. -/
def scalar_div (x y rem : Nat) : Nat × Nat :=
  ((x + 2 ^ 64 * rem) / y, (x + 2 ^ 64 * rem) % y)

/-- `StackVec::try_push`. -/
def try_push (SIZE : Nat) (x : List Nat) (v : Nat) : Option (List Nat) :=
  if x.length < SIZE then some (x ++ [v]) else none

/-- `StackVec::try_resize`. -/
def try_resize (SIZE : Nat) (x : List Nat) (len : Nat) (value : Nat) :
    Option (List Nat) :=
  if SIZE < len then none
  else some (if x.length < len then x ++ List.replicate (len - x.length) value
             else x.take len)

/-- `StackVec::try_extend`. -/
def try_extend (SIZE : Nat) (x slc : List Nat) : Option (List Nat) :=
  if x.length + slc.length ≤ SIZE then some (x ++ slc) else none

/-- `StackVec::try_from`. -/
def try_from (SIZE : Nat) (slc : List Nat) : Option (List Nat) :=
  try_extend SIZE [] slc

/-- `StackVec::normalize`: strip high (trailing, in little-endian order)
zero limbs. -/
def normalize : List Nat → List Nat
  | [] => []
  | l :: ls =>
    match normalize ls with
    | [] => if l = 0 then [] else [l]
    | r => l :: r

/-- `StackVec::is_normalized`: the top limb is nonzero (or the vector is
empty); the source's `match` on `get(len - 1)` yields `false` exactly for
`Some(&0)`. -/
def is_normalized (x : List Nat) : Bool :=
  x.getLast? != some 0

/-- `StackVec::from_u64` (one 64-bit limb, then normalize). -/
def from_u64 (x : Nat) : List Nat := normalize [x]

/-- `StackVec::from_u32`. -/
def from_u32 (x : Nat) : List Nat := normalize [x]

/-- Carry loop of `small_add_from`: propagate `carry` while nonzero,
returning the updated limbs and the carry escaping the processed region. -/
def small_add_loop : List Nat → Nat → List Nat × Nat
  | [], carry => ([], carry)
  | l :: ls, carry =>
    if carry = 0 then (l :: ls, 0)
    else
      let r := scalar_add l carry
      let rest := small_add_loop ls (if r.2 then 1 else 0)
      (r.1 :: rest.1, rest.2)

/-- `small_add_from`: add `y` into the vector starting at `start`.  The
source discards the `Option` of the final `try_push` (a carry escaping a
full vector is silently dropped); so does the model. -/
def small_add_from (SIZE : Nat) (x : List Nat) (y : Nat) (start : Nat) :
    List Nat :=
  let t := small_add_loop (x.drop start) y
  let x1 := x.take start ++ t.1
  if t.2 ≠ 0 then
    match try_push SIZE x1 t.2 with
    | some r => r
    | none => x1
  else x1

/-- `small_add`. -/
def small_add (SIZE : Nat) (x : List Nat) (y : Nat) : List Nat :=
  small_add_from SIZE x y 0

/-- Borrow loop of `small_sub_from`. -/
def small_sub_loop : List Nat → Nat → List Nat × Nat
  | [], borrow => ([], borrow)
  | l :: ls, borrow =>
    if borrow = 0 then (l :: ls, 0)
    else
      let r := scalar_sub l borrow
      let rest := small_sub_loop ls (if r.2 then 1 else 0)
      (r.1 :: rest.1, rest.2)

/-- `small_sub_from`: subtract `y` starting at `start`; a borrow escaping
the top is dropped by the loop; the result is normalized. -/
def small_sub_from (x : List Nat) (y : Nat) (start : Nat) : List Nat :=
  normalize (x.take start ++ (small_sub_loop (x.drop start) y).1)

/-- `small_sub`. -/
def small_sub (x : List Nat) (y : Nat) : List Nat := small_sub_from x y 0

/-- Multiply-accumulate loop of `small_mul`. -/
def small_mul_loop : List Nat → Nat → Nat → List Nat × Nat
  | [], _, carry => ([], carry)
  | l :: ls, y, carry =>
    let r := scalar_mul l y carry
    let rest := small_mul_loop ls y r.2
    (r.1 :: rest.1, rest.2)

/-- `small_mul`: multiply in place by a limb.  As in the source, the
`Option` of the final `try_push` is discarded. -/
def small_mul (SIZE : Nat) (x : List Nat) (y : Nat) : List Nat :=
  let t := small_mul_loop x y 0
  if t.2 ≠ 0 then
    match try_push SIZE t.1 t.2 with
    | some r => r
    | none => t.1
  else t.1

/-- Division loop of `small_div`.  Note the source iterates the limbs in
forward (least-significant-first) order. -/
def small_div_loop : List Nat → Nat → Nat → List Nat × Nat
  | [], _, rem => ([], rem)
  | l :: ls, y, rem =>
    let r := scalar_div l y rem
    let rest := small_div_loop ls y r.2
    (r.1 :: rest.1, rest.2)

/-- `small_div`: divide in place, returning (vector, remainder). -/
def small_div (x : List Nat) (y : Nat) : List Nat × Nat :=
  let t := small_div_loop x y 0
  (normalize t.1, t.2)

/-- Elementwise loop of `large_add_from`: add paired limbs with carry;
limbs of `x` beyond `y` are untouched. -/
def large_add_loop : List Nat → List Nat → Bool → List Nat × Bool
  | xs, [], carry => (xs, carry)
  | [], _ :: _, carry => ([], carry)
  | xi :: xs, yi :: ys, carry =>
    let r1 := scalar_add xi yi
    let r2 := if carry then scalar_add r1.1 1 else (r1.1, false)
    let rest := large_add_loop xs ys (r1.2 || r2.2)
    (r2.1 :: rest.1, rest.2)

/-- `large_add_from`: add `y` shifted by `start` limbs into `x`.
`try_resize(..).unwrap()` is modelled by `Option` (`none` = panic). -/
def large_add_from (SIZE : Nat) (x y : List Nat) (start : Nat) :
    Option (List Nat) :=
  match (if x.length - start < y.length
         then try_resize SIZE x (y.length + start) 0 else some x) with
  | none => none
  | some x1 =>
    let t := large_add_loop (x1.drop start) y false
    let x2 := x1.take start ++ t.1
    some (if t.2 then small_add_from SIZE x2 1 (y.length + start) else x2)

/-- `large_add`. -/
def large_add (SIZE : Nat) (x y : List Nat) : Option (List Nat) :=
  large_add_from SIZE x y 0

/-- Elementwise loop of `large_sub`. -/
def large_sub_loop : List Nat → List Nat → Bool → List Nat × Bool
  | xs, [], borrow => (xs, borrow)
  | [], _ :: _, borrow => ([], borrow)
  | xi :: xs, yi :: ys, borrow =>
    let r1 := scalar_sub xi yi
    let r2 := if borrow then scalar_sub r1.1 1 else (r1.1, false)
    let rest := large_sub_loop xs ys (r1.2 || r2.2)
    (r2.1 :: rest.1, rest.2)

/-- `large_sub`: saturating subtraction; underflow yields the empty
vector (0). -/
def large_sub (x y : List Nat) : List Nat :=
  if x.length < y.length then []
  else
    let t := large_sub_loop x y false
    if t.2 && decide (y.length < x.length) then small_sub_from t.1 1 y.length
    else if t.2 then []
    else normalize t.1

/-- Most-significant-limb-first comparison of two equal-length vectors:
compare the (more significant) tails first, then the heads. -/
def rev_cmp : List Nat → List Nat → Ordering
  | [], _ => .eq
  | _ :: _, [] => .eq
  | a :: xs, b :: ys =>
    match rev_cmp xs ys with
    | .eq => compare a b
    | o => o

/-- `compare`: lengths first, then most-significant-limb-first. -/
def compare_vec (x y : List Nat) : Ordering :=
  match compare x.length y.length with
  | .eq => rev_cmp x y
  | o => o

/-- The fused multiply-subtract loop of `large_quorem`: for each limb pair,
`p = y_j * q + carry`; `t` is the double-wide wrapping difference
`x_j - (p & mask) - borrow` (the subtrahends are below `2^128`, so a single
modulus realizes the chained `wrapping_sub`); the stored limb is `t`'s low
half and the next borrow is bit 64 of `t`. -/
def quorem_loop : List Nat → List Nat → Nat → Nat → Nat → List Nat × Nat × Nat
  | [], _, _, carry, borrow => ([], carry, borrow)
  | _ :: _, [], _, carry, borrow => ([], carry, borrow)
  | xj :: xs, yj :: ys, q, carry, borrow =>
    let p := yj * q + carry
    let t := (xj + 2 ^ 128 - p % 2 ^ 64 - borrow) % 2 ^ 128
    let rest := quorem_loop xs ys q (p / 2 ^ 64) (t / 2 ^ 64 % 2)
    (t % 2 ^ 64 :: rest.1, rest.2)

/-- `large_quorem`: single-limb quotient division, returning the quotient
and the remainder left in `x`.  The source's `assert!`s (`y` nonempty,
`x.len() <= y.len()`) panic when violated and are hypotheses of the
theorems below.  Its second subtraction loop is the multiply-subtract loop
with `q = 1` (`p = y_j + carry`). -/
def large_quorem (x y : List Nat) : Nat × List Nat :=
  if x.length < y.length then (0, x)
  else
    let xm1 := x.getLastD 0
    let yn1 := y.getLastD 0
    let q := xm1 / (yn1 + 1)
    let x1 := if q ≠ 0 then normalize (quorem_loop x y q 0 0).1 else x
    if compare_vec x1 y ≠ .lt then
      (q + 1, normalize (quorem_loop x1 y 1 0 0).1)
    else (q, x1)

/-- Per-limb loop of `shl_bits`: each limb becomes
`(limb << n) | (prev >> (64 - n))`; returns the final `prev`. -/
def shl_bits_loop : List Nat → Nat → Nat → List Nat × Nat
  | [], _, prev => ([], prev)
  | l :: ls, n, prev =>
    let xi := (l <<< n) % 2 ^ 64 ||| prev >>> (64 - n)
    let rest := shl_bits_loop ls n l
    (xi :: rest.1, rest.2)

/-- `shl_bits` (`0 < n < 64`): sub-limb left shift.  Returns the updated
vector and a success flag (`false` models the propagated `None` when the
final carry cannot be pushed). -/
def shl_bits (SIZE : Nat) (x : List Nat) (n : Nat) : List Nat × Bool :=
  let t := shl_bits_loop x n 0
  let carry := t.2 >>> (64 - n)
  if carry ≠ 0 then
    match try_push SIZE t.1 carry with
    | some r => (r, true)
    | none => (t.1, false)
  else (t.1, true)

/-- `shl_limbs`: whole-limb left shift. -/
def shl_limbs (SIZE : Nat) (x : List Nat) (n : Nat) : List Nat × Bool :=
  if SIZE < n + x.length then (x, false)
  else if x ≠ [] then (List.replicate n 0 ++ x, true)
  else (x, true)

/-- `shl`: compose `shl_bits` (first) and `shl_limbs`; on failure of the
first step the second is not attempted and the vector is left in the
partially shifted state. -/
def shl (SIZE : Nat) (x : List Nat) (n : Nat) : List Nat × Bool :=
  let rem := n % LIMB_BITS
  let d := n / LIMB_BITS
  let s1 := if rem ≠ 0 then shl_bits SIZE x rem else (x, true)
  if s1.2 then (if d ≠ 0 then shl_limbs SIZE s1.1 d else (s1.1, true)) else s1

/-- Kernel-reducible bit length (`Nat.size`) of a limb, with fuel. -/
def size_aux : Nat → Nat → Nat
  | 0, _ => 0
  | fuel + 1, n => if n = 0 then 0 else size_aux fuel (n / 2) + 1

/-- Bit length of a limb (64 bits of fuel suffice for limb values). -/
def size64 (n : Nat) : Nat := size_aux 64 n

/-- `u64::leading_zeros` for a limb value. -/
def clz64 (n : Nat) : Nat := 64 - size64 n

/-- `leading_zeros` on the top limb. -/
def leading_zeros (x : List Nat) : Nat :=
  match x.getLast? with
  | some v => clz64 v
  | none => 0

/-- `bit_length`. -/
def bit_length (x : List Nat) : Nat := 64 * x.length - leading_zeros x

/-- `u64_power_limit` (features `power-of-two` and `radix` enabled). -/
def u64_power_limit (radix : Nat) : Nat :=
  match radix with
  | 2 => 63 | 3 => 40 | 4 => 31 | 5 => 27 | 6 => 24 | 7 => 22 | 8 => 21
  | 9 => 20 | 10 => 19 | 11 => 18 | 12 => 17 | 13 => 17 | 14 => 16
  | 15 => 16 | 16 => 15 | 17 => 15 | 18 => 15 | 19 => 15 | 20 => 14
  | 21 => 14 | 22 => 14 | 23 => 14 | 24 => 13 | 25 => 13 | 26 => 13
  | 27 => 13 | 28 => 13 | 29 => 13 | 30 => 13 | 31 => 12 | 32 => 12
  | 33 => 12 | 34 => 12 | 35 => 12 | 36 => 12
  | _ => 1

/-- Modelled from the spec: `f64::int_pow_fast_path` (in `crate::float`,
not under `src/`) computes the exact integer power `base ^ exp` for
exponents below the small-power limit ("finally one short power via an
exact integer power"). -/
def int_pow_fast_path (exp base : Nat) : Nat := base ^ exp

/-- The `while exp >= small_step` loop of `pow`, multiplying by
`max_native` each iteration, written with structural fuel so that it
reduces in the kernel.  Each iteration decreases `exp` by
`small_step ≥ 1`, so fuel `exp` suffices; for `small_step = 0` the source
would not terminate (irrelevant: the limit table never yields 0). -/
def pow_loop_aux (SIZE : Nat) (max_native small_step : Nat) :
    Nat → List Nat → Nat → List Nat × Nat
  | 0, x, exp => (x, exp)
  | fuel + 1, x, exp =>
    if 0 < small_step ∧ small_step ≤ exp then
      pow_loop_aux SIZE max_native small_step fuel
        (small_mul SIZE x max_native) (exp - small_step)
    else (x, exp)

/-- The `while exp >= small_step` loop of `pow`. -/
def pow_loop (SIZE : Nat) (x : List Nat) (max_native small_step exp : Nat) :
    List Nat × Nat :=
  pow_loop_aux SIZE max_native small_step exp x exp

/-- `pow` in the `compact` build configuration (the precomputed
large-power block is `cfg(not(feature = "compact"))` and its table lives in
`crate::table`, outside `src/`): iterate small powers, then one short
power. -/
def pow (SIZE : Nat) (x : List Nat) (base exp : Nat) : List Nat :=
  let small_step := u64_power_limit base
  let max_native := base ^ small_step
  let t := pow_loop SIZE x max_native small_step exp
  if t.2 ≠ 0 then small_mul SIZE t.1 (int_pow_fast_path t.2 base) else t.1

/-- `split_radix` with features `power-of-two` and `radix` enabled. -/
def split_radix (radix : Nat) : Nat × Nat :=
  match radix with
  | 2 => (0, 1) | 3 => (3, 0) | 4 => (0, 2) | 5 => (5, 0) | 6 => (3, 1)
  | 7 => (7, 0) | 8 => (0, 3) | 9 => (9, 0) | 10 => (5, 1) | 11 => (11, 0)
  | 12 => (6, 1) | 13 => (13, 0) | 14 => (7, 1) | 15 => (15, 0)
  | 16 => (0, 4) | 17 => (17, 0) | 18 => (9, 1) | 19 => (19, 0)
  | 20 => (5, 2) | 21 => (21, 0) | 22 => (11, 1) | 23 => (23, 0)
  | 24 => (3, 3) | 25 => (25, 0) | 26 => (13, 1) | 27 => (27, 0)
  | 28 => (7, 2) | 29 => (29, 0) | 30 => (15, 1) | 31 => (31, 0)
  | 32 => (0, 5) | 33 => (33, 0) | 34 => (17, 1) | 35 => (35, 0)
  | 36 => (9, 2)
  | _ => (0, 0)

/-- `Bigint::pow`: multiply by the odd factor's power, then shift left.
As in the source, the `Option` returned by `shl` is discarded. -/
def bigint_pow (SIZE : Nat) (x : List Nat) (base exp : Nat) : List Nat :=
  let t := split_radix base
  let x1 := if t.1 ≠ 0 then pow SIZE x t.1 exp else x
  if t.2 ≠ 0 then (shl SIZE x1 (exp * t.2)).1 else x1

/-- `integral_binary_factor` (feature `radix` enabled). -/
def integral_binary_factor (radix : Nat) : Nat :=
  match radix with
  | 3 => 2 | 5 => 3 | 6 => 3 | 7 => 3 | 9 => 4 | 10 => 4 | 11 => 4
  | 12 => 4 | 13 => 4 | 14 => 4 | 15 => 4 | 17 => 5 | 18 => 5 | 19 => 5
  | 20 => 5 | 21 => 5 | 22 => 5 | 23 => 5 | 24 => 5 | 25 => 5 | 26 => 5
  | 27 => 5 | 28 => 5 | 29 => 5 | 30 => 5 | 31 => 5 | 33 => 6 | 34 => 6
  | 35 => 6 | 36 => 6
  | _ => 0

/-- `u64_to_hi64_1`: shift a limb so its leading 1 occupies bit 63. -/
def u64_to_hi64_1 (r0 : Nat) : Nat × Bool :=
  (r0 <<< clz64 r0, false)

/-- `u64_to_hi64_2`: combine two limbs (most significant first) into the
high 64 bits; the truncation flag records bits shifted out of `r1`. -/
def u64_to_hi64_2 (r0 r1 : Nat) : Nat × Bool :=
  let ls := clz64 r0
  let rs := 64 - ls
  let v := match ls with
    | 0 => r0
    | _ => (r0 <<< ls) % 2 ^ 64 ||| r1 >>> rs
  let n := decide ((r1 <<< ls) % 2 ^ 64 ≠ 0)
  (v, n)

/-- `StackVec::hi64` for 64-bit limbs: cases on the length, reading from
the most significant limb (`rview[0]` is the last limb). -/
def hi64 (x : List Nat) : Nat × Bool :=
  match x.reverse with
  | [] => (0, false)
  | [r0] => u64_to_hi64_1 r0
  | [r0, r1] => u64_to_hi64_2 r0 r1
  | r0 :: r1 :: rest =>
    let t := u64_to_hi64_2 r0 r1
    (t.1, t.2 || rest.any (fun l => l ≠ 0))

/-! ### Basic value lemmas -/

theorem natVal_nil : natVal [] = 0 := rfl

theorem natVal_cons (a : Nat) (x : List Nat) :
    natVal (a :: x) = a + 2 ^ 64 * natVal x := rfl

theorem pow64_add (a b : Nat) :
    2 ^ (64 * (a + b)) = 2 ^ (64 * a) * 2 ^ (64 * b) := by
  rw [Nat.mul_add, pow_add]

theorem natVal_append (x y : List Nat) :
    natVal (x ++ y) = natVal x + 2 ^ (64 * x.length) * natVal y := by
  induction x with
  | nil => simp [natVal_nil, natVal]
  | cons a xs ih =>
    simp only [List.cons_append, natVal_cons, ih, List.length_cons]
    rw [Nat.mul_succ, pow_add]
    ring

theorem natVal_lt (x : List Nat) (hb : limbs_bounded x) :
    natVal x < 2 ^ (64 * x.length) := by
  induction x with
  | nil => simp [natVal_nil]
  | cons a xs ih =>
    have ha : a < 2 ^ 64 := hb a (by simp)
    have hxs : natVal xs < 2 ^ (64 * xs.length) :=
      ih (fun l hl => hb l (by simp [hl]))
    calc a + 2 ^ 64 * natVal xs
        ≤ 2 ^ 64 - 1 + 2 ^ 64 * (2 ^ (64 * xs.length) - 1) := by
          have := Nat.le_sub_one_of_lt hxs
          have := Nat.le_sub_one_of_lt ha
          gcongr
      _ < 2 ^ (64 * (xs.length + 1)) := by
          rw [pow64_add]
          have h1 : 1 ≤ 2 ^ (64 * xs.length) := Nat.one_le_two_pow
          have h2 : (1:Nat) ≤ 2 ^ 64 := by norm_num
          rw [Nat.mul_sub, Nat.mul_one]
          omega

theorem natVal_replicate_zero (n : Nat) : natVal (List.replicate n 0) = 0 := by
  induction n with
  | zero => rfl
  | succ m ih => simp [List.replicate_succ, natVal_cons, ih]

theorem natVal_take_drop (x : List Nat) (s : Nat) :
    natVal x = natVal (x.take s) + 2 ^ (64 * (x.take s).length) *
      natVal (x.drop s) := by
  conv_lhs => rw [← List.take_append_drop s x]
  rw [natVal_append]

theorem limbs_bounded_append {x y : List Nat} (hx : limbs_bounded x)
    (hy : limbs_bounded y) : limbs_bounded (x ++ y) := by
  intro l hl
  rcases List.mem_append.1 hl with h | h
  · exact hx l h
  · exact hy l h

theorem limbs_bounded_take (x : List Nat) (s : Nat) (hx : limbs_bounded x) :
    limbs_bounded (x.take s) := fun l hl => hx l (List.mem_of_mem_take hl)

theorem limbs_bounded_drop (x : List Nat) (s : Nat) (hx : limbs_bounded x) :
    limbs_bounded (x.drop s) := fun l hl => hx l (List.mem_of_mem_drop hl)

theorem limbs_bounded_replicate (n v : Nat) (hv : v < 2 ^ 64) :
    limbs_bounded (List.replicate n v) := by
  intro l hl
  rw [List.eq_of_mem_replicate hl]
  exact hv

/-! ### Normalization lemmas -/

theorem natVal_normalize (x : List Nat) : natVal (normalize x) = natVal x := by
  induction x with
  | nil => rfl
  | cons a xs ih =>
    rw [normalize]
    rcases h : normalize xs with _ | ⟨b, bs⟩
    · rw [h] at ih
      simp only [natVal_nil] at ih
      by_cases ha : a = 0 <;>
        simp [ha, natVal_cons, natVal_nil, ← ih]
    · rw [h] at ih
      simp [natVal_cons, ← ih]

theorem normalize_nil_iff (x : List Nat) : normalize x = [] ↔ natVal x = 0 := by
  induction x with
  | nil => simp [natVal_nil, normalize]
  | cons a xs ih =>
    rw [normalize]
    rcases h : normalize xs with _ | ⟨b, bs⟩
    · rw [h] at ih
      by_cases ha : a = 0 <;>
        simp [ha, natVal_cons, ih.1 rfl]
    · rw [h] at ih
      constructor
      · intro hc
        simp at hc
      · intro hv
        rw [natVal_cons] at hv
        have hxs0 : natVal xs = 0 := by
          rcases Nat.eq_zero_or_pos (natVal xs) with h0 | h0
          · exact h0
          · have hpos : 0 < 2 ^ 64 * natVal xs := by positivity
            omega
        exact absurd (ih.2 hxs0) (by simp [h])

theorem is_normalized_iff (x : List Nat) :
    is_normalized x = true ↔ x.getLast? ≠ some 0 := by
  rw [is_normalized, bne_iff_ne]

theorem is_normalized_normalize (x : List Nat) :
    is_normalized (normalize x) = true := by
  induction x with
  | nil => rfl
  | cons a xs ih =>
    rw [normalize]
    rcases h : normalize xs with _ | ⟨b, bs⟩
    · by_cases ha : a = 0
      · simp [ha, is_normalized]
      · rw [is_normalized_iff]
        simp [ha]
    · rw [h] at ih
      rw [is_normalized_iff] at ih ⊢
      rwa [List.getLast?_cons_cons]

theorem normalize_of_is_normalized :
    ∀ x : List Nat, is_normalized x = true → normalize x = x
  | [], _ => rfl
  | [a], h => by
    rw [is_normalized_iff, List.getLast?_singleton] at h
    have ha : a ≠ 0 := by
      intro hc; exact h (by rw [hc])
    rw [normalize]
    simp [normalize, ha]
  | a :: b :: bs, h => by
    have hn : is_normalized (b :: bs) = true := by
      rw [is_normalized_iff] at h ⊢
      rwa [List.getLast?_cons_cons] at h
    rw [normalize, normalize_of_is_normalized (b :: bs) hn]

theorem mem_normalize (x : List Nat) : ∀ l ∈ normalize x, l ∈ x := by
  induction x with
  | nil => intro l hl; simp [normalize] at hl
  | cons a xs ih =>
    intro l hl
    rw [normalize] at hl
    rcases h : normalize xs with _ | ⟨b, bs⟩
    · rw [h] at hl
      by_cases ha : a = 0
      · simp [ha] at hl
      · simp [ha] at hl
        simp [hl]
    · rw [h] at hl
      rcases List.mem_cons.1 hl with rfl | hl2
      · simp
      · have hmem : l ∈ normalize xs := by rw [h]; exact hl2
        have := ih l hmem
        simp [this]

theorem limbs_bounded_normalize (x : List Nat) (hx : limbs_bounded x) :
    limbs_bounded (normalize x) :=
  fun l hl => hx l (mem_normalize x l hl)

theorem normalize_length_le (x : List Nat) :
    (normalize x).length ≤ x.length := by
  induction x with
  | nil => simp [normalize]
  | cons a xs ih =>
    rw [normalize]
    rcases h : normalize xs with _ | ⟨b, bs⟩
    · by_cases h0 : a = 0 <;> simp [h0]
    · rw [h] at ih
      show (a :: b :: bs).length ≤ (a :: xs).length
      simp only [List.length_cons] at ih ⊢
      omega


/-- For bounded limbs, having a nonzero top limb is the same as the value
reaching the top limb's weight. -/
theorem is_normalized_iff_val (x : List Nat) (hb : limbs_bounded x) :
    is_normalized x = true ↔
      (x = [] ∨ 2 ^ (64 * (x.length - 1)) ≤ natVal x) := by
  rcases h : x.getLast? with _ | v
  · rw [List.getLast?_eq_none_iff] at h
    subst h
    simp [is_normalized]
  · obtain ⟨ys, hys⟩ : ∃ ys, x = ys ++ [v] :=
      ⟨x.dropLast, (List.dropLast_append_getLast? v h).symm⟩
    subst hys
    have hlen : (ys ++ [v]).length - 1 = ys.length := by simp
    have hval : natVal (ys ++ [v]) = natVal ys + 2 ^ (64 * ys.length) * v := by
      rw [natVal_append, natVal_cons, natVal_nil]
      ring
    have hysb : limbs_bounded ys := fun l hl => hb l (by simp [hl])
    have hysv : natVal ys < 2 ^ (64 * ys.length) := natVal_lt ys hysb
    rw [is_normalized_iff, List.getLast?_concat, hlen, hval]
    constructor
    · intro hn
      right
      have hv : v ≠ 0 := by
        intro hc; exact hn (by rw [hc])
      have : 1 ≤ v := Nat.one_le_iff_ne_zero.2 hv
      nlinarith
    · intro hor hc
      rcases hor with hc2 | hge
      · simp at hc2
      · have hv0 : v = 0 := by
          injection hc
        rw [hv0, Nat.mul_zero, Nat.add_zero] at hge
        omega

/-- A normalized nonempty vector reaches the weight of its top limb. -/
theorem natVal_ge_of_normalized (x : List Nat) (hb : limbs_bounded x)
    (hn : is_normalized x = true) (hne : x ≠ []) :
    2 ^ (64 * (x.length - 1)) ≤ natVal x := by
  rcases (is_normalized_iff_val x hb).1 hn with h | h
  · exact absurd h hne
  · exact h

/-! ### Comparison -/

theorem rev_cmp_correct (x y : List Nat) (hlen : x.length = y.length)
    (hx : limbs_bounded x) (hy : limbs_bounded y) :
    rev_cmp x y = compare (natVal x) (natVal y) := by
  induction x generalizing y with
  | nil =>
    rcases y with _ | ⟨b, bs⟩
    · simp [rev_cmp, natVal_nil, Nat.compare_eq_eq.2 rfl]
    · simp at hlen
  | cons a xs ih =>
    rcases y with _ | ⟨b, bs⟩
    · simp at hlen
    · have hlen' : xs.length = bs.length := by simpa using hlen
      have hxs : limbs_bounded xs := fun l hl => hx l (by simp [hl])
      have hbs : limbs_bounded bs := fun l hl => hy l (by simp [hl])
      have ha : a < 2 ^ 64 := hx a (by simp)
      have hb : b < 2 ^ 64 := hy b (by simp)
      rw [rev_cmp, ih bs hlen' hxs hbs]
      rcases hc : compare (natVal xs) (natVal bs) with _ | _ | _
      · rw [Nat.compare_eq_lt] at hc
        have hv : a + 2 ^ 64 * natVal xs < b + 2 ^ 64 * natVal bs := by
          nlinarith
        rw [natVal_cons, natVal_cons]
        exact (Nat.compare_eq_lt.2 hv).symm
      · rw [Nat.compare_eq_eq] at hc
        rw [natVal_cons, natVal_cons, hc]
        rcases hab : compare a b with _ | _ | _
        · rw [Nat.compare_eq_lt] at hab
          exact (Nat.compare_eq_lt.2 (by omega)).symm
        · rw [Nat.compare_eq_eq] at hab
          exact (Nat.compare_eq_eq.2 (by omega)).symm
        · rw [Nat.compare_eq_gt] at hab
          exact (Nat.compare_eq_gt.2 (by omega)).symm
      · rw [Nat.compare_eq_gt] at hc
        have hv : b + 2 ^ 64 * natVal bs < a + 2 ^ 64 * natVal xs := by
          nlinarith
        rw [natVal_cons, natVal_cons]
        exact (Nat.compare_eq_gt.2 hv).symm

/-- `compare` agrees with the numeric order on bounded normalized
vectors. -/
theorem compare_vec_correct (x y : List Nat) (hx : limbs_bounded x)
    (hy : limbs_bounded y) (hnx : is_normalized x = true)
    (hny : is_normalized y = true) :
    compare_vec x y = compare (natVal x) (natVal y) := by
  rw [compare_vec]
  rcases hc : compare x.length y.length with _ | _ | _
  · rw [Nat.compare_eq_lt] at hc
    have hyne : y ≠ [] := by
      intro hcon; subst hcon; simp at hc
    have h1 : natVal x < 2 ^ (64 * x.length) := natVal_lt x hx
    have h2 : 2 ^ (64 * (y.length - 1)) ≤ natVal y :=
      natVal_ge_of_normalized y hy hny hyne
    have h3 : 2 ^ (64 * x.length) ≤ 2 ^ (64 * (y.length - 1)) :=
      Nat.pow_le_pow_right (by norm_num) (by omega)
    exact (Nat.compare_eq_lt.2 (by omega)).symm
  · rw [Nat.compare_eq_eq] at hc
    exact rev_cmp_correct x y hc hx hy
  · rw [Nat.compare_eq_gt] at hc
    have hxne : x ≠ [] := by
      intro hcon; subst hcon; simp at hc
    have h1 : natVal y < 2 ^ (64 * y.length) := natVal_lt y hy
    have h2 : 2 ^ (64 * (x.length - 1)) ≤ natVal x :=
      natVal_ge_of_normalized x hx hnx hxne
    have h3 : 2 ^ (64 * y.length) ≤ 2 ^ (64 * (x.length - 1)) :=
      Nat.pow_le_pow_right (by norm_num) (by omega)
    exact (Nat.compare_eq_gt.2 (by omega)).symm

/-! ### Bit-length and disjoint-or lemmas -/

theorem size_succ_div2 (n : Nat) (hn : n ≠ 0) :
    Nat.size n = Nat.size (n / 2) + 1 := by
  apply Nat.le_antisymm
  · rw [Nat.size_le]
    have h1 : n / 2 < 2 ^ Nat.size (n / 2) := Nat.lt_size_self (n / 2)
    have h2 : n ≤ 2 * (n / 2) + 1 := by omega
    calc n ≤ 2 * (n / 2) + 1 := h2
      _ < 2 * 2 ^ Nat.size (n / 2) := by omega
      _ = 2 ^ (Nat.size (n / 2) + 1) := by ring
  · have h3 : 2 ^ Nat.size (n / 2) ≤ n := by
      rcases Nat.eq_zero_or_pos (n / 2) with h | h
      · rw [h, Nat.size_zero]
        omega
      · have hs : 0 < Nat.size (n / 2) := Nat.size_pos.2 h
        have h4 : 2 ^ (Nat.size (n / 2) - 1) ≤ n / 2 :=
          Nat.lt_size.1 (by omega)
        calc 2 ^ Nat.size (n / 2) = 2 * 2 ^ (Nat.size (n / 2) - 1) := by
              rw [← pow_succ']
              congr 1
              omega
          _ ≤ 2 * (n / 2) := by omega
          _ ≤ n := by omega
    have := Nat.lt_size.2 h3
    omega

theorem size_aux_eq (fuel n : Nat) (h : n < 2 ^ fuel) :
    size_aux fuel n = Nat.size n := by
  induction fuel generalizing n with
  | zero =>
    interval_cases n
    simp [size_aux, Nat.size_zero]
  | succ m ih =>
    rw [size_aux]
    by_cases h0 : n = 0
    · simp [h0, Nat.size_zero]
    · have hdiv : n / 2 < 2 ^ m := by
        rw [Nat.div_lt_iff_lt_mul (by norm_num)]
        rw [pow_succ] at h
        omega
      rw [if_neg h0, ih (n / 2) hdiv, ← size_succ_div2 n h0]

theorem size64_eq (n : Nat) (h : n < 2 ^ 64) : size64 n = Nat.size n :=
  size_aux_eq 64 n h

theorem clz64_spec (n : Nat) (h0 : 0 < n) (h : n < 2 ^ 64) :
    2 ^ 63 ≤ n * 2 ^ clz64 n ∧ n * 2 ^ clz64 n < 2 ^ 64 := by
  rw [clz64, size64_eq n h]
  have hs1 : n < 2 ^ Nat.size n := Nat.lt_size_self n
  have hsp : 0 < Nat.size n := Nat.size_pos.2 h0
  have hs2 : 2 ^ (Nat.size n - 1) ≤ n := Nat.lt_size.1 (by omega)
  have hsle : Nat.size n ≤ 64 := Nat.size_le.2 h
  have he1 : 2 ^ (Nat.size n - 1) * 2 ^ (64 - Nat.size n) = 2 ^ 63 := by
    rw [← pow_add]
    congr 1
    omega
  have he2 : 2 ^ Nat.size n * 2 ^ (64 - Nat.size n) = 2 ^ 64 := by
    rw [← pow_add]
    congr 1
    omega
  constructor
  · rw [← he1]
    exact Nat.mul_le_mul_right _ hs2
  · rw [← he2]
    exact Nat.mul_lt_mul_of_pos_right hs1 (by positivity)

theorem clz64_lt (n : Nat) (h0 : 0 < n) : clz64 n < 64 := by
  rw [clz64]
  have : 0 < size64 n := by
    rw [size64, size_aux]
    have : n ≠ 0 := by omega
    simp [this]
  omega

/-- Bitwise or of disjoint ranges is addition. -/
theorem two_pow_mul_lor (n : Nat) : ∀ a b : Nat, b < 2 ^ n →
    (2 ^ n * a) ||| b = 2 ^ n * a + b := by
  induction n with
  | zero =>
    intro a b hb
    interval_cases b
    simp
  | succ m ih =>
    intro a b hb
    have hd : b.div2 < 2 ^ m := by
      rw [Nat.div2_val, Nat.div_lt_iff_lt_mul (by norm_num)]
      rw [pow_succ] at hb
      omega
    have h1 : 2 ^ (m + 1) * a = Nat.bit false (2 ^ m * a) := by
      rw [Nat.bit_val]
      simp [pow_succ]
      ring
    have h2 : b = Nat.bit b.bodd b.div2 := (Nat.bit_decomp b).symm
    rw [h1]
    conv_lhs => rw [h2]
    rw [Nat.lor_bit, ih a b.div2 hd]
    simp only [Bool.false_or]
    rw [Nat.bit_val, Nat.bit_val]
    have h4 : 2 * b.div2 + b.bodd.toNat = b := by
      have hb2 := Nat.bit_decomp b
      rw [Nat.bit_val] at hb2
      omega
    simp only [Bool.toNat_false]
    omega

/-! ### Small-op loop lemmas -/

theorem small_add_loop_spec (x : List Nat) (c : Nat) (hx : limbs_bounded x)
    (hc : c < 2 ^ 64) :
    (small_add_loop x c).1.length = x.length ∧
      limbs_bounded (small_add_loop x c).1 ∧ (small_add_loop x c).2 < 2 ^ 64 ∧
      natVal (small_add_loop x c).1 +
        2 ^ (64 * x.length) * (small_add_loop x c).2 = natVal x + c := by
  induction x generalizing c with
  | nil =>
    refine ⟨rfl, hx, hc, ?_⟩
    simp [small_add_loop, natVal_nil]
  | cons l ls ih =>
    have hl : l < 2 ^ 64 := hx l (by simp)
    have hls : limbs_bounded ls := fun a ha => hx a (by simp [ha])
    by_cases hc0 : c = 0
    · subst hc0
      have hred : small_add_loop (l :: ls) 0 = (l :: ls, 0) := by
        rw [small_add_loop]
        simp
      rw [hred]
      exact ⟨rfl, hx, by norm_num, by simp⟩
    · set c2 : Nat := if (scalar_add l c).2 then 1 else 0 with hc2
      have hc2lt : c2 < 2 ^ 64 := by
        rw [hc2]
        split <;> norm_num
      obtain ⟨ihl, ihb, ihc, ihv⟩ := ih c2 hls hc2lt
      have hred : small_add_loop (l :: ls) c =
          ((scalar_add l c).1 :: (small_add_loop ls c2).1,
           (small_add_loop ls c2).2) := by
        rw [small_add_loop]
        simp [hc0, hc2]
      have hsa : (scalar_add l c).1 + 2 ^ 64 * c2 = l + c := by
        rw [hc2]
        simp only [scalar_add]
        split_ifs with hof
        · simp at hof
          omega
        · simp at hof
          omega
      rw [hred]
      refine ⟨by simp [ihl], ?_, ihc, ?_⟩
      · intro a ha
        rcases List.mem_cons.1 ha with rfl | ha
        · exact Nat.mod_lt _ (by norm_num)
        · exact ihb a ha
      · rw [natVal_cons, natVal_cons, List.length_cons, Nat.mul_succ, pow_add]
        calc (scalar_add l c).1 + 2 ^ 64 * natVal (small_add_loop ls c2).1 +
              2 ^ (64 * ls.length) * 2 ^ 64 * (small_add_loop ls c2).2
            = (scalar_add l c).1 + 2 ^ 64 * (natVal (small_add_loop ls c2).1 +
                2 ^ (64 * ls.length) * (small_add_loop ls c2).2) := by ring
          _ = (scalar_add l c).1 + 2 ^ 64 * (natVal ls + c2) := by rw [ihv]
          _ = ((scalar_add l c).1 + 2 ^ 64 * c2) + 2 ^ 64 * natVal ls := by ring
          _ = (l + c) + 2 ^ 64 * natVal ls := by rw [hsa]
          _ = l + 2 ^ 64 * natVal ls + c := by ring

theorem getLast?_append_right (l l' : List Nat) (h : l' ≠ []) :
    (l ++ l').getLast? = l'.getLast? := by
  rcases hl : l'.getLast? with _ | v
  · rw [List.getLast?_eq_none_iff] at hl
    exact absurd hl h
  · rw [List.getLast?_append, hl]
    rfl

theorem is_normalized_append (l l' : List Nat) (h : l' ≠ []) :
    is_normalized (l ++ l') = is_normalized l' := by
  rw [is_normalized, is_normalized, getLast?_append_right l l' h]

theorem is_normalized_cons (a : Nat) (ls : List Nat) (h : ls ≠ []) :
    is_normalized (a :: ls) = is_normalized ls := by
  have : a :: ls = [a] ++ ls := rfl
  rw [this, is_normalized_append [a] ls h]

theorem is_normalized_singleton_iff (a : Nat) :
    is_normalized [a] = true ↔ a ≠ 0 := by
  rw [is_normalized_iff, List.getLast?_singleton]
  constructor
  · intro h hc
    exact h (by rw [hc])
  · intro h hc
    injection hc with hc
    exact h hc

theorem is_normalized_concat (l : List Nat) (c : Nat) (h : c ≠ 0) :
    is_normalized (l ++ [c]) = true := by
  rw [is_normalized_append l [c] (by simp)]
  exact (is_normalized_singleton_iff c).2 h

theorem is_normalized_drop (x : List Nat) (s : Nat)
    (h : is_normalized x = true) : is_normalized (x.drop s) = true := by
  rcases hd : x.drop s with _ | ⟨b, bs⟩
  · rfl
  · have hx : x = x.take s ++ x.drop s := (List.take_append_drop s x).symm
    rw [hx, is_normalized_append _ _ (by rw [hd]; simp)] at h
    rwa [← hd]

/-- If the carry dies inside the vector, the top limb stays nonzero. -/
theorem small_add_loop_norm (x : List Nat) (c : Nat) (hx : limbs_bounded x)
    (hc : c < 2 ^ 64) (h2 : (small_add_loop x c).2 = 0)
    (hn : is_normalized x = true) :
    is_normalized (small_add_loop x c).1 = true := by
  induction x generalizing c with
  | nil => rfl
  | cons l ls ih =>
    have hl : l < 2 ^ 64 := hx l (by simp)
    have hls : limbs_bounded ls := fun a ha => hx a (by simp [ha])
    by_cases hc0 : c = 0
    · subst hc0
      have hred : small_add_loop (l :: ls) 0 = (l :: ls, 0) := by
        rw [small_add_loop]
        simp
      rw [hred]
      exact hn
    · set c2 : Nat := if (scalar_add l c).2 then 1 else 0 with hc2
      have hc2lt : c2 < 2 ^ 64 := by
        rw [hc2]
        split <;> norm_num
      have hred : small_add_loop (l :: ls) c =
          ((scalar_add l c).1 :: (small_add_loop ls c2).1,
           (small_add_loop ls c2).2) := by
        rw [small_add_loop]
        simp [hc0, hc2]
      rw [hred] at h2 ⊢
      simp only at h2
      by_cases hlsnil : ls = []
      · subst hlsnil
        have hc2z : c2 = 0 := by
          simpa [small_add_loop] using h2
        have hof : (scalar_add l c).2 = false := by
          rw [hc2] at hc2z
          by_contra hcon
          rw [Bool.not_eq_false] at hcon
          rw [hcon] at hc2z
          simp at hc2z
        have hnof : ¬ 2 ^ 64 ≤ l + c := by
          rw [scalar_add] at hof
          simpa using hof
        have hval : (scalar_add l c).1 = l + c := by
          rw [scalar_add]
          simp only
          rw [Nat.mod_eq_of_lt (by omega)]
        show is_normalized [(scalar_add l c).1] = true
        rw [is_normalized_singleton_iff, hval]
        omega
      · have hlne : (small_add_loop ls c2).1 ≠ [] := by
          have hlen := (small_add_loop_spec ls c2 hls hc2lt).1
          intro hcon
          rw [hcon] at hlen
          simp at hlen
          exact hlsnil (List.length_eq_zero.1 hlen.symm)
        rw [is_normalized_cons _ _ hlne]
        exact ih c2 hls hc2lt h2
          (by rwa [is_normalized_cons _ _ hlsnil] at hn)

/-- Value, bounds and normalization of `small_add_from` within capacity. -/
theorem small_add_from_spec (SIZE : Nat) (x : List Nat) (y s : Nat)
    (hx : limbs_bounded x) (hy : y < 2 ^ 64) (hs : s ≤ x.length)
    (hsz : x.length ≤ SIZE)
    (hfit : natVal x + 2 ^ (64 * s) * y < 2 ^ (64 * SIZE)) :
    natVal (small_add_from SIZE x y s) = natVal x + 2 ^ (64 * s) * y ∧
      limbs_bounded (small_add_from SIZE x y s) ∧
      x.length ≤ (small_add_from SIZE x y s).length ∧
      (small_add_from SIZE x y s).length ≤ SIZE ∧
      (is_normalized x = true →
        is_normalized (small_add_from SIZE x y s) = true) := by
  have hdb : limbs_bounded (x.drop s) := limbs_bounded_drop x s hx
  have htb : limbs_bounded (x.take s) := limbs_bounded_take x s hx
  obtain ⟨hll, hlb, hlc, hlv⟩ := small_add_loop_spec (x.drop s) y hdb hy
  have hlen_take : (x.take s).length = s := by
    rw [List.length_take]
    omega
  have hlen_drop : (x.drop s).length = x.length - s := by
    rw [List.length_drop]
  have hx1len : (x.take s ++ (small_add_loop (x.drop s) y).1).length
      = x.length := by
    rw [List.length_append, hll, hlen_take, hlen_drop]
    omega
  have hx1val : natVal (x.take s ++ (small_add_loop (x.drop s) y).1) +
      2 ^ (64 * x.length) * (small_add_loop (x.drop s) y).2
      = natVal x + 2 ^ (64 * s) * y := by
    rw [natVal_append, hlen_take]
    have hsplit := natVal_take_drop x s
    rw [hlen_take] at hsplit
    have hw : 2 ^ (64 * x.length) =
        2 ^ (64 * s) * 2 ^ (64 * (x.drop s).length) := by
      rw [← pow_add, ← Nat.mul_add]
      congr 2
      rw [hlen_drop]
      omega
    calc natVal (x.take s) + 2 ^ (64 * s) * natVal (small_add_loop (x.drop s) y).1 +
          2 ^ (64 * x.length) * (small_add_loop (x.drop s) y).2
        = natVal (x.take s) + 2 ^ (64 * s) *
            (natVal (small_add_loop (x.drop s) y).1 +
             2 ^ (64 * (x.drop s).length) * (small_add_loop (x.drop s) y).2) := by
          rw [hw]
          ring
      _ = natVal (x.take s) + 2 ^ (64 * s) * (natVal (x.drop s) + y) := by
          rw [hlv]
      _ = natVal x + 2 ^ (64 * s) * y := by
          rw [hsplit]
          ring

  have hx1b : limbs_bounded (x.take s ++ (small_add_loop (x.drop s) y).1) :=
    limbs_bounded_append htb hlb
  rw [small_add_from]
  by_cases hcz : (small_add_loop (x.drop s) y).2 = 0
  · simp only [hcz, ne_eq, not_true_eq_false, if_false]
    rw [hcz, Nat.mul_zero, Nat.add_zero] at hx1val
    refine ⟨hx1val, hx1b, by rw [hx1len], by rw [hx1len]; exact hsz, ?_⟩
    intro hn
    by_cases hde : x.drop s = []
    · have hteq : x.take s = x := by
        apply List.take_of_length_le
        rw [List.drop_eq_nil_iff] at hde
        omega
      have hloopnil : (small_add_loop (x.drop s) y) = ([], y) := by
        rw [hde]
        rfl
      rw [hloopnil]
      simp only [List.append_nil]
      rwa [hteq]
    · have hlne : (small_add_loop (x.drop s) y).1 ≠ [] := by
        intro hcon
        rw [hcon] at hll
        simp only [List.length_nil] at hll
        exact hde (List.length_eq_zero.1 hll.symm)
      rw [is_normalized_append _ _ hlne]
      apply small_add_loop_norm (x.drop s) y hdb hy hcz
      exact is_normalized_drop x s hn
  · simp only [hcz, ne_eq, not_false_eq_true, if_true]
    have hpush : (x.take s ++ (small_add_loop (x.drop s) y).1).length < SIZE := by
      rw [hx1len]
      rcases Nat.lt_or_ge x.length SIZE with h | h
      · exact h
      · exfalso
        have hxeq : x.length = SIZE := by omega
        have hge : 2 ^ (64 * SIZE) ≤ natVal x + 2 ^ (64 * s) * y := by
          rw [← hx1val, ← hxeq]
          have h1 : 1 ≤ (small_add_loop (x.drop s) y).2 := by omega
          have h2 : 2 ^ (64 * x.length) ≤
              2 ^ (64 * x.length) * (small_add_loop (x.drop s) y).2 := by
            calc 2 ^ (64 * x.length) = 2 ^ (64 * x.length) * 1 := by ring
              _ ≤ 2 ^ (64 * x.length) * (small_add_loop (x.drop s) y).2 :=
                  Nat.mul_le_mul_left _ h1
          omega
        omega
    rw [try_push, if_pos hpush]
    simp only
    constructor
    · rw [natVal_append, ← hx1val, hx1len]
      rw [natVal_cons, natVal_nil]
      ring
    refine ⟨?_, ?_, ?_, ?_⟩
    · exact limbs_bounded_append hx1b
        (fun a ha => by
          simp at ha
          rw [ha]
          exact hlc)
    · rw [List.length_append, hx1len]
      simp
    · rw [List.length_append, hx1len]
      simp
      omega
    · intro _
      exact is_normalized_concat _ _ hcz

/-- `small_add` value and invariants (start 0). -/
theorem small_add_spec (SIZE : Nat) (x : List Nat) (y : Nat)
    (hx : limbs_bounded x) (hy : y < 2 ^ 64) (hsz : x.length ≤ SIZE)
    (hfit : natVal x + y < 2 ^ (64 * SIZE)) :
    natVal (small_add SIZE x y) = natVal x + y ∧
      limbs_bounded (small_add SIZE x y) ∧
      (small_add SIZE x y).length ≤ SIZE ∧
      (is_normalized x = true → is_normalized (small_add SIZE x y) = true) := by
  have h := small_add_from_spec SIZE x y 0 hx hy (Nat.zero_le _) hsz
    (by simpa using hfit)
  rw [small_add]
  refine ⟨by simpa using h.1, h.2.1, h.2.2.2.1, h.2.2.2.2⟩

theorem small_sub_loop_spec (x : List Nat) (c : Nat) (hx : limbs_bounded x)
    (hc : c < 2 ^ 64) :
    (small_sub_loop x c).1.length = x.length ∧
      limbs_bounded (small_sub_loop x c).1 ∧ (small_sub_loop x c).2 < 2 ^ 64 ∧
      natVal (small_sub_loop x c).1 + c =
        natVal x + 2 ^ (64 * x.length) * (small_sub_loop x c).2 := by
  induction x generalizing c with
  | nil =>
    refine ⟨rfl, hx, hc, ?_⟩
    simp [small_sub_loop, natVal_nil]
  | cons l ls ih =>
    have hl : l < 2 ^ 64 := hx l (by simp)
    have hls : limbs_bounded ls := fun a ha => hx a (by simp [ha])
    by_cases hc0 : c = 0
    · subst hc0
      have hred : small_sub_loop (l :: ls) 0 = (l :: ls, 0) := by
        rw [small_sub_loop]
        simp
      rw [hred]
      exact ⟨rfl, hx, by norm_num, by simp⟩
    · set c2 : Nat := if (scalar_sub l c).2 then 1 else 0 with hc2
      have hc2lt : c2 < 2 ^ 64 := by
        rw [hc2]
        split <;> norm_num
      obtain ⟨ihl, ihb, ihc, ihv⟩ := ih c2 hls hc2lt
      have hred : small_sub_loop (l :: ls) c =
          ((scalar_sub l c).1 :: (small_sub_loop ls c2).1,
           (small_sub_loop ls c2).2) := by
        rw [small_sub_loop]
        simp [hc0, hc2]
      have hsa : (scalar_sub l c).1 + c = l + 2 ^ 64 * c2 := by
        rw [hc2]
        simp only [scalar_sub]
        split_ifs with hof
        · simp at hof
          omega
        · simp at hof
          omega
      rw [hred]
      refine ⟨by simp [ihl], ?_, ihc, ?_⟩
      · intro a ha
        rcases List.mem_cons.1 ha with rfl | ha
        · exact Nat.mod_lt _ (by norm_num)
        · exact ihb a ha
      · rw [natVal_cons, natVal_cons, List.length_cons, Nat.mul_succ, pow_add]
        calc (scalar_sub l c).1 + 2 ^ 64 * natVal (small_sub_loop ls c2).1 + c
            = ((scalar_sub l c).1 + c) +
                2 ^ 64 * natVal (small_sub_loop ls c2).1 := by ring
          _ = l + 2 ^ 64 * c2 + 2 ^ 64 * natVal (small_sub_loop ls c2).1 := by
              rw [hsa]
          _ = l + 2 ^ 64 * (natVal (small_sub_loop ls c2).1 + c2) := by ring
          _ = l + 2 ^ 64 * (natVal ls +
                2 ^ (64 * ls.length) * (small_sub_loop ls c2).2) := by
              rw [ihv]
          _ = l + 2 ^ 64 * natVal ls +
                2 ^ (64 * ls.length) * 2 ^ 64 * (small_sub_loop ls c2).2 := by
              ring

/-- Value and invariants of `small_sub_from`. -/
theorem small_sub_from_spec (x : List Nat) (y s : Nat) (hx : limbs_bounded x)
    (hy : y < 2 ^ 64) (hs : s ≤ x.length) :
    natVal (small_sub_from x y s) + 2 ^ (64 * s) * y =
        natVal x + 2 ^ (64 * x.length) * (small_sub_loop (x.drop s) y).2 ∧
      limbs_bounded (small_sub_from x y s) ∧
      (small_sub_from x y s).length ≤ x.length ∧
      is_normalized (small_sub_from x y s) = true := by
  have hdb : limbs_bounded (x.drop s) := limbs_bounded_drop x s hx
  have htb : limbs_bounded (x.take s) := limbs_bounded_take x s hx
  obtain ⟨hll, hlb, hlc, hlv⟩ := small_sub_loop_spec (x.drop s) y hdb hy
  have hlen_take : (x.take s).length = s := by
    rw [List.length_take]
    omega
  have hlen_drop : (x.drop s).length = x.length - s := List.length_drop s x
  rw [small_sub_from]
  refine ⟨?_, limbs_bounded_normalize _ (limbs_bounded_append htb hlb),
    ?_, is_normalized_normalize _⟩
  · rw [natVal_normalize, natVal_append, hlen_take]
    have hsplit := natVal_take_drop x s
    rw [hlen_take] at hsplit
    have hw : 2 ^ (64 * x.length) =
        2 ^ (64 * s) * 2 ^ (64 * (x.drop s).length) := by
      rw [← pow_add, ← Nat.mul_add]
      congr 2
      omega
    calc natVal (x.take s) + 2 ^ (64 * s) * natVal (small_sub_loop (x.drop s) y).1
          + 2 ^ (64 * s) * y
        = natVal (x.take s) + 2 ^ (64 * s) *
            (natVal (small_sub_loop (x.drop s) y).1 + y) := by ring
      _ = natVal (x.take s) + 2 ^ (64 * s) * (natVal (x.drop s) +
            2 ^ (64 * (x.drop s).length) * (small_sub_loop (x.drop s) y).2) := by
          rw [hlv]
      _ = natVal x + 2 ^ (64 * x.length) * (small_sub_loop (x.drop s) y).2 := by
          rw [hsplit, hw]
          ring
  · calc (normalize (x.take s ++ (small_sub_loop (x.drop s) y).1)).length
        ≤ (x.take s ++ (small_sub_loop (x.drop s) y).1).length :=
          normalize_length_le _
      _ = x.length := by
          rw [List.length_append, hll, hlen_take, hlen_drop]
          omega

theorem small_mul_loop_spec (x : List Nat) (y c : Nat) (hx : limbs_bounded x)
    (hy : y < 2 ^ 64) (hc : c < 2 ^ 64) :
    (small_mul_loop x y c).1.length = x.length ∧
      limbs_bounded (small_mul_loop x y c).1 ∧
      (small_mul_loop x y c).2 < 2 ^ 64 ∧
      natVal (small_mul_loop x y c).1 +
        2 ^ (64 * x.length) * (small_mul_loop x y c).2 = natVal x * y + c := by
  induction x generalizing c with
  | nil =>
    refine ⟨rfl, hx, hc, ?_⟩
    simp [small_mul_loop, natVal_nil]
  | cons l ls ih =>
    have hl : l < 2 ^ 64 := hx l (by simp)
    have hls : limbs_bounded ls := fun a ha => hx a (by simp [ha])
    have hcar : (scalar_mul l y c).2 < 2 ^ 64 := by
      rw [scalar_mul]
      simp only
      have h1 : l * y + c ≤ (2 ^ 64 - 1) * (2 ^ 64 - 1) + (2 ^ 64 - 1) := by
        have := Nat.mul_le_mul (Nat.le_sub_one_of_lt hl)
          (Nat.le_sub_one_of_lt hy)
        omega
      have h2 : (2 ^ 64 - 1) * (2 ^ 64 - 1) + (2 ^ 64 - 1) =
          (2 ^ 64 - 1) * 2 ^ 64 := by ring_nf
      rw [Nat.div_lt_iff_lt_mul (by norm_num)]
      calc l * y + c ≤ (2 ^ 64 - 1) * 2 ^ 64 := by omega
        _ < 2 ^ 64 * 2 ^ 64 := by
            apply Nat.mul_lt_mul_of_pos_right _ (by norm_num)
            omega
  -- continue
    obtain ⟨ihl, ihb, ihc, ihv⟩ := ih ((scalar_mul l y c).2) hls hcar
    have hred : small_mul_loop (l :: ls) y c =
        ((scalar_mul l y c).1 :: (small_mul_loop ls y (scalar_mul l y c).2).1,
         (small_mul_loop ls y (scalar_mul l y c).2).2) := by
      rw [small_mul_loop]
    have hsm : (scalar_mul l y c).1 + 2 ^ 64 * (scalar_mul l y c).2 =
        l * y + c := by
      rw [scalar_mul]
      simp only
      omega
    rw [hred]
    refine ⟨by simp [ihl], ?_, ihc, ?_⟩
    · intro a ha
      rcases List.mem_cons.1 ha with rfl | ha
      · exact Nat.mod_lt _ (by norm_num)
      · exact ihb a ha
    · rw [natVal_cons, natVal_cons, List.length_cons, Nat.mul_succ, pow_add]
      calc (scalar_mul l y c).1 +
            2 ^ 64 * natVal (small_mul_loop ls y (scalar_mul l y c).2).1 +
            2 ^ (64 * ls.length) * 2 ^ 64 *
              (small_mul_loop ls y (scalar_mul l y c).2).2
          = (scalar_mul l y c).1 + 2 ^ 64 *
              (natVal (small_mul_loop ls y (scalar_mul l y c).2).1 +
               2 ^ (64 * ls.length) *
                 (small_mul_loop ls y (scalar_mul l y c).2).2) := by ring
        _ = (scalar_mul l y c).1 + 2 ^ 64 *
              (natVal ls * y + (scalar_mul l y c).2) := by rw [ihv]
        _ = ((scalar_mul l y c).1 + 2 ^ 64 * (scalar_mul l y c).2) +
              2 ^ 64 * (natVal ls * y) := by ring
        _ = (l * y + c) + 2 ^ 64 * (natVal ls * y) := by rw [hsm]
        _ = (l + 2 ^ 64 * natVal ls) * y + c := by ring

theorem small_mul_loop_norm (x : List Nat) (y c : Nat) (hx : limbs_bounded x)
    (hy : 0 < y) (hyb : y < 2 ^ 64) (hc : c < 2 ^ 64)
    (h2 : (small_mul_loop x y c).2 = 0) (hn : is_normalized x = true) :
    is_normalized (small_mul_loop x y c).1 = true := by
  induction x generalizing c with
  | nil => rfl
  | cons l ls ih =>
    have hl : l < 2 ^ 64 := hx l (by simp)
    have hls : limbs_bounded ls := fun a ha => hx a (by simp [ha])
    have hcar : (scalar_mul l y c).2 < 2 ^ 64 := by
      have := (small_mul_loop_spec (l :: ls) y c hx hyb hc).2.2.1
      rw [scalar_mul]
      simp only
      have h1 : l * y + c < 2 ^ 64 * 2 ^ 64 := by
        have hle := Nat.mul_le_mul (Nat.le_sub_one_of_lt hl)
          (Nat.le_sub_one_of_lt hyb)
        have h2 : (2 ^ 64 - 1) * (2 ^ 64 - 1) + (2 ^ 64 - 1) =
            (2 ^ 64 - 1) * 2 ^ 64 := by ring_nf
        nlinarith
      rw [Nat.div_lt_iff_lt_mul (by norm_num)]
      omega
    have hred : small_mul_loop (l :: ls) y c =
        ((scalar_mul l y c).1 :: (small_mul_loop ls y (scalar_mul l y c).2).1,
         (small_mul_loop ls y (scalar_mul l y c).2).2) := by
      rw [small_mul_loop]
    rw [hred] at h2 ⊢
    simp only at h2
    by_cases hlsnil : ls = []
    · subst hlsnil
      have hcz : (scalar_mul l y c).2 = 0 := by
        simpa [small_mul_loop] using h2
      have hlpos : 0 < l := by
        have := (is_normalized_singleton_iff l).1 hn
        omega
      have hfit : l * y + c < 2 ^ 64 := by
        rw [scalar_mul] at hcz
        simp only at hcz
        have := Nat.div_eq_zero_iff (by norm_num : 0 < 2 ^ 64) |>.1 hcz
        exact this
      have hval : (scalar_mul l y c).1 = l * y + c := by
        rw [scalar_mul]
        simp only
        rw [Nat.mod_eq_of_lt hfit]
      show is_normalized [(scalar_mul l y c).1] = true
      rw [is_normalized_singleton_iff, hval]
      have : 1 * 1 ≤ l * y := Nat.mul_le_mul hlpos hy
      omega
    · have hlne : (small_mul_loop ls y (scalar_mul l y c).2).1 ≠ [] := by
        have hlen := (small_mul_loop_spec ls y (scalar_mul l y c).2 hls hyb
          hcar).1
        intro hcon
        rw [hcon] at hlen
        simp only [List.length_nil] at hlen
        exact hlsnil (List.length_eq_zero.1 hlen.symm)
      rw [is_normalized_cons _ _ hlne]
      exact ih (scalar_mul l y c).2 hls hcar h2
        (by rwa [is_normalized_cons _ _ hlsnil] at hn)

/-- Value, bounds and normalization of `small_mul` within capacity. -/
theorem small_mul_spec (SIZE : Nat) (x : List Nat) (y : Nat)
    (hx : limbs_bounded x) (hy : y < 2 ^ 64) (hsz : x.length ≤ SIZE)
    (hfit : natVal x * y < 2 ^ (64 * SIZE)) :
    natVal (small_mul SIZE x y) = natVal x * y ∧
      limbs_bounded (small_mul SIZE x y) ∧
      (small_mul SIZE x y).length ≤ SIZE ∧
      x.length ≤ (small_mul SIZE x y).length ∧
      (is_normalized x = true → 0 < y →
        is_normalized (small_mul SIZE x y) = true) := by
  obtain ⟨hll, hlb, hlc, hlv⟩ := small_mul_loop_spec x y 0 hx hy (by norm_num)
  rw [Nat.add_zero] at hlv
  rw [small_mul]
  by_cases hcz : (small_mul_loop x y 0).2 = 0
  · simp only [hcz, ne_eq, not_true_eq_false, if_false]
    rw [hcz, Nat.mul_zero, Nat.add_zero] at hlv
    refine ⟨hlv, hlb, by rw [hll]; exact hsz, by rw [hll], ?_⟩
    intro hn hy0
    exact small_mul_loop_norm x y 0 hx hy0 hy (by norm_num) hcz hn
  · simp only [hcz, ne_eq, not_false_eq_true, if_true]
    have hpush : (small_mul_loop x y 0).1.length < SIZE := by
      rw [hll]
      rcases Nat.lt_or_ge x.length SIZE with h | h
      · exact h
      · exfalso
        have hxeq : x.length = SIZE := by omega
        have h1 : 1 ≤ (small_mul_loop x y 0).2 := by omega
        have h2 : 2 ^ (64 * SIZE) ≤
            2 ^ (64 * x.length) * (small_mul_loop x y 0).2 := by
          calc 2 ^ (64 * SIZE) = 2 ^ (64 * x.length) * 1 := by rw [hxeq]; ring
            _ ≤ 2 ^ (64 * x.length) * (small_mul_loop x y 0).2 :=
                Nat.mul_le_mul_left _ h1
        omega
    rw [try_push, if_pos hpush]
    simp only
    refine ⟨?_, ?_, ?_, ?_, ?_⟩
    · rw [natVal_append, hll, natVal_cons, natVal_nil, ← hlv]
      ring
    · exact limbs_bounded_append hlb
        (fun a ha => by
          simp at ha
          rw [ha]
          exact hlc)
    · rw [List.length_append, hll]
      simp
      omega
    · rw [List.length_append, hll]
      simp
    · intro _ _
      exact is_normalized_concat _ _ hcz

/-- `small_sub` is always normalized. -/
theorem small_sub_norm (x : List Nat) (y : Nat) :
    is_normalized (small_sub x y) = true := by
  rw [small_sub, small_sub_from]
  exact is_normalized_normalize _

/-- `small_div` leaves the vector normalized. -/
theorem small_div_norm (x : List Nat) (y : Nat) :
    is_normalized (small_div x y).1 = true := by
  rw [small_div]
  exact is_normalized_normalize _

/-! ### large_sub -/

theorem large_sub_loop_spec (y x : List Nat) (b : Bool)
    (hx : limbs_bounded x) (hy : limbs_bounded y) (hlen : y.length ≤ x.length) :
    (large_sub_loop x y b).1.length = x.length ∧
      limbs_bounded (large_sub_loop x y b).1 ∧
      natVal (large_sub_loop x y b).1 + natVal y + b.toNat =
        natVal x + 2 ^ (64 * y.length) * (large_sub_loop x y b).2.toNat := by
  induction y generalizing x b with
  | nil =>
    have hred : large_sub_loop x [] b = (x, b) := by
      cases x <;> rfl
    rw [hred]
    refine ⟨rfl, hx, ?_⟩
    simp [natVal_nil]
  | cons yi ys ih =>
    rcases x with _ | ⟨xi, xs⟩
    · simp at hlen
    · have hxi : xi < 2 ^ 64 := hx xi (by simp)
      have hyi : yi < 2 ^ 64 := hy yi (by simp)
      have hxs : limbs_bounded xs := fun a ha => hx a (by simp [ha])
      have hys : limbs_bounded ys := fun a ha => hy a (by simp [ha])
      have hlen' : ys.length ≤ xs.length := by simpa using hlen
      set r1 := scalar_sub xi yi with hr1
      set r2 := if b then scalar_sub r1.1 1 else (r1.1, false) with hr2
      have hred : large_sub_loop (xi :: xs) (yi :: ys) b =
          (r2.1 :: (large_sub_loop xs ys (r1.2 || r2.2)).1,
           (large_sub_loop xs ys (r1.2 || r2.2)).2) := by
        rw [large_sub_loop]
      obtain ⟨ihl, ihb, ihv⟩ := ih xs (r1.2 || r2.2) hxs hys hlen'
      have hstep : r2.1 + yi + b.toNat =
          xi + 2 ^ 64 * (r1.2 || r2.2).toNat := by
        rw [hr2, hr1]
        cases b with
        | false =>
          simp only [Bool.false_eq_true, if_false, Bool.or_false,
            Bool.toNat_false, Nat.add_zero]
          rw [scalar_sub]
          simp only
          by_cases hlt : xi < yi
          · simp [hlt]
            omega
          · simp [hlt]
            omega
        | true =>
          simp only [if_true, Bool.toNat_true]
          rw [scalar_sub, scalar_sub]
          simp only
          by_cases hlt : xi < yi
          · have h1 : (xi + 2 ^ 64 - yi) % 2 ^ 64 = xi + 2 ^ 64 - yi := by
              rw [Nat.mod_eq_of_lt]
              omega
            rw [h1]
            by_cases hlt2 : xi + 2 ^ 64 - yi < 1
            · omega
            · simp [hlt, hlt2]
              omega
          · have h1 : (xi + 2 ^ 64 - yi) % 2 ^ 64 = xi - yi := by
              have : xi + 2 ^ 64 - yi = (xi - yi) + 1 * 2 ^ 64 := by omega
              rw [this, Nat.add_mul_mod_self_right, Nat.mod_eq_of_lt (by omega)]
            rw [h1]
            by_cases hlt2 : xi - yi < 1
            · simp [hlt, hlt2]
              omega
            · simp [hlt, hlt2]
              omega
      rw [hred]
      refine ⟨by simp [ihl], ?_, ?_⟩
      · intro a ha
        rcases List.mem_cons.1 ha with rfl | ha
        · rw [hr2]
          cases b
          · simp only [Bool.false_eq_true, if_false]
            rw [hr1, scalar_sub]
            exact Nat.mod_lt _ (by norm_num)
          · simp only [if_true]
            rw [scalar_sub]
            exact Nat.mod_lt _ (by norm_num)
        · exact ihb a ha
      · rw [natVal_cons, natVal_cons, natVal_cons, List.length_cons,
          Nat.mul_succ, pow_add]
        calc r2.1 + 2 ^ 64 * natVal (large_sub_loop xs ys (r1.2 || r2.2)).1 +
              (yi + 2 ^ 64 * natVal ys) + b.toNat
            = (r2.1 + yi + b.toNat) + 2 ^ 64 *
                (natVal (large_sub_loop xs ys (r1.2 || r2.2)).1 + natVal ys) := by
              ring
          _ = xi + 2 ^ 64 * (r1.2 || r2.2).toNat + 2 ^ 64 *
                (natVal (large_sub_loop xs ys (r1.2 || r2.2)).1 + natVal ys) := by
              rw [hstep]
          _ = xi + 2 ^ 64 * ((natVal (large_sub_loop xs ys (r1.2 || r2.2)).1 +
                natVal ys + (r1.2 || r2.2).toNat)) := by ring
          _ = xi + 2 ^ 64 * (natVal xs + 2 ^ (64 * ys.length) *
                (large_sub_loop xs ys (r1.2 || r2.2)).2.toNat) := by rw [ihv]
          _ = xi + 2 ^ 64 * natVal xs + 2 ^ (64 * ys.length) * 2 ^ 64 *
                (large_sub_loop xs ys (r1.2 || r2.2)).2.toNat := by ring

/-- Full behaviour of `large_sub` on bounded normalized inputs. -/
theorem large_sub_spec (x y : List Nat) (hx : limbs_bounded x)
    (hy : limbs_bounded y) (hnx : is_normalized x = true)
    (hny : is_normalized y = true) :
    (natVal y ≤ natVal x →
      natVal (large_sub x y) + natVal y = natVal x) ∧
    (natVal x < natVal y → large_sub x y = []) ∧
    limbs_bounded (large_sub x y) ∧
    (large_sub x y).length ≤ x.length ∧
    is_normalized (large_sub x y) = true := by
  rw [large_sub]
  by_cases hlen : x.length < y.length
  · rw [if_pos hlen]
    have hyne : y ≠ [] := by
      intro hc
      rw [hc] at hlen
      simp at hlen
    have hlt : natVal x < natVal y := by
      have h1 : natVal x < 2 ^ (64 * x.length) := natVal_lt x hx
      have h2 : 2 ^ (64 * (y.length - 1)) ≤ natVal y :=
        natVal_ge_of_normalized y hy hny hyne
      have h3 : 2 ^ (64 * x.length) ≤ 2 ^ (64 * (y.length - 1)) :=
        Nat.pow_le_pow_right (by norm_num) (by omega)
      omega
    exact ⟨fun hge => absurd hge (by omega), fun _ => rfl,
      by intro l hl; simp at hl, by simp, rfl⟩
  · rw [if_neg hlen]
    push_neg at hlen
    obtain ⟨hll, hlb, hlv⟩ := large_sub_loop_spec y x false hx hy hlen
    simp only [Bool.toNat_false, Nat.add_zero] at hlv
    by_cases hbo : (large_sub_loop x y false).2 = true
    · rw [hbo] at hlv
      simp only [Bool.toNat_true, Nat.mul_one] at hlv
      by_cases hgt : y.length < x.length
      · have hcond : ((large_sub_loop x y false).2 &&
            decide (y.length < x.length)) = true := by
          rw [hbo, decide_eq_true hgt]
          rfl
        rw [if_pos hcond]
        -- x normalized with more limbs than y, so y ≤ x numerically
        have hxne : x ≠ [] := by
          intro hc
          rw [hc] at hgt
          simp at hgt
        have hyx : natVal y < natVal x := by
          have h1 : natVal y < 2 ^ (64 * y.length) := natVal_lt y hy
          have h2 : 2 ^ (64 * (x.length - 1)) ≤ natVal x :=
            natVal_ge_of_normalized x hx hnx hxne
          have h3 : 2 ^ (64 * y.length) ≤ 2 ^ (64 * (x.length - 1)) :=
            Nat.pow_le_pow_right (by norm_num) (by omega)
          omega
        obtain ⟨hsv, hsb, hsl, hsn⟩ := small_sub_from_spec
          (large_sub_loop x y false).1 1 y.length hlb (by norm_num)
          (by rw [hll]; omega)
        rw [Nat.mul_one] at hsv
        have hb2 : (small_sub_loop ((large_sub_loop x y false).1.drop y.length)
            1).2 = 0 := by
          by_contra hcon
          have hb2b : (small_sub_loop ((large_sub_loop x y false).1.drop
              y.length) 1).2 < 2 ^ 64 :=
            (small_sub_loop_spec _ 1
              (limbs_bounded_drop _ _ hlb) (by norm_num)).2.2.1
          have hge1 : 1 ≤ (small_sub_loop ((large_sub_loop x y false).1.drop
              y.length) 1).2 := by omega
          -- then result value ≥ 2^(64*x.length), impossible
          have hresb : natVal (small_sub_from (large_sub_loop x y false).1 1
              y.length) < 2 ^ (64 * x.length) := by
            have h4 := natVal_lt _ hsb
            have h5 : 2 ^ (64 * (small_sub_from (large_sub_loop x y false).1 1
                y.length).length) ≤ 2 ^ (64 * x.length) := by
              apply Nat.pow_le_pow_right (by norm_num)
              have := hsl
              rw [hll] at this
              omega
            omega
          rw [hll] at hsv
          have hxv : natVal x < 2 ^ (64 * x.length) := natVal_lt x hx
          have hge2 : 2 ^ (64 * x.length) * 1 ≤ 2 ^ (64 * x.length) *
              (small_sub_loop ((large_sub_loop x y false).1.drop y.length)
                1).2 := Nat.mul_le_mul_left _ hge1
          omega
        rw [hb2, Nat.mul_zero, Nat.add_zero] at hsv
        -- value: res + 2^(64*ly) = loop.1; loop.1 + y = x + 2^(64*ly)
        refine ⟨?_, ?_, hsb, by rw [hll] at hsl; exact hsl, hsn⟩
        · intro _
          omega
        · intro hcon
          omega
      · have hcond : ((large_sub_loop x y false).2 &&
            decide (y.length < x.length)) = false := by
          rw [decide_eq_false hgt]
          simp
        rw [if_neg (by rw [hcond]; simp), if_pos hbo]
        have hxy : x.length = y.length := by omega
        have hlt : natVal x < natVal y := by
          have h1 : natVal (large_sub_loop x y false).1 <
              2 ^ (64 * x.length) := by
            have := natVal_lt _ hlb
            rwa [hll] at this
          rw [hxy] at h1
          omega
        exact ⟨fun hge => by omega, fun _ => rfl,
          by intro l hl; simp at hl, by simp, rfl⟩
    · have hbf : (large_sub_loop x y false).2 = false := by
        rw [Bool.not_eq_true] at hbo
        exact hbo
      have hcond : ((large_sub_loop x y false).2 &&
          decide (y.length < x.length)) = false := by
        rw [hbf]
        simp
      rw [if_neg (by rw [hcond]; simp), if_neg (by rw [hbf]; simp)]
      rw [hbf] at hlv
      simp only [Bool.toNat_false, Nat.mul_zero, Nat.add_zero] at hlv
      refine ⟨?_, ?_, limbs_bounded_normalize _ hlb, ?_, is_normalized_normalize _⟩
      · intro _
        rw [natVal_normalize]
        omega
      · intro hcon
        omega
      · calc (normalize (large_sub_loop x y false).1).length
            ≤ (large_sub_loop x y false).1.length := normalize_length_le _
          _ = x.length := hll

/-- C7: for every pair of bounded, normalized vectors, `large_sub v w`
leaves `v` holding `v - w` when `v ≥ w`, becomes empty (zero) when
`v < w`, and is normalized in both cases. -/
theorem large_sub_correct (x y : List Nat) (hx : limbs_bounded x)
    (hy : limbs_bounded y) (hnx : is_normalized x = true)
    (hny : is_normalized y = true) :
    (natVal y ≤ natVal x → natVal (large_sub x y) + natVal y = natVal x) ∧
    (natVal x < natVal y → large_sub x y = []) ∧
    is_normalized (large_sub x y) = true := by
  obtain ⟨h1, h2, _, _, h5⟩ := large_sub_spec x y hx hy hnx hny
  exact ⟨h1, h2, h5⟩

/-- Witness for C7 at `x = [5, 7]`, `y = [6, 3]` (so `x - y` borrows across
limbs) and at `x = [1]`, `y = [2]` (underflow to zero). -/
theorem large_sub_correct_witness :
    (natVal [6, 3] ≤ natVal [5, 7] ∧
      natVal (large_sub [5, 7] [6, 3]) + natVal [6, 3] = natVal [5, 7]) ∧
    (natVal [1] < natVal [2] ∧ large_sub [1] [2] = []) := by
  constructor
  · exact ⟨by decide,
      (large_sub_correct [5, 7] [6, 3] (by decide) (by decide) (by decide)
        (by decide)).1 (by decide)⟩
  · exact ⟨by decide,
      (large_sub_correct [1] [2] (by decide) (by decide) (by decide)
        (by decide)).2.1 (by decide)⟩

/-! ### hi64 -/

/-- The claim's reading of the high-64-bit extractor: the most significant
64 bits of `N` shifted so the leading 1 occupies bit 63. -/
def hi64_spec_val (N : Nat) : Nat :=
  if Nat.size N ≤ 64 then N <<< (64 - Nat.size N)
  else N >>> (Nat.size N - 64)

/-- The claim's truncation flag: some bit below the returned 64 is set. -/
def hi64_spec_trunc (N : Nat) : Bool :=
  decide (N % 2 ^ (Nat.size N - 64) ≠ 0)

theorem size_add_mul (a N : Nat) (ha : a < 2 ^ 64) (hN : 1 ≤ N) :
    Nat.size (a + 2 ^ 64 * N) = 64 + Nat.size N := by
  have h1 : N < 2 ^ Nat.size N := Nat.lt_size_self N
  have hsp : 0 < Nat.size N := Nat.size_pos.2 hN
  have h2 : 2 ^ (Nat.size N - 1) ≤ N := Nat.lt_size.1 (by omega)
  apply Nat.le_antisymm
  · rw [Nat.size_le, pow_add]
    calc a + 2 ^ 64 * N < 2 ^ 64 + 2 ^ 64 * N := by omega
      _ = 2 ^ 64 * (N + 1) := by ring
      _ ≤ 2 ^ 64 * 2 ^ Nat.size N := by
          apply Nat.mul_le_mul_left
          omega
  · have h3 : 2 ^ (64 + Nat.size N - 1) ≤ a + 2 ^ 64 * N := by
      calc 2 ^ (64 + Nat.size N - 1) = 2 ^ 64 * 2 ^ (Nat.size N - 1) := by
            rw [← pow_add]
            congr 1
            omega
        _ ≤ 2 ^ 64 * N := Nat.mul_le_mul_left _ h2
        _ ≤ a + 2 ^ 64 * N := by omega
    have := Nat.lt_size.2 h3
    omega

theorem add_mul_mod_pow (a N M : Nat) (ha : a < 2 ^ 64) :
    (a + 2 ^ 64 * N) % (2 ^ 64 * M) = a + 2 ^ 64 * (N % M) := by
  rcases Nat.eq_zero_or_pos M with rfl | hM
  · simp
  · have hr : N % M < M := Nat.mod_lt _ hM
    have hdecomp : a + 2 ^ 64 * N =
        (a + 2 ^ 64 * (N % M)) + (2 ^ 64 * M) * (N / M) := by
      conv_lhs => rw [← Nat.div_add_mod N M]
      ring
    rw [hdecomp, Nat.add_mul_mod_self_left, Nat.mod_eq_of_lt]
    have h1 : 2 ^ 64 * (N % M) + 2 ^ 64 ≤ 2 ^ 64 * M := by
      have h2 : N % M + 1 ≤ M := hr
      calc 2 ^ 64 * (N % M) + 2 ^ 64 = 2 ^ 64 * (N % M + 1) := by ring
        _ ≤ 2 ^ 64 * M := Nat.mul_le_mul_left _ h2
    omega

theorem u64_to_hi64_1_spec (v : Nat) (_hv : 0 < v) (hb : v < 2 ^ 64) :
    u64_to_hi64_1 v = (hi64_spec_val v, hi64_spec_trunc v) := by
  rw [u64_to_hi64_1, hi64_spec_val, hi64_spec_trunc]
  have hs : Nat.size v ≤ 64 := Nat.size_le.2 hb
  rw [if_pos hs]
  have h0 : v % 2 ^ (Nat.size v - 64) = 0 := by
    have hz : Nat.size v - 64 = 0 := by omega
    rw [hz]
    simp [Nat.mod_one]
  rw [clz64, size64_eq v hb]
  simp [h0]

theorem u64_to_hi64_2_spec (hi lo : Nat) (hhi0 : 0 < hi) (hhi : hi < 2 ^ 64)
    (hlo : lo < 2 ^ 64) :
    u64_to_hi64_2 hi lo =
      (hi64_spec_val (lo + 2 ^ 64 * hi), hi64_spec_trunc (lo + 2 ^ 64 * hi)) := by
  have hs1 : 1 ≤ Nat.size hi := Nat.size_pos.2 hhi0
  have hs64 : Nat.size hi ≤ 64 := Nat.size_le.2 hhi
  have hL : Nat.size (lo + 2 ^ 64 * hi) = 64 + Nat.size hi :=
    size_add_mul lo hi hlo hhi0
  have hLgt : ¬ Nat.size (lo + 2 ^ 64 * hi) ≤ 64 := by omega
  have hLs : Nat.size (lo + 2 ^ 64 * hi) - 64 = Nat.size hi := by omega
  rw [hi64_spec_val, if_neg hLgt, hi64_spec_trunc, hLs]
  have hclz : clz64 hi = 64 - Nat.size hi := by
    rw [clz64, size64_eq hi hhi]
  rw [u64_to_hi64_2]
  simp only [hclz]
  by_cases hs : Nat.size hi = 64
  · rw [hs]
    simp only [Nat.sub_self, Nat.sub_zero]
    have hv : (lo + 2 ^ 64 * hi) >>> 64 = hi := by
      rw [Nat.shiftRight_eq_div_pow, Nat.add_mul_div_left _ _ (by norm_num),
        Nat.div_eq_of_lt hlo]
      omega
    have ht : (lo + 2 ^ 64 * hi) % 2 ^ 64 = lo := by
      rw [Nat.add_mul_mod_self_left, Nat.mod_eq_of_lt hlo]
    rw [hv, ht]
    have hsh : lo <<< 0 = lo := by
      rw [Nat.shiftLeft_eq]
      simp
    rw [hsh, Nat.mod_eq_of_lt hlo]
  · have hlt : Nat.size hi < 64 := by omega
    obtain ⟨k, hk⟩ : ∃ k, 64 - Nat.size hi = k + 1 := ⟨63 - Nat.size hi, by omega⟩
    rw [hk]
    simp only
    have hsum : Nat.size hi + (k + 1) = 64 := by omega
    have hpow : (2 : Nat) ^ 64 = 2 ^ Nat.size hi * 2 ^ (k + 1) := by
      rw [← pow_add, hsum]
    have hsub : 64 - (k + 1) = Nat.size hi := by omega
    -- the shifted top limb does not wrap
    have hhi_shift : hi <<< (k + 1) < 2 ^ 64 := by
      rw [Nat.shiftLeft_eq]
      have := (clz64_spec hi hhi0 hhi).2
      rw [hclz, hk] at this
      exact this
    have hmod1 : (hi <<< (k + 1)) % 2 ^ 64 = 2 ^ (k + 1) * hi := by
      rw [Nat.mod_eq_of_lt hhi_shift, Nat.shiftLeft_eq]
      ring
    have hdivlt : lo >>> (64 - (k + 1)) < 2 ^ (k + 1) := by
      rw [hsub, Nat.shiftRight_eq_div_pow]
      rw [Nat.div_lt_iff_lt_mul (by positivity)]
      calc lo < 2 ^ 64 := hlo
        _ = 2 ^ (k + 1) * 2 ^ Nat.size hi := by rw [← pow_add]; congr 1; omega
    have hv : (hi <<< (k + 1)) % 2 ^ 64 ||| lo >>> (64 - (k + 1)) =
        (lo + 2 ^ 64 * hi) >>> Nat.size hi := by
      rw [hmod1, two_pow_mul_lor (k + 1) hi _ hdivlt, hsub,
        Nat.shiftRight_eq_div_pow, Nat.shiftRight_eq_div_pow]
      rw [hpow]
      have : lo + 2 ^ Nat.size hi * 2 ^ (k + 1) * hi =
          lo + 2 ^ Nat.size hi * (2 ^ (k + 1) * hi) := by ring
      rw [this, Nat.add_mul_div_left _ _ (by positivity)]
      ring
    have ht : ((lo <<< (k + 1)) % 2 ^ 64 ≠ 0) ↔
        ((lo + 2 ^ 64 * hi) % 2 ^ Nat.size hi ≠ 0) := by
      rw [Nat.shiftLeft_eq, hpow]
      have h1 : lo * 2 ^ (k + 1) % (2 ^ Nat.size hi * 2 ^ (k + 1)) =
          lo % 2 ^ Nat.size hi * 2 ^ (k + 1) :=
        Nat.mul_mod_mul_right _ _ _
      have h2 : (lo + 2 ^ Nat.size hi * 2 ^ (k + 1) * hi) % 2 ^ Nat.size hi =
          lo % 2 ^ Nat.size hi := by
        have : 2 ^ Nat.size hi * 2 ^ (k + 1) * hi =
            2 ^ Nat.size hi * (2 ^ (k + 1) * hi) := by ring
        rw [this, Nat.add_mul_mod_self_left]
      rw [h1, h2]
      constructor
      · intro hne hc
        exact hne (by rw [hc]; ring)
      · intro hne hc
        rcases Nat.mul_eq_zero.1 hc with h | h
        · exact hne h
        · exact absurd h (by positivity)
    rw [hv]
    congr 1
    simp only [ne_eq, decide_eq_decide]
    rw [not_iff_not] at ht
    rw [not_iff_not]
    exact ht

theorem hi64_pair (lo hi : Nat) : hi64 [lo, hi] = u64_to_hi64_2 hi lo := rfl

theorem hi64_single (v : Nat) : hi64 [v] = u64_to_hi64_1 v := rfl

theorem hi64_cons (a : Nat) (rest : List Nat) (h : 2 ≤ rest.length) :
    hi64 (a :: rest) = ((hi64 rest).1, (hi64 rest).2 || decide (a ≠ 0)) := by
  rcases hrev : rest.reverse with _ | ⟨r0, t1⟩
  · have : rest = [] := by
      have := congrArg List.reverse hrev
      simpa using this
    rw [this] at h
    simp at h
  · rcases t1 with _ | ⟨r1, t⟩
    · have : rest.length = 1 := by
        have := congrArg List.length hrev
        simpa using this
      omega
    · have hrev2 : (a :: rest).reverse = r0 :: r1 :: (t ++ [a]) := by
        rw [List.reverse_cons, hrev]
        simp
      rw [hi64, hi64, hrev2, hrev]
      rcases t with _ | ⟨u, us⟩
      · simp
      · simp [List.any_append, Bool.or_assoc]

theorem hi64_spec_cons (a N : Nat) (ha : a < 2 ^ 64) (hN : 2 ^ 64 ≤ N) :
    hi64_spec_val (a + 2 ^ 64 * N) = hi64_spec_val N ∧
    hi64_spec_trunc (a + 2 ^ 64 * N) =
      (hi64_spec_trunc N || decide (a ≠ 0)) := by
  have hL : 64 < Nat.size N := Nat.lt_size.2 hN
  have hN1 : 1 ≤ N := by omega
  have hL2 : Nat.size (a + 2 ^ 64 * N) = 64 + Nat.size N :=
    size_add_mul a N ha hN1
  have hLs : Nat.size (a + 2 ^ 64 * N) - 64 = Nat.size N := by omega
  constructor
  · rw [hi64_spec_val, hi64_spec_val, if_neg (by omega), if_neg (by omega),
      hLs]
    rw [Nat.shiftRight_eq_div_pow, Nat.shiftRight_eq_div_pow]
    have hsplit : (2 : Nat) ^ Nat.size N = 2 ^ 64 * 2 ^ (Nat.size N - 64) := by
      rw [← pow_add]
      congr 1
      omega
    rw [hsplit, ← Nat.div_div_eq_div_mul, Nat.add_mul_div_left _ _
      (by norm_num), Nat.div_eq_of_lt ha]
    simp
  · rw [hi64_spec_trunc, hi64_spec_trunc, hLs]
    have hsplit : (2 : Nat) ^ Nat.size N = 2 ^ 64 * 2 ^ (Nat.size N - 64) := by
      rw [← pow_add]
      congr 1
      omega
    rw [hsplit, add_mul_mod_pow a N _ ha]
    have hgoal : (a + 2 ^ 64 * (N % 2 ^ (Nat.size N - 64)) ≠ 0) ↔
        (N % 2 ^ (Nat.size N - 64) ≠ 0 ∨ a ≠ 0) := by
      constructor
      · intro hne
        by_contra hc
        push_neg at hc
        exact hne (by rw [hc.1, hc.2]; ring)
      · intro hor hc
        rcases hor with h | h
        · have hz : 2 ^ 64 * (N % 2 ^ (Nat.size N - 64)) = 0 := by omega
          rcases Nat.mul_eq_zero.1 hz with h2 | h2
          · exact absurd h2 (by positivity)
          · exact h h2
        · exact h (by omega)
    calc decide (a + 2 ^ 64 * (N % 2 ^ (Nat.size N - 64)) ≠ 0)
        = decide ((N % 2 ^ (Nat.size N - 64) ≠ 0) ∨ (a ≠ 0)) :=
          decide_eq_decide.mpr hgoal
      _ = (decide (N % 2 ^ (Nat.size N - 64) ≠ 0) || decide (a ≠ 0)) := by
          rw [Bool.decide_or]

/-- C6: for every non-empty bounded normalized vector, `hi64` returns the
most significant 64 bits of the stored integer shifted so the leading 1
occupies bit 63, together with a flag that is true iff any bit below those
64 is nonzero.  (The value thus depends only on the integer, not on the
number of lower limbs.) -/
theorem hi64_correct (x : List Nat) (hx : limbs_bounded x)
    (hn : is_normalized x = true) (hne : x ≠ []) :
    hi64 x = (hi64_spec_val (natVal x), hi64_spec_trunc (natVal x)) := by
  induction x with
  | nil => exact absurd rfl hne
  | cons a rest ih =>
    have ha : a < 2 ^ 64 := hx a (by simp)
    have hrb : limbs_bounded rest := fun l hl => hx l (by simp [hl])
    rcases rest with _ | ⟨b, rest2⟩
    · -- singleton
      have ha0 : a ≠ 0 := (is_normalized_singleton_iff a).1 hn
      have hval : natVal [a] = a := by simp [natVal_cons, natVal_nil]
      rw [hi64_single, hval]
      exact u64_to_hi64_1_spec a (by omega) ha
    · rcases rest2 with _ | ⟨c, rest3⟩
      · -- two limbs
        have hb : b < 2 ^ 64 := hx b (by simp)
        have hb0 : b ≠ 0 := by
          rw [is_normalized_iff] at hn
          intro hc
          apply hn
          subst hc
          rfl
        have hval : natVal [a, b] = a + 2 ^ 64 * b := by
          simp [natVal_cons, natVal_nil]
        rw [hi64_pair, hval]
        exact u64_to_hi64_2_spec b a (by omega) hb ha
      · -- three or more limbs
        have hlen : 2 ≤ (b :: c :: rest3).length := by simp
        have hrne : (b :: c :: rest3) ≠ [] := by simp
        have hrn : is_normalized (b :: c :: rest3) = true := by
          rwa [is_normalized_cons a _ hrne] at hn
        have hNge : 2 ^ 64 ≤ natVal (b :: c :: rest3) := by
          have h1 := natVal_ge_of_normalized _ hrb hrn hrne
          have hlen3 : (b :: c :: rest3).length = rest3.length + 2 := by simp
          have h2 : (2 : Nat) ^ 64 ≤
              2 ^ (64 * ((b :: c :: rest3).length - 1)) := by
            apply Nat.pow_le_pow_right (by norm_num)
            omega
          omega
        obtain ⟨hv, ht⟩ := hi64_spec_cons a (natVal (b :: c :: rest3)) ha hNge
        have hvc : natVal (a :: b :: c :: rest3) =
            a + 2 ^ 64 * natVal (b :: c :: rest3) := natVal_cons _ _
        rw [hi64_cons a _ hlen, ih hrb hrn hrne, hvc, hv, ht]

/-- Witness for C6 at the two-limb vector `[3, 5]` (value `5*2^64 + 3`). -/
theorem hi64_correct_witness :
    limbs_bounded [3, 5] ∧ is_normalized [3, 5] = true ∧
      hi64 [3, 5] = (hi64_spec_val (natVal [3, 5]),
        hi64_spec_trunc (natVal [3, 5])) :=
  ⟨by decide, by decide,
    hi64_correct [3, 5] (by decide) (by decide) (by decide)⟩

/-! ### large_quorem -/

/-- One step of the fused multiply-subtract: the stored limb and next
borrow satisfy the subtraction identity. -/
theorem quorem_step (xj pm b : Nat) (hx : xj < 2 ^ 64) (hp : pm < 2 ^ 64)
    (hb : b ≤ 1) :
    ((xj + 2 ^ 128 - pm - b) % 2 ^ 128) % 2 ^ 64 + pm + b =
        xj + 2 ^ 64 * ((xj + 2 ^ 128 - pm - b) % 2 ^ 128 / 2 ^ 64 % 2) ∧
      (xj + 2 ^ 128 - pm - b) % 2 ^ 128 / 2 ^ 64 % 2 ≤ 1 := by
  omega

theorem quorem_loop_spec (x : List Nat) (y : List Nat) (q c b : Nat)
    (hx : limbs_bounded x) (hy : limbs_bounded y) (hq : q < 2 ^ 64)
    (hc : c < 2 ^ 64) (hb : b ≤ 1) (hlen : x.length ≤ y.length) :
    (quorem_loop x y q c b).1.length = x.length ∧
      limbs_bounded (quorem_loop x y q c b).1 ∧
      (quorem_loop x y q c b).2.1 < 2 ^ 64 ∧
      (quorem_loop x y q c b).2.2 ≤ 1 ∧
      natVal (quorem_loop x y q c b).1 + q * natVal (y.take x.length) + c + b
        = natVal x + 2 ^ (64 * x.length) *
            ((quorem_loop x y q c b).2.1 + (quorem_loop x y q c b).2.2) := by
  induction x generalizing y c b with
  | nil =>
    refine ⟨rfl, hx, hc, hb, ?_⟩
    simp [quorem_loop, natVal_nil]
  | cons xj xs ih =>
    rcases y with _ | ⟨yj, ys⟩
    · simp at hlen
    · have hxj : xj < 2 ^ 64 := hx xj (by simp)
      have hyj : yj < 2 ^ 64 := hy yj (by simp)
      have hxs : limbs_bounded xs := fun a ha => hx a (by simp [ha])
      have hys : limbs_bounded ys := fun a ha => hy a (by simp [ha])
      have hlen' : xs.length ≤ ys.length := by simpa using hlen
      set p := yj * q + c with hp
      have hpm : p % 2 ^ 64 < 2 ^ 64 := Nat.mod_lt _ (by norm_num)
      have hcar : p / 2 ^ 64 < 2 ^ 64 := by
        rw [Nat.div_lt_iff_lt_mul (by norm_num), hp]
        have h1 : yj * q ≤ (2 ^ 64 - 1) * (2 ^ 64 - 1) :=
          Nat.mul_le_mul (Nat.le_sub_one_of_lt hyj) (Nat.le_sub_one_of_lt hq)
        have h3 : (2 ^ 64 - 1) * (2 ^ 64 - 1) + (2 ^ 64 : Nat) ≤
            2 ^ 64 * 2 ^ 64 := by norm_num
        omega
      set t := (xj + 2 ^ 128 - p % 2 ^ 64 - b) % 2 ^ 128 with ht
      obtain ⟨hstep, hbnd⟩ := quorem_step xj (p % 2 ^ 64) b hxj hpm hb
      rw [← ht] at hstep hbnd
      have hred : quorem_loop (xj :: xs) (yj :: ys) q c b =
          (t % 2 ^ 64 :: (quorem_loop xs ys q (p / 2 ^ 64) (t / 2 ^ 64 % 2)).1,
           (quorem_loop xs ys q (p / 2 ^ 64) (t / 2 ^ 64 % 2)).2) := by
        rw [quorem_loop]
      obtain ⟨ihl, ihb, ihc, ihbo, ihv⟩ :=
        ih ys (p / 2 ^ 64) (t / 2 ^ 64 % 2) hxs hys hcar hbnd hlen'
      rw [hred]
      refine ⟨by simp only [List.length_cons, ihl], ?_, ihc, ihbo, ?_⟩
      · intro a ha
        rcases List.mem_cons.1 ha with rfl | ha
        · exact Nat.mod_lt _ (by norm_num)
        · exact ihb a ha
      · have htake : (yj :: ys).take (xj :: xs).length =
            yj :: ys.take xs.length := by
          simp [List.length_cons, List.take_succ_cons]
        rw [htake, natVal_cons, natVal_cons, natVal_cons,
          List.length_cons, Nat.mul_succ, pow_add]
        have hpsplit : yj * q + c = p % 2 ^ 64 + 2 ^ 64 * (p / 2 ^ 64) := by
          rw [hp]
          omega
        zify at ihv hstep hpsplit ⊢
        linear_combination (2 ^ 64 : ℤ) * ihv + hstep + hpsplit

/-- Decomposition of a nonempty vector's value by its top limb. -/
theorem natVal_last_decomp (x : List Nat) (hne : x ≠ []) :
    natVal x = natVal x.dropLast +
      2 ^ (64 * (x.length - 1)) * x.getLastD 0 := by
  rcases hlast : x.getLast? with _ | v
  · rw [List.getLast?_eq_none_iff] at hlast
    exact absurd hlast hne
  · obtain ⟨ys, hys⟩ : ∃ ys, x = ys ++ [v] :=
      ⟨x.dropLast, (List.dropLast_append_getLast? v hlast).symm⟩
    subst hys
    rw [natVal_append, List.getLastD_concat, List.dropLast_concat]
    have h1 : (ys ++ [v]).length - 1 = ys.length := by simp
    rw [h1, natVal_cons, natVal_nil]
    ring

theorem getLastD_decomp (x : List Nat) (hne : x ≠ []) :
    x = x.dropLast ++ [x.getLastD 0] := by
  rcases hlast : x.getLast? with _ | v
  · rw [List.getLast?_eq_none_iff] at hlast
    exact absurd hlast hne
  · obtain ⟨ys, hys⟩ : ∃ ys, x = ys ++ [v] :=
      ⟨x.dropLast, (List.dropLast_append_getLast? v hlast).symm⟩
    rw [hys, List.getLastD_concat, List.dropLast_concat]

theorem getLastD_lt (x : List Nat) (hne : x ≠ []) (hb : limbs_bounded x) :
    x.getLastD 0 < 2 ^ 64 := by
  apply hb
  conv_lhs => rw [getLastD_decomp x hne]
  simp

theorem is_normalized_of_getLastD (x : List Nat) (hne : x ≠ [])
    (h : x.getLastD 0 ≠ 0) : is_normalized x = true := by
  rw [is_normalized_iff]
  conv_lhs => rw [getLastD_decomp x hne]
  rw [List.getLast?_concat]
  intro hc
  injection hc with hc
  exact h hc

/-- Lower bound from the top limb. -/
theorem natVal_ge_last (x : List Nat) (hne : x ≠ []) :
    x.getLastD 0 * 2 ^ (64 * (x.length - 1)) ≤ natVal x := by
  conv_lhs => rw [Nat.mul_comm]
  rw [natVal_last_decomp x hne]
  omega

/-- Upper bound from the top limb. -/
theorem natVal_lt_last (x : List Nat) (hne : x ≠ []) (hb : limbs_bounded x) :
    natVal x < (x.getLastD 0 + 1) * 2 ^ (64 * (x.length - 1)) := by
  rw [natVal_last_decomp x hne]
  have hdl : natVal x.dropLast < 2 ^ (64 * x.dropLast.length) := by
    apply natVal_lt
    intro l hl
    exact hb l (List.dropLast_subset x hl)
  rw [List.length_dropLast] at hdl
  have hexp : (x.getLastD 0 + 1) * 2 ^ (64 * (x.length - 1)) =
      2 ^ (64 * (x.length - 1)) + 2 ^ (64 * (x.length - 1)) * x.getLastD 0 := by
    ring
  omega

theorem large_quorem_red (x y : List Nat) (h : ¬ x.length < y.length) :
    large_quorem x y =
      (if compare_vec (if x.getLastD 0 / (y.getLastD 0 + 1) ≠ 0 then
            normalize (quorem_loop x y (x.getLastD 0 / (y.getLastD 0 + 1)) 0 0).1
          else x) y ≠ Ordering.lt then
        (x.getLastD 0 / (y.getLastD 0 + 1) + 1,
         normalize (quorem_loop (if x.getLastD 0 / (y.getLastD 0 + 1) ≠ 0 then
             normalize (quorem_loop x y (x.getLastD 0 / (y.getLastD 0 + 1)) 0 0).1
           else x) y 1 0 0).1)
      else (x.getLastD 0 / (y.getLastD 0 + 1),
            if x.getLastD 0 / (y.getLastD 0 + 1) ≠ 0 then
              normalize (quorem_loop x y (x.getLastD 0 / (y.getLastD 0 + 1)) 0 0).1
            else x)) := by
  rw [large_quorem, if_neg h]

/-- Full correctness of `large_quorem` when the divisor's top limb lies in
`[2^32, 2^63)` (i.e. between 1 and 31 leading zero bits). -/
theorem large_quorem_spec (x y : List Nat) (hx : limbs_bounded x)
    (hnx : is_normalized x = true) (hyb : limbs_bounded y) (hyne : y ≠ [])
    (hlen : x.length ≤ y.length) (hlo : 2 ^ 32 ≤ y.getLastD 0)
    (hhi : y.getLastD 0 < 2 ^ 63) :
    (large_quorem x y).1 * natVal y + natVal (large_quorem x y).2 = natVal x ∧
      natVal (large_quorem x y).2 < natVal y ∧
      is_normalized (large_quorem x y).2 = true ∧
      (large_quorem x y).1 < 2 ^ 64 := by
  have hv64 : y.getLastD 0 < 2 ^ 64 := by
    have : (2:Nat) ^ 63 < 2 ^ 64 := by norm_num
    omega
  have hny : is_normalized y = true :=
    is_normalized_of_getLastD y hyne (by omega)
  have hYlo : y.getLastD 0 * 2 ^ (64 * (y.length - 1)) ≤ natVal y :=
    natVal_ge_last y hyne
  have hYlo1 : 2 ^ (64 * (y.length - 1)) ≤ natVal y := by
    have h1 : 1 * 2 ^ (64 * (y.length - 1)) ≤
        y.getLastD 0 * 2 ^ (64 * (y.length - 1)) := by
      apply Nat.mul_le_mul_right
      omega
    rw [Nat.one_mul] at h1
    linarith [hYlo]
  have hYhi : natVal y < (y.getLastD 0 + 1) * 2 ^ (64 * (y.length - 1)) :=
    natVal_lt_last y hyne hyb
  by_cases hmn : x.length < y.length
  · rw [large_quorem, if_pos hmn]
    have hXlt : natVal x < natVal y := by
      have h1 : natVal x < 2 ^ (64 * x.length) := natVal_lt x hx
      have h2 : 2 ^ (64 * x.length) ≤ 2 ^ (64 * (y.length - 1)) :=
        Nat.pow_le_pow_right (by norm_num) (by omega)
      omega
    exact ⟨by simp, hXlt, hnx, by norm_num⟩
  · have hm : x.length = y.length := by omega
    have hxne : x ≠ [] := by
      intro hc
      rw [hc] at hm
      simp at hm
      have h0 : y.length = 0 := by omega
      exact hyne (List.length_eq_zero.1 h0)
    have hu : x.getLastD 0 < 2 ^ 64 := getLastD_lt x hxne hx
    rw [large_quorem_red x y hmn]
    set u := x.getLastD 0 with hudef
    set v := y.getLastD 0 with hvdef
    set q0 := u / (v + 1) with hq0def
    set K := 2 ^ (64 * (y.length - 1)) with hKdef
    have hq0lt : q0 < 2 ^ 64 := by
      have : q0 ≤ u := Nat.div_le_self _ _
      omega
    have hq0v : q0 * (v + 1) ≤ u := Nat.div_mul_le_self u (v + 1)
    have hq0ub : u < (q0 + 1) * (v + 1) := by
      have hmod := Nat.div_add_mod u (v + 1)
      have hmlt : u % (v + 1) < v + 1 := Nat.mod_lt _ (by omega)
      calc u = (v + 1) * q0 + u % (v + 1) := hmod.symm
        _ < (v + 1) * q0 + (v + 1) := Nat.add_lt_add_left hmlt _
        _ = (q0 + 1) * (v + 1) := by ring
    have hq0ltv : q0 < v := by
      rw [hq0def, Nat.div_lt_iff_lt_mul (by omega)]
      have hvv : 2 ^ 64 ≤ v * v := by
        calc (2:Nat) ^ 64 = 2 ^ 32 * 2 ^ 32 := by norm_num
          _ ≤ v * v := Nat.mul_le_mul hlo hlo
      have hvv2 : v * v ≤ v * (v + 1) := Nat.mul_le_mul_left _ (by omega)
      linarith [hu]
    have hXlo : u * K ≤ natVal x := by
      have := natVal_ge_last x hxne
      rw [← hudef] at this
      rw [hKdef]
      rw [← hm]
      exact this
    have hXhi : natVal x < (u + 1) * K := by
      have := natVal_lt_last x hxne hx
      rw [← hudef] at this
      rw [hKdef, ← hm]
      exact this
    have hqYX : q0 * natVal y ≤ natVal x :=
      calc q0 * natVal y ≤ q0 * ((v + 1) * K) :=
            Nat.mul_le_mul_left _ (le_of_lt hYhi)
        _ = (q0 * (v + 1)) * K := by ring
        _ ≤ u * K := Nat.mul_le_mul_right _ hq0v
        _ ≤ natVal x := hXlo
    -- first stage
    set x1 := (if q0 ≠ 0 then normalize (quorem_loop x y q0 0 0).1 else x)
      with hx1def
    have htake : y.take x.length = y := by
      rw [hm, List.take_length]
    have hx1_spec : natVal x1 + q0 * natVal y = natVal x ∧
        limbs_bounded x1 ∧ x1.length ≤ x.length ∧
        is_normalized x1 = true := by
      by_cases hq0z : q0 = 0
      · rw [hx1def, if_neg (by simp [hq0z])]
        rw [hq0z]
        exact ⟨by simp, hx, le_refl _, hnx⟩
      · rw [hx1def, if_pos hq0z]
        obtain ⟨hll, hlb, hlc, hlbo, hlv⟩ :=
          quorem_loop_spec x y q0 0 0 hx hyb hq0lt (by norm_num) (by norm_num)
            hlen
        rw [htake] at hlv
        simp only [Nat.add_zero] at hlv
        have hLlt : natVal (quorem_loop x y q0 0 0).1 < 2 ^ (64 * x.length) := by
          have hlt := natVal_lt _ hlb
          rwa [hll] at hlt
        have hco : (quorem_loop x y q0 0 0).2.1 + (quorem_loop x y q0 0 0).2.2
            = 0 := by
          by_contra hc
          have h1 : 1 ≤ (quorem_loop x y q0 0 0).2.1 +
              (quorem_loop x y q0 0 0).2.2 := by omega
          have h2 : 2 ^ (64 * x.length) * 1 ≤ 2 ^ (64 * x.length) *
              ((quorem_loop x y q0 0 0).2.1 + (quorem_loop x y q0 0 0).2.2) :=
            Nat.mul_le_mul_left _ h1
          rw [Nat.mul_one] at h2
          linarith [hlv, hLlt, hqYX]
        rw [hco, Nat.mul_zero, Nat.add_zero] at hlv
        refine ⟨?_, limbs_bounded_normalize _ hlb, ?_, is_normalized_normalize _⟩
        · rw [natVal_normalize]
          exact hlv
        · calc (normalize (quorem_loop x y q0 0 0).1).length
              ≤ (quorem_loop x y q0 0 0).1.length := normalize_length_le _
            _ = x.length := hll
    obtain ⟨hx1v, hx1b, hx1l, hx1n⟩ := hx1_spec
    by_cases hcmp : compare_vec x1 y ≠ Ordering.lt
    · rw [if_pos hcmp]
      have hYleV1 : natVal y ≤ natVal x1 := by
        rw [compare_vec_correct x1 y hx1b hyb hx1n hny] at hcmp
        by_contra hc
        push_neg at hc
        exact hcmp (Nat.compare_eq_lt.2 hc)
      have hx1len : x1.length = y.length := by
        have h1 : natVal x1 < 2 ^ (64 * x1.length) := natVal_lt x1 hx1b
        have h2 : 2 ^ (64 * (y.length - 1)) < 2 ^ (64 * x1.length) := by
          have := hYlo1
          omega
        have h3 : y.length - 1 < x1.length := by
          by_contra hc
          push_neg at hc
          have := Nat.pow_le_pow_right (by norm_num : 1 ≤ 2)
            (Nat.mul_le_mul_left 64 hc)
          omega
        omega
      obtain ⟨hll2, hlb2, hlc2, hlbo2, hlv2⟩ :=
        quorem_loop_spec x1 y 1 0 0 hx1b hyb (by norm_num) (by norm_num)
          (by norm_num) (by omega)
      have htake2 : y.take x1.length = y := by
        rw [hx1len, List.take_length]
      rw [htake2] at hlv2
      simp only [Nat.add_zero, Nat.one_mul] at hlv2
      have hco2 : (quorem_loop x1 y 1 0 0).2.1 + (quorem_loop x1 y 1 0 0).2.2
          = 0 := by
        by_contra hc
        have h1 : 1 ≤ (quorem_loop x1 y 1 0 0).2.1 +
            (quorem_loop x1 y 1 0 0).2.2 := by omega
        have h2 : 2 ^ (64 * x1.length) * 1 ≤ 2 ^ (64 * x1.length) *
            ((quorem_loop x1 y 1 0 0).2.1 + (quorem_loop x1 y 1 0 0).2.2) :=
          Nat.mul_le_mul_left _ h1
        rw [Nat.mul_one] at h2
        have h3 : natVal (quorem_loop x1 y 1 0 0).1 < 2 ^ (64 * x1.length) := by
          have hlt := natVal_lt _ hlb2
          rwa [hll2] at hlt
        linarith [hlv2, hYleV1]
      rw [hco2, Nat.mul_zero, Nat.add_zero] at hlv2
      -- hlv2 : natVal L2 + natVal y = natVal x1
      have hX2Y : natVal x < (q0 + 2) * natVal y := by
        have hkey : u + 1 ≤ q0 * v + 2 * v := by
          have hexp : (q0 + 1) * (v + 1) = q0 * v + q0 + v + 1 := by ring
          rw [hexp] at hq0ub
          linarith [hq0ltv]
        calc natVal x < (u + 1) * K := hXhi
          _ ≤ (q0 * v + 2 * v) * K := Nat.mul_le_mul_right _ hkey
          _ = (q0 + 2) * (v * K) := by ring
          _ ≤ (q0 + 2) * natVal y := Nat.mul_le_mul_left _ hYlo
      refine ⟨?_, ?_, is_normalized_normalize _, by omega⟩
      · rw [natVal_normalize]
        have hexp1 : (q0 + 1) * natVal y = q0 * natVal y + natVal y := by ring
        rw [hexp1]
        linarith [hlv2, hx1v]
      · rw [natVal_normalize]
        have hexp2 : (q0 + 2) * natVal y =
            q0 * natVal y + natVal y + natVal y := by ring
        rw [hexp2] at hX2Y
        linarith [hlv2, hx1v]
    · rw [if_neg hcmp]
      push_neg at hcmp
      have hV1lt : natVal x1 < natVal y := by
        rw [compare_vec_correct x1 y hx1b hyb hx1n hny] at hcmp
        exact Nat.compare_eq_lt.1 hcmp
      exact ⟨by linarith [hx1v], hV1lt, hx1n, by omega⟩

/-- C1 counterexample: with only the claimed precondition "`y` has at
least `integral_binary_factor(radix)` leading zero bits" (for radix 10 at
least 4; the limb 2 has 62) and a quotient that fits in a limb, the
remainder is not `< y`: dividing `[10]` by `[2]` yields quotient 4 and
remainder `[2]`, equal to the divisor. -/
theorem large_quorem_claim_counterexample :
    ([2] : List Nat) ≠ [] ∧
      ([10] : List Nat).length ≤ ([2] : List Nat).length ∧
      integral_binary_factor 10 ≤ clz64 (([2] : List Nat).getLastD 0) ∧
      (large_quorem [10] [2]).1 < 2 ^ 64 ∧
      large_quorem [10] [2] = (4, [2]) ∧
      ¬ natVal (large_quorem [10] [2]).2 < natVal [2] := by decide

/-- C1 (amended): if the divisor's top limb has between 1 and 31 leading
zero bits (it lies in `[2^32, 2^63)`, which subsumes "at least
`integral_binary_factor(radix)` leading zeros" as produced by the caller's
normalization), the quotient `q` and remainder `x'` of `large_quorem`
satisfy `q * y + x' = x` and `x' < y`, `x'` is left normalized, and `q`
fits in a single limb. -/
theorem large_quorem_correct (x y : List Nat) (hx : limbs_bounded x)
    (hnx : is_normalized x = true) (hyb : limbs_bounded y) (hyne : y ≠ [])
    (hlen : x.length ≤ y.length) (hlo : 2 ^ 32 ≤ y.getLastD 0)
    (hhi : y.getLastD 0 < 2 ^ 63) :
    (large_quorem x y).1 * natVal y + natVal (large_quorem x y).2 = natVal x ∧
      natVal (large_quorem x y).2 < natVal y ∧
      is_normalized (large_quorem x y).2 = true ∧
      (large_quorem x y).1 < 2 ^ 64 :=
  large_quorem_spec x y hx hnx hyb hyne hlen hlo hhi

/-- Witness for C1 at `x = [2^41 + 7]`, `y = [2^40]` (quotient 2,
remainder 7). -/
theorem large_quorem_correct_witness :
    (2 : Nat) ^ 32 ≤ ([2 ^ 40] : List Nat).getLastD 0 ∧
      (large_quorem [2 ^ 41 + 7] [2 ^ 40]).1 * natVal [2 ^ 40] +
          natVal (large_quorem [2 ^ 41 + 7] [2 ^ 40]).2 =
        natVal [2 ^ 41 + 7] ∧
      natVal (large_quorem [2 ^ 41 + 7] [2 ^ 40]).2 < natVal [2 ^ 40] := by
  have h := large_quorem_correct [2 ^ 41 + 7] [2 ^ 40] (by decide) (by decide)
    (by decide) (by decide) (by decide) (by decide) (by decide)
  exact ⟨by decide, h.1, h.2.1⟩

/-! ### Claim C2, C8, C9 theorems -/

/-- C2: the claim says any big-integer operation exceeding capacity fails
loudly (panics); in fact the final carry of `large_add` (propagated via
`small_add_from`) and the final shift of `Bigint::pow` discard the failing
`Option`, so both return silently with a numerically wrong value.  At
capacity 2, adding 1 to the all-ones vector returns (no panic, i.e. `some`)
the zero vector, and `Bigint::pow` of `[1]` by `2^64` at capacity 1 leaves
the value unchanged instead of failing. -/
theorem large_add_pow_silent_overflow :
    large_add 2 [2 ^ 64 - 1, 2 ^ 64 - 1] [1] = some [0, 0] ∧
      natVal [0, 0] ≠ natVal [2 ^ 64 - 1, 2 ^ 64 - 1] + natVal [1] ∧
      bigint_pow 1 [1] 2 64 = [1] ∧
      natVal [1] ≠ natVal [1] * 2 ^ 64 := by decide

/-- C8: `split_radix` claims to return an odd factor, but for radix 12 it
returns `(6, 1)` whose first component is even and nonzero, contradicting
the function's own documentation ("odd radix"); the factorization
`12 = 6 * 2^1` itself still holds. -/
theorem split_radix_twelve_even :
    split_radix 12 = (6, 1) ∧ (split_radix 12).1 % 2 = 0 ∧
      (split_radix 12).1 ≠ 0 ∧
      (split_radix 12).1 * 2 ^ (split_radix 12).2 = 12 := by decide

/-- C9: `shl` is not atomic on failure: shifting `[1]` by 65 bits at
capacity 1 first applies the sub-limb shift (`shl_bits`, giving `[2]`),
then fails in `shl_limbs`; the vector is left holding `[2]`, which differs
from the original value. -/
theorem shl_non_atomic :
    shl 1 [1] 65 = ([2], false) ∧
      shl_bits 1 [1] 1 = ([2], true) ∧
      (shl_limbs 1 [2] 1).2 = false ∧
      natVal [2] ≠ natVal [1] := by decide

/-! ### binary.rs: the power-of-two fast path -/

/-- `ExtendedFloat80`: 64-bit mantissa and signed binary exponent. -/
structure ExtendedFloat80 where
  mant : Nat
  exp : Int
deriving DecidableEq, Repr

/-- `Number`: parsed mantissa (u64), decimal-point-relative exponent and
truncation flag. -/
structure Number where
  mantissa : Nat
  exponent : Int
  many_digits : Bool
deriving DecidableEq, Repr

/-- Modelled from the spec: the constants of `RawFloat` and of the format
that `binary` consumes (`crate::float`, `crate::shared` and the format
types are not under `src/`).  `mantissaSize` is `F::MANTISSA_SIZE`,
`infinitePower` is `F::INFINITE_POWER`, `invalidFp` is the sentinel bias
`shared::INVALID_FP`, `log2radix` is `log2` of the power-of-two radix and
`bias` the exponent bias added by `calculate_power2`. -/
structure BinCfg where
  mantissaSize : Nat
  infinitePower : Int
  invalidFp : Int
  log2radix : Int
  bias : Int
deriving DecidableEq, Repr

/-- Modelled from the spec: `shared::calculate_power2` (not under `src/`):
"the binary exponent is computed as `(exponent ...) * log2(radix) -
leading_zeros`", plus the float's exponent bias. -/
def calculate_power2 (cfg : BinCfg) (exponent : Int) (ctlz : Nat) : Int :=
  exponent * cfg.log2radix + cfg.bias - ctlz

/-- Modelled from the spec: `shared::calculate_shift` (not under `src/`):
the shift to place the digits at the hidden bit, using the subnormal
amount `-power2 + 1` when the exponent is below the normal range
("shift by `denormal_exp - fp.exp + 1` when the unbiased exponent is
below `EMIN`"). -/
def calculate_shift (cfg : BinCfg) (power2 : Int) : Int :=
  let mantissa_shift : Int := 64 - cfg.mantissaSize - 1
  if mantissa_shift ≤ -power2 then -power2 + 1 else mantissa_shift

/-- Modelled from the spec: `mask::lower_n_halfway` (not under `src/`):
the pattern `0b1000...0` of width `n` (zero when `n = 0`). -/
def lower_n_halfway (n : Nat) : Nat :=
  if n = 0 then 0 else 2 ^ (n - 1)

/-- The normalized mantissa computed at the top of `binary`
(`num.mantissa << ctlz`). -/
def norm_mant (num : Number) : Nat :=
  (num.mantissa <<< clz64 num.mantissa) % 2 ^ 64

/-- The `power2` computed at the top of `binary`. -/
def bin_power2 (cfg : BinCfg) (num : Number) : Int :=
  calculate_power2 cfg num.exponent (clz64 num.mantissa)

/-- The `shift_and_round!` macro of `binary.rs`: shift the digits into
place, add the round-up bit, propagate a carry out of the hidden bit,
return infinity on exponent overflow, else mask out the hidden bit. -/
def shift_and_round (cfg : BinCfg) (mantissa0 : Nat) (power2_0 : Int)
    (roundup : Nat) : ExtendedFloat80 :=
  let fp_inf : ExtendedFloat80 := ⟨0, cfg.infinitePower⟩
  let shift := calculate_shift cfg power2_0
  let mantissa := mantissa0 >>> shift.toNat
  let power2 := power2_0 + shift
  let mantissa := mantissa + roundup
  let carry_mask : Nat := 2 ^ (cfg.mantissaSize + 1)
  let mp := if mantissa &&& carry_mask = carry_mask
    then (mantissa >>> 1, power2 + 1) else (mantissa, power2)
  if cfg.infinitePower ≤ mp.2 then fp_inf
  else ⟨mp.1 &&& (2 ^ cfg.mantissaSize - 1), mp.2⟩

/-- `binary`: the power-of-two fast-path algorithm of `binary.rs`. -/
def binary (cfg : BinCfg) (num : Number) (lossy : Bool) : ExtendedFloat80 :=
  let fp_zero : ExtendedFloat80 := ⟨0, 0⟩
  let mantissa := norm_mant num
  let power2 := bin_power2 cfg num
  if 64 ≤ -power2 + 1 then fp_zero
  else
    let shift := (calculate_shift cfg power2).toNat
    let last_bit : Nat := 1 <<< shift
    let truncated := last_bit - 1
    let halfway := lower_n_halfway shift
    let is_even := mantissa &&& last_bit = 0
    let is_halfway := mantissa &&& truncated = halfway
    if lossy = false ∧ is_even ∧ is_halfway ∧ num.many_digits = true then
      ⟨mantissa, power2 + cfg.invalidFp⟩
    else
      let is_above := halfway < mantissa &&& truncated
      let round_up := is_above ∨ (¬is_even ∧ is_halfway)
      shift_and_round cfg mantissa power2 (if round_up then 1 else 0)

/-- The conditions under which `binary` signals an unresolved halfway case
(as read from the sentinel branch of the source). -/
def sentinel_conditions (cfg : BinCfg) (num : Number) (lossy : Bool) : Prop :=
  let mantissa := norm_mant num
  let shift := (calculate_shift cfg (bin_power2 cfg num)).toNat
  lossy = false ∧ mantissa &&& (1 <<< shift) = 0 ∧
    mantissa &&& ((1 <<< shift) - 1) = lower_n_halfway shift ∧
    num.many_digits = true

instance (cfg : BinCfg) (num : Number) (lossy : Bool) :
    Decidable (sentinel_conditions cfg num lossy) := by
  unfold sentinel_conditions
  infer_instance

/-- The round-up predicate of `binary`'s default path: above halfway, or
odd and exactly at halfway. -/
def bin_round_up (cfg : BinCfg) (num : Number) : Prop :=
  let mantissa := norm_mant num
  let shift := (calculate_shift cfg (bin_power2 cfg num)).toNat
  lower_n_halfway shift < mantissa &&& ((1 <<< shift) - 1) ∨
    (¬mantissa &&& (1 <<< shift) = 0 ∧
      mantissa &&& ((1 <<< shift) - 1) = lower_n_halfway shift)

instance (cfg : BinCfg) (num : Number) : Decidable (bin_round_up cfg num) := by
  unfold bin_round_up
  infer_instance

/-- A concrete `f64`, radix-16 configuration (mantissa 52 bits, infinite
power 0x7FF, `INVALID_FP = -0x8000`, `log2(16) = 4`, bias
`1023 + 52 = 1075`). -/
def f64_radix16_cfg : BinCfg := ⟨52, 2047, -32768, 4, 1075⟩

theorem norm_mant_ge (num : Number) (h0 : num.mantissa ≠ 0)
    (hlt : num.mantissa < 2 ^ 64) : 2 ^ 63 ≤ norm_mant num := by
  have h0' : 0 < num.mantissa := Nat.pos_of_ne_zero h0
  obtain ⟨h1, h2⟩ := clz64_spec num.mantissa h0' hlt
  rw [norm_mant, Nat.shiftLeft_eq, Nat.mod_eq_of_lt h2]
  exact h1

theorem shift_and_round_mant_lt (cfg : BinCfg) (m : Nat) (p : Int) (r : Nat)
    (hms : cfg.mantissaSize ≤ 62) :
    (shift_and_round cfg m p r).mant < 2 ^ 63 := by
  have hmask : (2 : Nat) ^ cfg.mantissaSize - 1 < 2 ^ 63 := by
    have : (2 : Nat) ^ cfg.mantissaSize ≤ 2 ^ 62 :=
      Nat.pow_le_pow_right (by norm_num) hms
    omega
  rw [shift_and_round]
  split <;> split
  all_goals
    first
      | exact (by decide : (0 : Nat) < 2 ^ 63)
      | exact Nat.lt_of_le_of_lt Nat.and_le_right hmask

/-- C10: `binary` returns the zero float whenever `-power2 + 1 >= 64`
(the value lies 64 or more bits below the minimum exponent), for every
configuration, every input `Number` (whatever `many_digits` or the
truncated digits) and both lossy modes. -/
theorem binary_deep_underflow_zero (cfg : BinCfg) (num : Number)
    (lossy : Bool) (h : 64 ≤ -bin_power2 cfg num + 1) :
    binary cfg num lossy = ⟨0, 0⟩ := by
  simp only [binary]
  rw [if_pos h]

theorem binary_deep_underflow_zero_witness :
    64 ≤ -bin_power2 f64_radix16_cfg ⟨1, -1000, true⟩ + 1 ∧
      binary f64_radix16_cfg ⟨1, -1000, true⟩ false = ⟨0, 0⟩ :=
  ⟨by decide,
    binary_deep_underflow_zero f64_radix16_cfg ⟨1, -1000, true⟩ false
      (by decide)⟩

/-- C5 counterexample: with `f64`, radix 16, the input number
`mantissa = 2^61, exponent = -284, many_digits = true` fulfils every
sentinel condition (not lossy, even target bit, exactly the halfway
pattern, `many_digits`), yet `binary` does NOT return the
`INVALID_FP`-biased sentinel: the deep-underflow early return fires
first (`power2 = -63`) and yields the zero float. -/
theorem binary_sentinel_counterexample :
    ¬((binary f64_radix16_cfg ⟨2 ^ 61, -284, true⟩ false =
        ⟨norm_mant ⟨2 ^ 61, -284, true⟩,
          bin_power2 f64_radix16_cfg ⟨2 ^ 61, -284, true⟩ +
            f64_radix16_cfg.invalidFp⟩) ↔
      sentinel_conditions f64_radix16_cfg ⟨2 ^ 61, -284, true⟩ false) := by
  decide

/-- C5 (amended): outside the deep-underflow early return
(`-power2 + 1 < 64`) and for a nonzero mantissa, `binary` returns the
`INVALID_FP`-biased sentinel pair iff `lossy` is false, the target low
bit is even, the truncated bits equal the halfway pattern and
`many_digits` is set; and otherwise it shifts and rounds with the
predicate "above halfway, or odd and at halfway". -/
theorem binary_sentinel_iff (cfg : BinCfg) (num : Number) (lossy : Bool)
    (hms : cfg.mantissaSize ≤ 62) (hm : num.mantissa ≠ 0)
    (hmlt : num.mantissa < 2 ^ 64)
    (hdeep : ¬64 ≤ -bin_power2 cfg num + 1) :
    (binary cfg num lossy =
        ⟨norm_mant num, bin_power2 cfg num + cfg.invalidFp⟩ ↔
      sentinel_conditions cfg num lossy) ∧
    (¬sentinel_conditions cfg num lossy →
      binary cfg num lossy =
        shift_and_round cfg (norm_mant num) (bin_power2 cfg num)
          (if bin_round_up cfg num then 1 else 0)) := by
  have hge : 2 ^ 63 ≤ norm_mant num := norm_mant_ge num hm hmlt
  simp only [binary]
  rw [if_neg hdeep]
  by_cases hC : sentinel_conditions cfg num lossy
  · have hC' := hC
    unfold sentinel_conditions at hC'
    rw [if_pos hC']
    exact ⟨⟨fun _ => hC, fun _ => rfl⟩, fun hn => absurd hC hn⟩
  · have hC' : ¬(lossy = false ∧ norm_mant num &&&
        1 <<< (calculate_shift cfg (bin_power2 cfg num)).toNat = 0 ∧
        norm_mant num &&&
          (1 <<< (calculate_shift cfg (bin_power2 cfg num)).toNat - 1) =
          lower_n_halfway (calculate_shift cfg (bin_power2 cfg num)).toNat ∧
        num.many_digits = true) := by
      intro hcon
      exact hC hcon
    rw [if_neg hC']
    constructor
    · constructor
      · intro heq
        exfalso
        have hlt := shift_and_round_mant_lt cfg (norm_mant num)
          (bin_power2 cfg num)
          (if lower_n_halfway (calculate_shift cfg (bin_power2 cfg num)).toNat <
              norm_mant num &&&
                (1 <<< (calculate_shift cfg (bin_power2 cfg num)).toNat - 1) ∨
              (¬norm_mant num &&&
                  1 <<< (calculate_shift cfg (bin_power2 cfg num)).toNat = 0 ∧
                norm_mant num &&&
                  (1 <<< (calculate_shift cfg (bin_power2 cfg num)).toNat - 1) =
                  lower_n_halfway
                    (calculate_shift cfg (bin_power2 cfg num)).toNat)
            then 1 else 0) hms
        rw [heq] at hlt
        exact absurd hge (by simpa using Nat.not_le.2 hlt)
      · intro hcon
        exact absurd hcon hC
    · intro _
      apply if_congr _ rfl rfl
      unfold bin_round_up
      exact Iff.rfl

/-! ### Multiplication: long_mul, karatsuba, large_mul -/

theorem small_add_loop_len (x : List Nat) (c : Nat) :
    (small_add_loop x c).1.length = x.length := by
  induction x generalizing c with
  | nil => rfl
  | cons l ls ih =>
    rw [small_add_loop]
    split
    · rfl
    · simp only [List.length_cons]
      rw [ih]

theorem small_add_from_len_le (SIZE : Nat) (x : List Nat) (y s : Nat) :
    x.length ≤ (small_add_from SIZE x y s).length ∧
      (small_add_from SIZE x y s).length ≤ x.length + 1 := by
  rw [small_add_from]
  have hx1 : (x.take s ++ (small_add_loop (x.drop s) y).1).length
      = x.length := by
    rw [List.length_append, small_add_loop_len, List.length_take,
      List.length_drop]
    omega
  by_cases hc : (small_add_loop (x.drop s) y).2 ≠ 0
  · rw [if_pos hc]
    rcases hp : try_push SIZE (x.take s ++ (small_add_loop (x.drop s) y).1)
        (small_add_loop (x.drop s) y).2 with _ | r
    · simp only [hp]
      omega
    · simp only [hp]
      rw [try_push] at hp
      split at hp
      · injection hp with hp
        rw [← hp, List.length_append, hx1]
        simp
      · exact absurd hp (by simp)
  · rw [if_neg hc]
    omega

theorem large_add_loop_len (xs ys : List Nat) (c : Bool) :
    (large_add_loop xs ys c).1.length = xs.length := by
  induction ys generalizing xs c with
  | nil => cases xs <;> rfl
  | cons yi ys ih =>
    cases xs with
    | nil => rfl
    | cons xi xs =>
      rw [large_add_loop]
      simp only [List.length_cons]
      rw [ih]

theorem try_resize_some_len (SIZE : Nat) (x : List Nat) (len v : Nat)
    (r : List Nat) (h : try_resize SIZE x len v = some r) : r.length = len := by
  rw [try_resize] at h
  split at h
  · exact absurd h (by simp)
  · injection h with h
    rw [← h]
    split
    · rw [List.length_append, List.length_replicate]
      omega
    · rw [List.length_take]
      omega

theorem try_from_some_eq (SIZE : Nat) (s r : List Nat)
    (h : try_from SIZE s = some r) : r = s := by
  rw [try_from, try_extend] at h
  split at h
  · injection h with h
    rw [← h, List.nil_append]
  · exact absurd h (by simp)

theorem large_add_from_some_len (SIZE : Nat) (x y : List Nat) (s : Nat)
    (r : List Nat) (h : large_add_from SIZE x y s = some r) :
    r.length ≤ max x.length (y.length + s) + 1 := by
  rw [large_add_from] at h
  rcases hx1 : (if x.length - s < y.length
      then try_resize SIZE x (y.length + s) 0 else some x) with _ | x1
  · rw [hx1] at h
    exact absurd h (by simp)
  · rw [hx1] at h
    simp only [Option.some.injEq] at h
    have hx1len : x1.length = x.length ∨ x1.length = y.length + s := by
      by_cases hcond : x.length - s < y.length
      · rw [if_pos hcond] at hx1
        exact Or.inr (try_resize_some_len _ _ _ _ _ hx1)
      · rw [if_neg hcond] at hx1
        injection hx1 with hx1
        rw [hx1]
        exact Or.inl rfl
    have hx2len : (x1.take s ++ (large_add_loop (x1.drop s) y false).1).length
        = x1.length := by
      rw [List.length_append, large_add_loop_len, List.length_take,
        List.length_drop]
      omega
    rw [← h]
    split
    · have := small_add_from_len_le SIZE
        (x1.take s ++ (large_add_loop (x1.drop s) y false).1) 1 (y.length + s)
      omega
    · omega

theorem binary_sentinel_iff_witness :
    sentinel_conditions f64_radix16_cfg ⟨2 ^ 63 + 2 ^ 10, -266, true⟩ false ∧
      binary f64_radix16_cfg ⟨2 ^ 63 + 2 ^ 10, -266, true⟩ false =
        ⟨norm_mant ⟨2 ^ 63 + 2 ^ 10, -266, true⟩,
          bin_power2 f64_radix16_cfg ⟨2 ^ 63 + 2 ^ 10, -266, true⟩ +
            f64_radix16_cfg.invalidFp⟩ :=
  ⟨by decide,
    (binary_sentinel_iff f64_radix16_cfg ⟨2 ^ 63 + 2 ^ 10, -266, true⟩ false
        (by decide) (by decide) (by decide) (by decide)).1.mpr (by decide)⟩

/-- `KARATSUBA_CUTOFF`: bottom-out size for the recursive multiplier. -/
def KARATSUBA_CUTOFF : Nat := 32

/-- `karatsuba_split`: split a buffer at `index` into `(lo, hi)`. -/
def karatsuba_split (x : List Nat) (index : Nat) : List Nat × List Nat :=
  (x.take index, x.drop index)

/-- The `for index in 1..y.len()` loop of `long_mul`: accumulate
`x * y[index]`, shifted by `index` limbs, into `z`, skipping zero limbs.
The source's `try_from(..).unwrap()` is modelled by `Option`. -/
def long_mul_loop (SIZE : Nat) (x : List Nat) :
    List Nat → Nat → List Nat → Option (List Nat)
  | [], _, z => some z
  | yi :: ys, index, z =>
    if yi ≠ 0 then
      match try_from SIZE x with
      | none => none
      | some zi =>
        match large_add_from SIZE z (small_mul SIZE zi yi) index with
        | none => none
        | some z2 => long_mul_loop SIZE x ys (index + 1) z2
    else long_mul_loop SIZE x ys (index + 1) z

/-- `long_mul`: grade-school multiplication.  The result is normalized at
the end; `try_from(..).unwrap()` is modelled by `Option`. -/
def long_mul (SIZE : Nat) (x y : List Nat) : Option (List Nat) :=
  match try_from SIZE x with
  | none => none
  | some z =>
    match y with
    | [] => some (normalize z)
    | y0 :: ys =>
      match long_mul_loop SIZE x ys 1 (small_mul SIZE z y0) with
      | none => none
      | some z2 => some (normalize z2)

mutual

/-- `karatsuba_mul`: recursive three-multiplication algorithm, bottoming
out to `long_mul` at `KARATSUBA_CUTOFF` limbs, and to
`karatsuba_uneven_mul` when `x` is shorter than half of `y`. -/
def karatsuba_mul (SIZE : Nat) (x y : List Nat) : Option (List Nat) :=
  if hcut : y.length ≤ KARATSUBA_CUTOFF then long_mul SIZE x y
  else if hun : x.length < y.length / 2 then karatsuba_uneven_mul SIZE x y
  else
    let m := y.length / 2
    let xp := karatsuba_split x m
    let yp := karatsuba_split y m
    match try_from SIZE xp.1 with
    | none => none
    | some sumx0 =>
      match hsx : large_add SIZE sumx0 xp.2 with
      | none => none
      | some sumx =>
        match hsy0 : try_from SIZE yp.1 with
        | none => none
        | some sumy0 =>
          match hsy : large_add SIZE sumy0 yp.2 with
          | none => none
          | some sumy =>
            match karatsuba_mul SIZE xp.1 yp.1 with
            | none => none
            | some z0 =>
              match karatsuba_mul SIZE sumx sumy with
              | none => none
              | some z1 =>
                match karatsuba_mul SIZE xp.2 yp.2 with
                | none => none
                | some z2 =>
                  let z1s := large_sub (large_sub z1 z2) z0
                  match try_extend SIZE [] z0 with
                  | none => none
                  | some result =>
                    match large_add_from SIZE result z1s m with
                    | none => none
                    | some result2 =>
                      large_add_from SIZE result2 z2 (2 * m)
termination_by 12 * y.length + 4
decreasing_by
all_goals
  try simp only [karatsuba_split, List.length_take, List.length_drop,
    KARATSUBA_CUTOFF] at *
all_goals try omega
all_goals
  have hy0 := try_from_some_eq _ _ _ hsy0
all_goals
  rw [large_add] at hsy
all_goals
  have hl := large_add_from_some_len _ _ _ _ _ hsy
all_goals
  rw [hy0] at hl
all_goals
  have hyp1 : yp.1.length = min (y.length / 2) y.length := by
    show (y.take (y.length / 2)).length = _
    rw [List.length_take]
all_goals
  have hyp2 : yp.2.length = y.length - y.length / 2 := by
    show (y.drop (y.length / 2)).length = _
    rw [List.length_drop]
all_goals
  omega

/-- `karatsuba_uneven_mul`: grade-school loop of Karatsuba products over
`x.len()`-sized splits of `y`.  `try_resize(..).unwrap()` is modelled by
`Option`. -/
def karatsuba_uneven_mul (SIZE : Nat) (x y : List Nat) :
    Option (List Nat) :=
  match try_resize SIZE [] (x.length + y.length) 0 with
  | none => none
  | some result => karatsuba_uneven_loop SIZE x y.length y 0 result
termination_by 8 * x.length + 8 * y.length + 3
decreasing_by omega

/-- The `while !y.is_empty()` loop of `karatsuba_uneven_mul`, with fuel:
when `x` is empty the split consumes no limbs of `y` and the source loops
forever, which the model maps to `none` on fuel exhaustion; `y.length`
fuel is enough whenever `x` is nonempty. -/
def karatsuba_uneven_loop (SIZE : Nat) (x : List Nat) (fuel : Nat)
    (y : List Nat) (start : Nat) (result : List Nat) : Option (List Nat) :=
  match fuel, y with
  | _, [] => some (normalize result)
  | 0, _ :: _ => none
  | fuelp + 1, y1 :: ys =>
    let yc := y1 :: ys
    let m := min x.length yc.length
    let yp := karatsuba_split yc m
    match karatsuba_mul SIZE x yp.1 with
    | none => none
    | some prod =>
      match large_add_from SIZE result prod start with
      | none => none
      | some result2 =>
        karatsuba_uneven_loop SIZE x fuelp yp.2 (start + m) result2
termination_by 8 * x.length + 4 * (fuel + y.length) + 2
decreasing_by
· simp only [karatsuba_split, List.length_take, List.length_cons]
  omega
· simp only [karatsuba_split, List.length_drop, List.length_cons]
  omega

end

/-- `large_mul`: dispatch to `small_mul` for single-limb `y`, else to
`karatsuba_mul` with the shorter operand first. -/
def large_mul (SIZE : Nat) (x y : List Nat) : Option (List Nat) :=
  if y.length = 1 then some (small_mul SIZE x (y.headD 0))
  else if x.length < y.length then karatsuba_mul SIZE x y
  else karatsuba_mul SIZE y x

/-- A normalized vector whose value is below `2^(64k)` has at most `k`
limbs. -/
theorem length_le_of_norm_val (x : List Nat) (hb : limbs_bounded x)
    (hn : is_normalized x = true) (k : Nat) (h : natVal x < 2 ^ (64 * k)) :
    x.length ≤ k := by
  rcases (is_normalized_iff_val x hb).1 hn with he | hge
  · rw [he]
    simp
  · by_contra hlt
    have hk : k ≤ x.length - 1 := by omega
    have : (2 : Nat) ^ (64 * k) ≤ 2 ^ (64 * (x.length - 1)) :=
      Nat.pow_le_pow_right (by norm_num) (by omega)
    omega

theorem small_mul_loop_len (x : List Nat) (y c : Nat) :
    (small_mul_loop x y c).1.length = x.length := by
  induction x generalizing c with
  | nil => rfl
  | cons l ls ih =>
    rw [small_mul_loop]
    simp only [List.length_cons]
    rw [ih]

theorem small_mul_len_le (SIZE : Nat) (x : List Nat) (y : Nat) :
    x.length ≤ (small_mul SIZE x y).length ∧
      (small_mul SIZE x y).length ≤ x.length + 1 := by
  rw [small_mul]
  by_cases hc : (small_mul_loop x y 0).2 ≠ 0
  · rw [if_pos hc]
    rcases hp : try_push SIZE (small_mul_loop x y 0).1
        (small_mul_loop x y 0).2 with _ | r
    · simp only [hp]
      have := small_mul_loop_len x y 0
      omega
    · simp only [hp]
      rw [try_push] at hp
      split at hp
      · injection hp with hp
        rw [← hp, List.length_append, small_mul_loop_len]
        simp
      · exact absurd hp (by simp)
  · rw [if_neg hc]
    have := small_mul_loop_len x y 0
    omega

/-- One step of the elementwise add loop: value identity and bound. -/
theorem add_limb_step (xi yi : Nat) (c : Bool) (hxi : xi < 2 ^ 64)
    (hyi : yi < 2 ^ 64) :
    (if c then scalar_add (scalar_add xi yi).1 1
        else ((scalar_add xi yi).1, false)).1 +
      2 ^ 64 * ((scalar_add xi yi).2 ||
        (if c then scalar_add (scalar_add xi yi).1 1
          else ((scalar_add xi yi).1, false)).2).toNat
      = xi + yi + c.toNat ∧
    (if c then scalar_add (scalar_add xi yi).1 1
        else ((scalar_add xi yi).1, false)).1 < 2 ^ 64 := by
  cases c with
  | false =>
    simp only [Bool.false_eq_true, if_false, scalar_add, Bool.or_false,
      Bool.toNat_false, Nat.add_zero]
    by_cases hof : 2 ^ 64 ≤ xi + yi
    · simp only [decide_eq_true hof, Bool.toNat_true]
      constructor <;> omega
    · simp only [decide_eq_false hof, Bool.toNat_false]
      constructor <;> omega
  | true =>
    simp only [eq_self_iff_true, if_true, scalar_add, Bool.toNat_true]
    by_cases hof : 2 ^ 64 ≤ xi + yi
    · have h1 : (xi + yi) % 2 ^ 64 + 1 < 2 ^ 64 := by omega
      simp only [decide_eq_true hof, Bool.true_or, Bool.toNat_true,
        decide_eq_false (Nat.not_le.2 h1)]
      constructor <;> omega
    · simp only [decide_eq_false hof, Bool.false_or]
      by_cases hof2 : 2 ^ 64 ≤ (xi + yi) % 2 ^ 64 + 1
      · simp only [decide_eq_true hof2, Bool.toNat_true]
        constructor <;> omega
      · simp only [decide_eq_false hof2, Bool.toNat_false]
        constructor <;> omega

/-- Value identity of the elementwise add loop: the escaping carry has
weight `2^(64 |ys|)`. -/
theorem large_add_loop_val (ys xs : List Nat) (c : Bool)
    (hxs : limbs_bounded xs) (hys : limbs_bounded ys)
    (hlen : ys.length ≤ xs.length) :
    limbs_bounded (large_add_loop xs ys c).1 ∧
      natVal (large_add_loop xs ys c).1 +
          2 ^ (64 * ys.length) * (large_add_loop xs ys c).2.toNat
        = natVal xs + natVal ys + c.toNat := by
  induction ys generalizing xs c with
  | nil =>
    cases xs with
    | nil =>
      refine ⟨hxs, ?_⟩
      cases c <;> simp [large_add_loop, natVal_nil]
    | cons xi xs =>
      refine ⟨hxs, ?_⟩
      cases c <;> simp [large_add_loop, natVal_nil]
  | cons yi ys ih =>
    cases xs with
    | nil => simp at hlen
    | cons xi xs =>
      have hxi : xi < 2 ^ 64 := hxs xi (by simp)
      have hyi : yi < 2 ^ 64 := hys yi (by simp)
      have hxs' : limbs_bounded xs := fun a ha => hxs a (by simp [ha])
      have hys' : limbs_bounded ys := fun a ha => hys a (by simp [ha])
      have hlen' : ys.length ≤ xs.length := by
        simp only [List.length_cons] at hlen
        omega
      obtain ⟨hlimb, hbnd⟩ := add_limb_step xi yi c hxi hyi
      obtain ⟨ihb, ihv⟩ := ih xs (((scalar_add xi yi).2 ||
        (if c then scalar_add (scalar_add xi yi).1 1
          else ((scalar_add xi yi).1, false)).2)) hxs' hys' hlen'
      rw [large_add_loop]
      refine ⟨?_, ?_⟩
      · intro a ha
        rcases List.mem_cons.1 ha with rfl | ha
        · exact hbnd
        · exact ihb a ha
      · rw [natVal_cons, natVal_cons, natVal_cons, List.length_cons,
          Nat.mul_succ, pow_add]
        set r1 := scalar_add xi yi with hr1
        set r2 := if c then scalar_add r1.1 1 else (r1.1, false) with hr2
        set rest := large_add_loop xs ys (r1.2 || r2.2) with hrest
        calc r2.1 + 2 ^ 64 * natVal rest.1 +
              2 ^ (64 * ys.length) * 2 ^ 64 * rest.2.toNat
            = r2.1 + 2 ^ 64 * (natVal rest.1 +
                2 ^ (64 * ys.length) * rest.2.toNat) := by ring
          _ = r2.1 + 2 ^ 64 *
                (natVal xs + natVal ys + (r1.2 || r2.2).toNat) := by rw [ihv]
          _ = (r2.1 + 2 ^ 64 * (r1.2 || r2.2).toNat) +
                2 ^ 64 * (natVal xs + natVal ys) := by ring
          _ = (xi + yi + c.toNat) + 2 ^ 64 * (natVal xs + natVal ys) := by
                rw [hlimb]
          _ = xi + 2 ^ 64 * natVal xs + (yi + 2 ^ 64 * natVal ys) +
                c.toNat := by ring

/-- If `small_add_from` grew the vector, the pushed carry puts the value
at or above `2^(64 |x|)`. -/
theorem small_add_from_grow (SIZE : Nat) (x : List Nat) (y s : Nat)
    (hg : (small_add_from SIZE x y s).length ≠ x.length) :
    2 ^ (64 * x.length) ≤ natVal (small_add_from SIZE x y s) := by
  rw [small_add_from] at hg ⊢
  have hx1len : (x.take s ++ (small_add_loop (x.drop s) y).1).length
      = x.length := by
    rw [List.length_append, small_add_loop_len, List.length_take,
      List.length_drop]
    omega
  by_cases hc : (small_add_loop (x.drop s) y).2 ≠ 0
  · rw [if_pos hc] at hg ⊢
    rcases hp : try_push SIZE (x.take s ++ (small_add_loop (x.drop s) y).1)
        (small_add_loop (x.drop s) y).2 with _ | r
    · rw [hp] at hg
      exact absurd hx1len hg
    · dsimp only at hg ⊢
      rw [try_push] at hp
      split at hp
      · injection hp with hp
        rw [← hp, natVal_append, hx1len, natVal_cons, natVal_nil]
        have h1 : 1 ≤ (small_add_loop (x.drop s) y).2 := by omega
        calc 2 ^ (64 * x.length)
            = 2 ^ (64 * x.length) * 1 := by ring
          _ ≤ 2 ^ (64 * x.length) *
                ((small_add_loop (x.drop s) y).2 + 2 ^ 64 * 0) :=
              Nat.mul_le_mul_left _ (by omega)
          _ ≤ _ := Nat.le_add_left _ _
      · exact absurd hp (by simp)
  · rw [if_neg hc] at hg
    exact absurd hx1len hg

/-- Core of `large_add_from` after the resize: value, bounds and length
behaviour of the add-with-carry phase. -/
theorem large_add_from_core (SIZE : Nat) (x1 y : List Nat) (s : Nat)
    (hx1 : limbs_bounded x1) (hy : limbs_bounded y) (hY : y ≠ [])
    (hlen : y.length + s ≤ x1.length) (hsz : x1.length ≤ SIZE)
    (hfit : natVal x1 + 2 ^ (64 * s) * natVal y < 2 ^ (64 * SIZE))
    (r : List Nat)
    (hr : r = if (large_add_loop (x1.drop s) y false).2
        then small_add_from SIZE
          (x1.take s ++ (large_add_loop (x1.drop s) y false).1) 1
          (y.length + s)
        else x1.take s ++ (large_add_loop (x1.drop s) y false).1) :
    natVal r = natVal x1 + 2 ^ (64 * s) * natVal y ∧ limbs_bounded r ∧
      x1.length ≤ r.length ∧ r.length ≤ SIZE ∧
      (2 ^ (64 * (r.length - 1)) ≤ natVal r ∨ r.length = x1.length) := by
  have hy1 : 1 ≤ y.length := List.length_pos.2 hY
  have hdb : limbs_bounded (x1.drop s) := limbs_bounded_drop _ _ hx1
  have htb : limbs_bounded (x1.take s) := limbs_bounded_take _ _ hx1
  have hdlen : y.length ≤ (x1.drop s).length := by
    rw [List.length_drop]
    omega
  obtain ⟨hlb, hlv⟩ := large_add_loop_val y (x1.drop s) false hdb hy hdlen
  simp only [Bool.toNat_false, Nat.add_zero] at hlv
  have htlen : (large_add_loop (x1.drop s) y false).1.length
      = x1.length - s := by
    rw [large_add_loop_len, List.length_drop]
  have htake : (x1.take s).length = s := by
    rw [List.length_take]
    omega
  have hx2b : limbs_bounded
      (x1.take s ++ (large_add_loop (x1.drop s) y false).1) :=
    limbs_bounded_append htb hlb
  have hx2len : (x1.take s ++ (large_add_loop (x1.drop s) y false).1).length
      = x1.length := by
    rw [List.length_append, htlen, htake]
    omega
  have hx2v : natVal (x1.take s ++ (large_add_loop (x1.drop s) y false).1) +
      2 ^ (64 * (y.length + s)) *
        (large_add_loop (x1.drop s) y false).2.toNat
      = natVal x1 + 2 ^ (64 * s) * natVal y := by
    rw [natVal_append, htake]
    have hsplit := natVal_take_drop x1 s
    rw [htake] at hsplit
    have hw : (2 : Nat) ^ (64 * (y.length + s)) =
        2 ^ (64 * s) * 2 ^ (64 * y.length) := by
      rw [← pow_add, ← Nat.mul_add]
      congr 2
      omega
    rw [hw]
    calc natVal (x1.take s) +
          2 ^ (64 * s) * natVal (large_add_loop (x1.drop s) y false).1 +
          2 ^ (64 * s) * 2 ^ (64 * y.length) *
            (large_add_loop (x1.drop s) y false).2.toNat
        = natVal (x1.take s) + 2 ^ (64 * s) *
            (natVal (large_add_loop (x1.drop s) y false).1 +
             2 ^ (64 * y.length) *
               (large_add_loop (x1.drop s) y false).2.toNat) := by ring
      _ = natVal (x1.take s) + 2 ^ (64 * s) *
            (natVal (x1.drop s) + natVal y) := by rw [hlv]
      _ = natVal x1 + 2 ^ (64 * s) * natVal y := by
          rw [hsplit]
          ring
  by_cases hc : (large_add_loop (x1.drop s) y false).2 = true
  · rw [hc] at hx2v hr
    simp only [Bool.toNat_true, Nat.mul_one] at hx2v
    simp only [if_true] at hr
    have hfit2 : natVal (x1.take s ++ (large_add_loop (x1.drop s) y false).1)
        + 2 ^ (64 * (y.length + s)) * 1 < 2 ^ (64 * SIZE) := by
      rw [Nat.mul_one]
      omega
    obtain ⟨hv, hb, hl1, hl2, _⟩ := small_add_from_spec SIZE
      (x1.take s ++ (large_add_loop (x1.drop s) y false).1) 1 (y.length + s)
      hx2b (by norm_num) (by rw [hx2len]; omega) (by rw [hx2len]; exact hsz)
      hfit2
    rw [← hr] at hv hb hl1 hl2
    rw [Nat.mul_one] at hv
    refine ⟨by rw [hv]; omega, hb, by rw [hx2len] at hl1; exact hl1, hl2, ?_⟩
    by_cases hre : r.length =
        (x1.take s ++ (large_add_loop (x1.drop s) y false).1).length
    · exact Or.inr (by rw [hre, hx2len])
    · left
      have hgrow := small_add_from_grow SIZE
        (x1.take s ++ (large_add_loop (x1.drop s) y false).1) 1 (y.length + s)
        (by rw [← hr]; exact hre)
      rw [← hr] at hgrow
      have hle : r.length ≤
          (x1.take s ++ (large_add_loop (x1.drop s) y false).1).length + 1 := by
        have := small_add_from_len_le SIZE
          (x1.take s ++ (large_add_loop (x1.drop s) y false).1) 1
          (y.length + s)
        rw [← hr] at this
        omega
      calc 2 ^ (64 * (r.length - 1))
          ≤ 2 ^ (64 *
              (x1.take s ++ (large_add_loop (x1.drop s) y false).1).length) :=
            Nat.pow_le_pow_right (by norm_num) (by omega)
        _ ≤ natVal r := hgrow
  · have hc' : (large_add_loop (x1.drop s) y false).2 = false :=
      Bool.not_eq_true _ ▸ (by simpa using hc)
    rw [hc'] at hx2v hr
    simp only [Bool.toNat_false, Nat.mul_zero, Nat.add_zero] at hx2v
    simp only [Bool.false_eq_true, if_false] at hr
    subst hr
    exact ⟨hx2v, hx2b, by rw [hx2len], by rw [hx2len]; exact hsz,
      Or.inr hx2len⟩

theorem large_add_loop_nil (xs : List Nat) (c : Bool) :
    large_add_loop xs [] c = (xs, c) := by
  cases xs <;> rfl

/-- `large_add_from` succeeds under capacity and value fit, computes
`x + y·2^(64 s)`, and preserves normalization. -/
theorem large_add_from_spec (SIZE : Nat) (x y : List Nat) (s : Nat)
    (hx : limbs_bounded x) (hy : limbs_bounded y)
    (hxl : x.length ≤ SIZE) (hyl : y.length + s ≤ SIZE)
    (hfit : natVal x + 2 ^ (64 * s) * natVal y < 2 ^ (64 * SIZE)) :
    ∃ r, large_add_from SIZE x y s = some r ∧
      natVal r = natVal x + 2 ^ (64 * s) * natVal y ∧
      limbs_bounded r ∧ x.length ≤ r.length ∧ r.length ≤ SIZE ∧
      (is_normalized x = true → is_normalized y = true →
        is_normalized r = true) := by
  by_cases hY : y = []
  · subst hY
    rw [large_add_from]
    simp only [List.length_nil, natVal_nil, Nat.mul_zero, Nat.add_zero]
    rw [if_neg (by omega : ¬x.length - s < 0)]
    refine ⟨x, ?_, by simp [natVal_nil], hx, Nat.le_refl _, hxl,
      fun hnx _ => hnx⟩
    show some _ = some x
    congr 1
    rw [large_add_loop_nil]
    simp only [Bool.false_eq_true, if_false]
    exact List.take_append_drop s x
  · have hy1 : 1 ≤ y.length := List.length_pos.2 hY
    rw [large_add_from]
    by_cases hres : x.length - s < y.length
    · -- resize to y.length + s limbs
      have hlen_lt : x.length < y.length + s := by omega
      have hszok : ¬SIZE < y.length + s := by omega
      rw [if_pos hres, try_resize, if_neg hszok, if_pos hlen_lt]
      set x1 := x ++ List.replicate (y.length + s - x.length) 0 with hx1def
      have hx1b : limbs_bounded x1 :=
        limbs_bounded_append hx (limbs_bounded_replicate _ 0 (by norm_num))
      have hx1v : natVal x1 = natVal x := by
        rw [hx1def, natVal_append, natVal_replicate_zero]
        ring
      have hx1len : x1.length = y.length + s := by
        rw [hx1def, List.length_append, List.length_replicate]
        omega
      obtain ⟨hv, hb, hl1, hl2, hnd⟩ := large_add_from_core SIZE x1 y s hx1b
        hy hY (by omega) (by omega)
        (by rw [hx1v]; exact hfit) _ rfl
      refine ⟨_, rfl, ?_, hb, ?_, hl2, ?_⟩
      · rw [hv, hx1v]
      · omega
      · intro hnx hny
        set r := if (large_add_loop (x1.drop s) y false).2
          then small_add_from SIZE
            (x1.take s ++ (large_add_loop (x1.drop s) y false).1) 1
            (y.length + s)
          else x1.take s ++ (large_add_loop (x1.drop s) y false).1 with hrdef
        have hrb : limbs_bounded r := hb
        apply (is_normalized_iff_val r hrb).2
        right
        rcases hnd with hge | hle
        · exact hge
        · rw [hle, hx1len, hv, hx1v]
          have hyv : 2 ^ (64 * (y.length - 1)) ≤ natVal y :=
            natVal_ge_of_normalized y hy hny hY
          calc 2 ^ (64 * (y.length + s - 1))
              = 2 ^ (64 * s) * 2 ^ (64 * (y.length - 1)) := by
                rw [← pow_add, ← Nat.mul_add]
                congr 2
                omega
            _ ≤ 2 ^ (64 * s) * natVal y := Nat.mul_le_mul_left _ hyv
            _ ≤ natVal x + 2 ^ (64 * s) * natVal y := Nat.le_add_left _ _
    · -- no resize: x already covers y shifted by s
      have hcov : y.length + s ≤ x.length := by omega
      rw [if_neg hres]
      obtain ⟨hv, hb, hl1, hl2, hnd⟩ := large_add_from_core SIZE x y s hx
        hy hY hcov hxl hfit _ rfl
      refine ⟨_, rfl, hv, hb, hl1, hl2, ?_⟩
      intro hnx hny
      set r := if (large_add_loop (x.drop s) y false).2
        then small_add_from SIZE
          (x.take s ++ (large_add_loop (x.drop s) y false).1) 1
          (y.length + s)
        else x.take s ++ (large_add_loop (x.drop s) y false).1 with hrdef
      have hrb : limbs_bounded r := hb
      apply (is_normalized_iff_val r hrb).2
      right
      rcases hnd with hge | hle
      · exact hge
      · rw [hle, hv]
        have hxne : x ≠ [] := by
          intro hcon
          have hx0 : x.length = 0 := by rw [hcon]; rfl
          omega
        have hxv : 2 ^ (64 * (x.length - 1)) ≤ natVal x :=
          natVal_ge_of_normalized x hx hnx hxne
        exact Nat.le_add_right_of_le hxv

/-- The accumulation loop of `long_mul`: value identity on success. -/
theorem long_mul_loop_spec (SIZE : Nat) (x : List Nat) (hx : limbs_bounded x)
    (hxs : x.length ≤ SIZE) :
    ∀ ys index z r, limbs_bounded ys → limbs_bounded z → z.length ≤ SIZE →
      x.length + index + ys.length ≤ SIZE →
      natVal z + natVal x * natVal ys * 2 ^ (64 * index) < 2 ^ (64 * SIZE) →
      long_mul_loop SIZE x ys index z = some r →
      natVal r = natVal z + natVal x * natVal ys * 2 ^ (64 * index) ∧
        limbs_bounded r ∧ r.length ≤ SIZE := by
  intro ys
  induction ys with
  | nil =>
    intro index z r _ hzb hzl _ _ hloop
    rw [long_mul_loop] at hloop
    injection hloop with hloop
    subst hloop
    exact ⟨by simp [natVal_nil], hzb, hzl⟩
  | cons yi ys ih =>
    intro index z r hys hzb hzl hidx hfit hloop
    have hyi : yi < 2 ^ 64 := hys yi (by simp)
    have hys' : limbs_bounded ys := fun a ha => hys a (by simp [ha])
    have hyval : natVal (yi :: ys) = yi + 2 ^ 64 * natVal ys := natVal_cons _ _
    rw [long_mul_loop] at hloop
    by_cases hyiz : yi ≠ 0
    · rw [if_pos hyiz] at hloop
      rcases htf : try_from SIZE x with _ | zi
      · rw [htf] at hloop
        exact absurd hloop (by simp)
      · rw [htf] at hloop
        dsimp only at hloop
        have hzieq : zi = x := try_from_some_eq _ _ _ htf
        rw [hzieq] at hloop
        have hstep_le : natVal x * yi * 2 ^ (64 * index)
            ≤ natVal x * natVal (yi :: ys) * 2 ^ (64 * index) := by
          have : natVal x * yi ≤ natVal x * natVal (yi :: ys) :=
            Nat.mul_le_mul_left _ (by rw [hyval]; omega)
          exact Nat.mul_le_mul_right _ this
        have hmulfit : natVal x * yi < 2 ^ (64 * SIZE) := by
          have h1 : natVal x * yi ≤ natVal x * yi * 2 ^ (64 * index) :=
            Nat.le_mul_of_pos_right _ (by positivity)
          omega
        obtain ⟨hmv, hmb, hml, _, _⟩ :=
          small_mul_spec SIZE x yi hx hyi hxs hmulfit
        have hmlen : (small_mul SIZE x yi).length ≤ x.length + 1 :=
          (small_mul_len_le SIZE x yi).2
        obtain ⟨r2, hr2, hr2v, hr2b, _, hr2l, _⟩ :=
          large_add_from_spec SIZE z (small_mul SIZE x yi) index hzb hmb hzl
            (by simp only [List.length_cons] at hidx; omega)
            (by rw [hmv]
                calc natVal z + 2 ^ (64 * index) * (natVal x * yi)
                    = natVal z + natVal x * yi * 2 ^ (64 * index) := by ring
                  _ < 2 ^ (64 * SIZE) := by omega)
        rcases hla : large_add_from SIZE z (small_mul SIZE x yi) index
          with _ | z2
        · rw [hla] at hloop
          exact absurd hloop (by simp)
        · rw [hla] at hloop
          dsimp only at hloop
          rw [hla] at hr2
          injection hr2 with hr2
          subst hr2
          rw [hmv] at hr2v
          have hrec := ih (index + 1) z2 r hys' hr2b hr2l
            (by simp only [List.length_cons] at hidx; omega)
            (by rw [hr2v]
                calc natVal z + 2 ^ (64 * index) * (natVal x * yi) +
                      natVal x * natVal ys * 2 ^ (64 * (index + 1))
                    = natVal z + natVal x * (yi + 2 ^ 64 * natVal ys) *
                        2 ^ (64 * index) := by
                      rw [Nat.mul_add 64 index 1]
                      rw [pow_add]
                      ring
                  _ < 2 ^ (64 * SIZE) := by rw [← hyval]; exact hfit)
            hloop
          refine ⟨?_, hrec.2.1, hrec.2.2⟩
          rw [hrec.1, hr2v, hyval]
          rw [Nat.mul_add 64 index 1]
          rw [pow_add]
          ring
    · rw [if_neg hyiz] at hloop
      have hyi0 : yi = 0 := by omega
      subst hyi0
      have hrec := ih (index + 1) z r hys' hzb hzl
        (by simp only [List.length_cons] at hidx; omega)
        (by rw [hyval] at hfit
            calc natVal z + natVal x * natVal ys * 2 ^ (64 * (index + 1))
                = natVal z + natVal x * (0 + 2 ^ 64 * natVal ys) *
                    2 ^ (64 * index) := by
                  rw [Nat.mul_add 64 index 1, pow_add]
                  ring
              _ < 2 ^ (64 * SIZE) := hfit)
        hloop
      refine ⟨?_, hrec.2.1, hrec.2.2⟩
      rw [hrec.1, hyval]
      rw [Nat.mul_add 64 index 1, pow_add]
      ring

/-- `long_mul` computes the product, normalized, on success. -/
theorem long_mul_spec (SIZE : Nat) (x y : List Nat) (hx : limbs_bounded x)
    (hy : limbs_bounded y) (hfit : x.length + y.length ≤ SIZE)
    (hne : y ≠ [] ∨ x = []) (r : List Nat)
    (hlm : long_mul SIZE x y = some r) :
    natVal r = natVal x * natVal y ∧ limbs_bounded r ∧
      is_normalized r = true ∧ r.length ≤ SIZE := by
  have hxs : x.length ≤ SIZE := by omega
  rw [long_mul] at hlm
  rcases htf : try_from SIZE x with _ | z
  · rw [htf] at hlm
    exact absurd hlm (by simp)
  · rw [htf] at hlm
    dsimp only at hlm
    have hzeq : z = x := try_from_some_eq _ _ _ htf
    subst hzeq
    cases y with
    | nil =>
      injection hlm with hlm
      subst hlm
      have hxnil : z = [] := by
        rcases hne with h | h
        · exact absurd rfl h
        · exact h
      subst hxnil
      have hnz : normalize ([] : List Nat) = [] := rfl
      simp only [hnz]
      exact ⟨by simp [natVal_nil], by intro l hl; simp at hl, rfl,
        by simp⟩
    | cons y0 ys =>
      dsimp only at hlm
      have hy0 : y0 < 2 ^ 64 := hy y0 (by simp)
      have hys' : limbs_bounded ys := fun a ha => hy a (by simp [ha])
      have hXlt : natVal z < 2 ^ (64 * z.length) := natVal_lt z hx
      have hYlt : natVal (y0 :: ys) < 2 ^ (64 * (y0 :: ys).length) :=
        natVal_lt _ hy
      have hprod : natVal z * natVal (y0 :: ys) < 2 ^ (64 * SIZE) := by
        calc natVal z * natVal (y0 :: ys)
            < 2 ^ (64 * z.length) * 2 ^ (64 * (y0 :: ys).length) :=
              mul_lt_mul'' hXlt hYlt (Nat.zero_le _) (Nat.zero_le _)
          _ ≤ 2 ^ (64 * SIZE) := by
              rw [← pow_add, ← Nat.mul_add]
              exact Nat.pow_le_pow_right (by norm_num) (by omega)
      have hmfit0 : natVal z * y0 < 2 ^ (64 * SIZE) := by
        have h1 : natVal z * y0 ≤ natVal z * natVal (y0 :: ys) :=
          Nat.mul_le_mul_left _ (by rw [natVal_cons]; omega)
        omega
      obtain ⟨hmv, hmb, hml, _, _⟩ :=
        small_mul_spec SIZE z y0 hx hy0 hxs hmfit0
      rcases hloop : long_mul_loop SIZE z ys 1 (small_mul SIZE z y0)
        with _ | z2
      · rw [hloop] at hlm
        exact absurd hlm (by simp)
      · rw [hloop] at hlm
        dsimp only at hlm
        injection hlm with hlm
        subst hlm
        obtain ⟨hlv, hlb, hll⟩ := long_mul_loop_spec SIZE z hx hxs ys 1
          (small_mul SIZE z y0) z2 hys' hmb hml
          (by simp only [List.length_cons] at hfit; omega)
          (by rw [hmv]
              calc natVal z * y0 + natVal z * natVal ys * 2 ^ (64 * 1)
                  = natVal z * natVal (y0 :: ys) := by
                    rw [natVal_cons]
                    norm_num
                    ring
                _ < 2 ^ (64 * SIZE) := hprod)
          hloop
        refine ⟨?_, limbs_bounded_normalize z2 hlb, is_normalized_normalize z2,
          Nat.le_trans (normalize_length_le z2) hll⟩
        rw [natVal_normalize, hlv, hmv, natVal_cons]
        norm_num
        ring

/-- The uneven-multiplication loop: value, bounds and final normalization
on success, given correctness of the recursive Karatsuba calls on
`x.length`-bounded slices. -/
theorem karatsuba_uneven_loop_spec (SIZE : Nat) (x : List Nat)
    (hx : limbs_bounded x)
    (IH : ∀ y' r', limbs_bounded y' → y'.length ≤ x.length →
      x.length + y'.length + 2 ≤ SIZE → (y' ≠ [] ∨ x = []) →
      karatsuba_mul SIZE x y' = some r' →
      natVal r' = natVal x * natVal y' ∧ limbs_bounded r' ∧
        is_normalized r' = true) :
    ∀ fuel ycur start result r, limbs_bounded ycur →
      limbs_bounded result → result.length ≤ SIZE →
      natVal result + natVal x * natVal ycur * 2 ^ (64 * start)
        < 2 ^ (64 * SIZE) →
      x.length + start + ycur.length ≤ SIZE →
      2 * x.length + 2 ≤ SIZE →
      karatsuba_uneven_loop SIZE x fuel ycur start result = some r →
      natVal r = natVal result +
          natVal x * natVal ycur * 2 ^ (64 * start) ∧
        limbs_bounded r ∧ is_normalized r = true := by
  intro fuel
  induction fuel with
  | zero =>
    intro ycur start result r hyc hresb hresl _ _ _ hloop
    cases ycur with
    | nil =>
      rw [karatsuba_uneven_loop] at hloop
      injection hloop with hloop
      subst hloop
      refine ⟨?_, limbs_bounded_normalize _ hresb, is_normalized_normalize _⟩
      rw [natVal_normalize]
      simp [natVal_nil]
    | cons y1 ys =>
      rw [karatsuba_uneven_loop] at hloop
      exact absurd hloop (by simp)
  | succ f ihf =>
    intro ycur start result r hyc hresb hresl hfit hszlen hlx2 hloop
    cases ycur with
    | nil =>
      rw [karatsuba_uneven_loop] at hloop
      injection hloop with hloop
      subst hloop
      refine ⟨?_, limbs_bounded_normalize _ hresb, is_normalized_normalize _⟩
      rw [natVal_normalize]
      simp [natVal_nil]
    | cons y1 ys =>
      rw [karatsuba_uneven_loop] at hloop
      dsimp only [karatsuba_split] at hloop
      set m := min x.length (y1 :: ys).length with hm
      have hm_le_x : m ≤ x.length := by rw [hm]; omega
      have hm_le_c : m ≤ (y1 :: ys).length := by rw [hm]; omega
      have htake_len : ((y1 :: ys).take m).length = m := by
        rw [List.length_take]
        omega
      have htake_b : limbs_bounded ((y1 :: ys).take m) :=
        limbs_bounded_take _ _ hyc
      have hdrop_b : limbs_bounded ((y1 :: ys).drop m) :=
        limbs_bounded_drop _ _ hyc
      rcases hk : karatsuba_mul SIZE x ((y1 :: ys).take m) with _ | prod
      · rw [hk] at hloop
        exact absurd hloop (by simp)
      · rw [hk] at hloop
        dsimp only at hloop
        have hne' : (y1 :: ys).take m ≠ [] ∨ x = [] := by
          by_cases hxnil : x = []
          · exact Or.inr hxnil
          · left
            have hx1 : 1 ≤ x.length := List.length_pos.2 hxnil
            have hc1 : 1 ≤ (y1 :: ys).length := by simp
            intro hcon
            have h0 : ((y1 :: ys).take m).length = 0 := by rw [hcon]; rfl
            omega
        obtain ⟨hpv, hpb, hpn⟩ := IH _ prod htake_b (by omega) (by omega)
          hne' hk
        have hYl_le : natVal ((y1 :: ys).take m) ≤ natVal (y1 :: ys) := by
          have hsp := natVal_take_drop (y1 :: ys) m
          omega
        have hprod_len : prod.length ≤ x.length + m := by
          apply length_le_of_norm_val prod hpb hpn
          rw [hpv]
          calc natVal x * natVal ((y1 :: ys).take m)
              < 2 ^ (64 * x.length) * 2 ^ (64 * ((y1 :: ys).take m).length) :=
                mul_lt_mul'' (natVal_lt x hx) (natVal_lt _ htake_b)
                  (Nat.zero_le _) (Nat.zero_le _)
            _ = 2 ^ (64 * (x.length + m)) := by
                rw [htake_len, ← pow_add, ← Nat.mul_add]
        have h1 : natVal x * natVal ((y1 :: ys).take m)
            ≤ natVal x * natVal (y1 :: ys) := Nat.mul_le_mul_left _ hYl_le
        obtain ⟨r2, hr2eq, hr2v, hr2b, _, hr2l, _⟩ :=
          large_add_from_spec SIZE result prod start hresb hpb hresl
            (by omega)
            (by rw [hpv]
                calc natVal result + 2 ^ (64 * start) *
                      (natVal x * natVal ((y1 :: ys).take m))
                    ≤ natVal result + 2 ^ (64 * start) *
                        (natVal x * natVal (y1 :: ys)) := by
                      have h2 := Nat.mul_le_mul_left (2 ^ (64 * start)) h1
                      omega
                  _ = natVal result +
                        natVal x * natVal (y1 :: ys) * 2 ^ (64 * start) := by
                      ring
                  _ < 2 ^ (64 * SIZE) := hfit)
        rw [hr2eq] at hloop
        dsimp only at hloop
        have hsp := natVal_take_drop (y1 :: ys) m
        rw [htake_len] at hsp
        have hkey : ∀ w : Nat, w + 2 ^ (64 * start) *
            (natVal x * natVal ((y1 :: ys).take m)) +
            natVal x * natVal ((y1 :: ys).drop m) * 2 ^ (64 * (start + m))
            = w + natVal x * natVal (y1 :: ys) * 2 ^ (64 * start) := by
          intro w
          rw [hsp]
          rw [show 64 * (start + m) = 64 * start + 64 * m from by ring,
            pow_add]
          ring
        obtain ⟨hv, hb, hn⟩ := ihf ((y1 :: ys).drop m) (start + m) r2 r
          hdrop_b hr2b hr2l
          (by rw [hr2v, hpv, hkey (natVal result)]
              exact hfit)
          (by rw [List.length_drop]; omega)
          hlx2 hloop
        refine ⟨?_, hb, hn⟩
        rw [hv, hr2v, hpv, hkey (natVal result)]

/-- `karatsuba_mul` (and through it `karatsuba_uneven_mul`) computes the
product, limb-bounded and normalized, whenever it returns a vector, the
operands fit with two limbs of headroom, and `y` is nonempty (or both
operands are empty). -/
theorem karatsuba_mul_spec (SIZE : Nat) :
    ∀ N x y r, y.length ≤ N → limbs_bounded x → limbs_bounded y →
      x.length + y.length + 2 ≤ SIZE → (y ≠ [] ∨ x = []) →
      karatsuba_mul SIZE x y = some r →
      natVal r = natVal x * natVal y ∧ limbs_bounded r ∧
        is_normalized r = true := by
  intro N
  induction N with
  | zero =>
    intro x y r hyN hx hy hfit hne hk
    rw [karatsuba_mul,
      dif_pos (by rw [KARATSUBA_CUTOFF]; omega)] at hk
    obtain ⟨h1, h2, h3, _⟩ := long_mul_spec SIZE x y hx hy (by omega) hne r hk
    exact ⟨h1, h2, h3⟩
  | succ n ihN =>
    intro x y r hyN hx hy hfit hne hk
    by_cases hcut : y.length ≤ KARATSUBA_CUTOFF
    · rw [karatsuba_mul, dif_pos hcut] at hk
      obtain ⟨h1, h2, h3, _⟩ := long_mul_spec SIZE x y hx hy (by omega) hne
        r hk
      exact ⟨h1, h2, h3⟩
    · have hly33 : 33 ≤ y.length := by rw [KARATSUBA_CUTOFF] at hcut; omega
      by_cases hun : x.length < y.length / 2
      · -- x shorter than half of y: the uneven loop
        rw [karatsuba_mul, dif_neg hcut, dif_pos hun] at hk
        rw [karatsuba_uneven_mul] at hk
        rcases htr : try_resize SIZE [] (x.length + y.length) 0 with _ | res0
        · rw [htr] at hk
          exact absurd hk (by simp)
        · rw [htr] at hk
          dsimp only at hk
          have hres0 : res0 = List.replicate (x.length + y.length) 0 := by
            rw [try_resize,
              if_neg (by omega : ¬SIZE < x.length + y.length)] at htr
            injection htr with htr
            rw [← htr, if_pos (by simp; omega)]
            simp
          subst hres0
          have hIH : ∀ y' r', limbs_bounded y' → y'.length ≤ x.length →
              x.length + y'.length + 2 ≤ SIZE → (y' ≠ [] ∨ x = []) →
              karatsuba_mul SIZE x y' = some r' →
              natVal r' = natVal x * natVal y' ∧ limbs_bounded r' ∧
                is_normalized r' = true :=
            fun y' r' h1 h2 h3 h4 h5 => ihN x y' r' (by omega) hx h1 h3 h4 h5
          have hprodlt : natVal x * natVal y
              < 2 ^ (64 * (x.length + y.length)) := by
            calc natVal x * natVal y
                < 2 ^ (64 * x.length) * 2 ^ (64 * y.length) :=
                  mul_lt_mul'' (natVal_lt x hx) (natVal_lt y hy)
                    (Nat.zero_le _) (Nat.zero_le _)
              _ = 2 ^ (64 * (x.length + y.length)) := by
                  rw [← pow_add, ← Nat.mul_add]
          have hple : (2 : Nat) ^ (64 * (x.length + y.length))
              ≤ 2 ^ (64 * SIZE) :=
            Nat.pow_le_pow_right (by norm_num) (by omega)
          obtain ⟨hv, hb, hn⟩ := karatsuba_uneven_loop_spec SIZE x hx hIH
            y.length y 0 (List.replicate (x.length + y.length) 0) r hy
            (limbs_bounded_replicate _ 0 (by norm_num))
            (by rw [List.length_replicate]; omega)
            (by rw [natVal_replicate_zero]
                simp only [Nat.mul_zero, pow_zero, Nat.mul_one, Nat.zero_add]
                omega)
            (by omega) (by omega) hk
          refine ⟨?_, hb, hn⟩
          rw [hv, natVal_replicate_zero]
          simp
      · -- the three-multiplication branch
        rw [karatsuba_mul, dif_neg hcut, dif_neg hun] at hk
        dsimp only [karatsuba_split] at hk
        set m := y.length / 2 with hm
        have hmlx : m ≤ x.length := by omega
        have hmly : m ≤ y.length := by omega
        have hm16 : 16 ≤ m := by omega
        have hyhm : m ≤ y.length - m := by omega
        have hxl_len : (x.take m).length = m := by
          rw [List.length_take]
          omega
        have hxh_len : (x.drop m).length = x.length - m := List.length_drop _ _
        have hyl_len : (y.take m).length = m := by
          rw [List.length_take]
          omega
        have hyh_len : (y.drop m).length = y.length - m := List.length_drop _ _
        have hxlb := limbs_bounded_take x m hx
        have hxhb := limbs_bounded_drop x m hx
        have hylb := limbs_bounded_take y m hy
        have hyhb := limbs_bounded_drop y m hy
        have hXsp := natVal_take_drop x m
        rw [hxl_len] at hXsp
        have hYsp := natVal_take_drop y m
        rw [hyl_len] at hYsp
        have hXl_lt : natVal (x.take m) < 2 ^ (64 * m) := by
          have := natVal_lt _ hxlb
          rwa [hxl_len] at this
        have hXh_lt : natVal (x.drop m) < 2 ^ (64 * (x.length - m)) := by
          have := natVal_lt _ hxhb
          rwa [hxh_len] at this
        have hYl_lt : natVal (y.take m) < 2 ^ (64 * m) := by
          have := natVal_lt _ hylb
          rwa [hyl_len] at this
        have hYh_lt : natVal (y.drop m) < 2 ^ (64 * (y.length - m)) := by
          have := natVal_lt _ hyhb
          rwa [hyh_len] at this
        have hpm_le_x : (2 : Nat) ^ (64 * m) ≤ 2 ^ (64 * x.length) :=
          Nat.pow_le_pow_right (by norm_num) (by omega)
        have hpm_le_y : (2 : Nat) ^ (64 * m) ≤ 2 ^ (64 * y.length) :=
          Nat.pow_le_pow_right (by norm_num) (by omega)
        have hpxm_le : (2 : Nat) ^ (64 * (x.length - m))
            ≤ 2 ^ (64 * x.length) :=
          Nat.pow_le_pow_right (by norm_num) (by omega)
        have hpym_le : (2 : Nat) ^ (64 * (y.length - m))
            ≤ 2 ^ (64 * y.length) :=
          Nat.pow_le_pow_right (by norm_num) (by omega)
        have hpx_succ : (2 : Nat) ^ (64 * x.length) * 2 ^ 64
            = 2 ^ (64 * x.length + 64) := (pow_add 2 _ _).symm
        have hpx_le_SZ : (2 : Nat) ^ (64 * x.length + 64)
            ≤ 2 ^ (64 * SIZE) :=
          Nat.pow_le_pow_right (by norm_num) (by omega)
        have hpy_succ : (2 : Nat) ^ (64 * y.length) * 2 ^ 64
            = 2 ^ (64 * y.length + 64) := (pow_add 2 _ _).symm
        have hpy_le_SZ : (2 : Nat) ^ (64 * y.length + 64)
            ≤ 2 ^ (64 * SIZE) :=
          Nat.pow_le_pow_right (by norm_num) (by omega)
        have hone_le : (1 : Nat) ≤ 2 ^ 64 := Nat.one_le_two_pow
        split at hk
        · simp at hk
        · rename_i sumx0 hsx0
          have hsumx0 : sumx0 = x.take m := try_from_some_eq _ _ _ hsx0
          subst hsumx0
          split at hk
          · simp at hk
          · rename_i sumx hsx
            split at hk
            · simp at hk
            · rename_i sumy0 hsy0
              have hsumy0 : sumy0 = y.take m := try_from_some_eq _ _ _ hsy0
              subst hsumy0
              split at hk
              · simp at hk
              · rename_i sumy hsy
                split at hk
                · simp at hk
                · rename_i z0 hz0
                  split at hk
                  · simp at hk
                  · rename_i z1 hz1
                    split at hk
                    · simp at hk
                    · rename_i z2 hz2
                      split at hk
                      · simp at hk
                      · rename_i res0 hres0
                        split at hk
                        · simp at hk
                        · rename_i res2 hres2
                          rw [large_add] at hsx hsy
                          -- sumx = Xl + Xh
                          have hsxlen :=
                            large_add_from_some_len _ _ _ _ _ hsx
                          rw [hxl_len, hxh_len] at hsxlen
                          have hsylen :=
                            large_add_from_some_len _ _ _ _ _ hsy
                          rw [hyl_len, hyh_len] at hsylen
                          obtain ⟨sx', hsx'eq, hsx'v, hsx'b, hsx'lb, hsx'sz,
                              _⟩ :=
                            large_add_from_spec SIZE (x.take m) (x.drop m) 0
                              hxlb hxhb (by omega) (by omega)
                              (by simp only [Nat.mul_zero, pow_zero,
                                    Nat.one_mul]
                                  omega)
                          have heqx : sx' = sumx :=
                            Option.some.inj (hsx'eq.symm.trans hsx)
                          rw [heqx] at hsx'v hsx'b hsx'lb hsx'sz
                          obtain ⟨sy', hsy'eq, hsy'v, hsy'b, hsy'lb, hsy'sz,
                              _⟩ :=
                            large_add_from_spec SIZE (y.take m) (y.drop m) 0
                              hylb hyhb (by omega) (by omega)
                              (by simp only [Nat.mul_zero, pow_zero,
                                    Nat.one_mul]
                                  omega)
                          have heqy : sy' = sumy :=
                            Option.some.inj (hsy'eq.symm.trans hsy)
                          rw [heqy] at hsy'v hsy'b hsy'lb hsy'sz
                          simp only [Nat.mul_zero, pow_zero, Nat.one_mul]
                            at hsx'v hsy'v
                          rw [hxl_len] at hsx'lb
                          rw [hyl_len] at hsy'lb
                          -- recursive products
                          obtain ⟨hz0v, hz0b, hz0n⟩ := ihN (x.take m)
                            (y.take m) z0 (by omega) hxlb hylb
                            (by rw [hxl_len, hyl_len]; omega)
                            (Or.inl (by
                              intro hcon
                              rw [hcon] at hyl_len
                              simp at hyl_len
                              omega))
                            hz0
                          obtain ⟨hz1v, hz1b, hz1n⟩ := ihN sumx sumy z1
                            (by omega) hsx'b hsy'b (by omega)
                            (Or.inl (by
                              intro hcon
                              rw [hcon] at hsy'lb
                              simp at hsy'lb
                              omega))
                            hz1
                          obtain ⟨hz2v, hz2b, hz2n⟩ := ihN (x.drop m)
                            (y.drop m) z2 (by omega) hxhb hyhb
                            (by rw [hxh_len, hyh_len]; omega)
                            (Or.inl (by
                              intro hcon
                              rw [hcon] at hyh_len
                              simp at hyh_len
                              omega))
                            hz2
                          have hz0len : z0.length ≤ m + m := by
                            apply length_le_of_norm_val z0 hz0b hz0n
                            rw [hz0v]
                            calc natVal (x.take m) * natVal (y.take m)
                                < 2 ^ (64 * m) * 2 ^ (64 * m) :=
                                  mul_lt_mul'' hXl_lt hYl_lt (Nat.zero_le _)
                                    (Nat.zero_le _)
                              _ = 2 ^ (64 * (m + m)) := by
                                  rw [← pow_add, ← Nat.mul_add]
                          have hz2len : z2.length
                              ≤ (x.length - m) + (y.length - m) := by
                            apply length_le_of_norm_val z2 hz2b hz2n
                            rw [hz2v]
                            calc natVal (x.drop m) * natVal (y.drop m)
                                < 2 ^ (64 * (x.length - m)) *
                                    2 ^ (64 * (y.length - m)) :=
                                  mul_lt_mul'' hXh_lt hYh_lt (Nat.zero_le _)
                                    (Nat.zero_le _)
                              _ = 2 ^ (64 * ((x.length - m) +
                                    (y.length - m))) := by
                                  rw [← pow_add, ← Nat.mul_add]
                          -- the scaled middle term z1 - z2 - z0
                          obtain ⟨hw1ge, _, hw1b, hw1len, hw1n⟩ :=
                            large_sub_spec z1 z2 hz1b hz2b hz1n hz2n
                          have hle1 : natVal z2 ≤ natVal z1 := by
                            rw [hz1v, hz2v, hsx'v, hsy'v]
                            exact Nat.mul_le_mul (Nat.le_add_left _ _)
                              (Nat.le_add_left _ _)
                          have hw1v := hw1ge hle1
                          obtain ⟨hw2ge, _, hw2b, hw2len, hw2n⟩ :=
                            large_sub_spec (large_sub z1 z2) z0 hw1b hz0b
                              hw1n hz0n
                          have hz1exp : natVal z1 = natVal z0 +
                              (natVal (x.take m) * natVal (y.drop m) +
                               natVal (x.drop m) * natVal (y.take m)) +
                              natVal z2 := by
                            rw [hz0v, hz1v, hz2v, hsx'v, hsy'v]
                            ring
                          have hle2 : natVal z0
                              ≤ natVal (large_sub z1 z2) := by omega
                          have hw2v := hw2ge hle2
                          have hMv : natVal (large_sub (large_sub z1 z2) z0)
                              = natVal (x.take m) * natVal (y.drop m) +
                                natVal (x.drop m) * natVal (y.take m) := by
                            omega
                          have hXlYh_lt : natVal (x.take m) *
                              natVal (y.drop m) < 2 ^ (64 * y.length) := by
                            calc natVal (x.take m) * natVal (y.drop m)
                                < 2 ^ (64 * m) *
                                    2 ^ (64 * (y.length - m)) :=
                                  mul_lt_mul'' hXl_lt hYh_lt (Nat.zero_le _)
                                    (Nat.zero_le _)
                              _ = 2 ^ (64 * y.length) := by
                                  rw [← pow_add, ← Nat.mul_add]
                                  congr 2
                                  omega
                          have hXhYl_lt : natVal (x.drop m) *
                              natVal (y.take m) < 2 ^ (64 * x.length) := by
                            calc natVal (x.drop m) * natVal (y.take m)
                                < 2 ^ (64 * (x.length - m)) *
                                    2 ^ (64 * m) :=
                                  mul_lt_mul'' hXh_lt hYl_lt (Nat.zero_le _)
                                    (Nat.zero_le _)
                              _ = 2 ^ (64 * x.length) := by
                                  rw [← pow_add, ← Nat.mul_add]
                                  congr 2
                                  omega
                          have hmax1 : (2 : Nat) ^ (64 * x.length)
                              ≤ 2 ^ (64 * max x.length y.length) :=
                            Nat.pow_le_pow_right (by norm_num) (by omega)
                          have hmax2 : (2 : Nat) ^ (64 * y.length)
                              ≤ 2 ^ (64 * max x.length y.length) :=
                            Nat.pow_le_pow_right (by norm_num) (by omega)
                          have hmaxpow : (2 : Nat) ^
                              (64 * (max x.length y.length + 1))
                              = 2 ^ (64 * max x.length y.length) * 2 ^ 64 := by
                            have h64 : 64 * (max x.length y.length + 1)
                                = 64 * max x.length y.length + 64 := by ring
                            rw [h64, pow_add]
                          have hw2lenb : (large_sub (large_sub z1 z2)
                              z0).length ≤ max x.length y.length + 1 := by
                            apply length_le_of_norm_val _ hw2b hw2n
                            rw [hMv, hmaxpow]
                            omega
                          -- assemble: res0 = z0
                          have hres0eq : res0 = z0 :=
                            try_from_some_eq _ _ _ hres0
                          rw [hres0eq] at hres2
                          have hprodlt : natVal x * natVal y
                              < 2 ^ (64 * (x.length + y.length)) := by
                            calc natVal x * natVal y
                                < 2 ^ (64 * x.length) *
                                    2 ^ (64 * y.length) :=
                                  mul_lt_mul'' (natVal_lt x hx)
                                    (natVal_lt y hy) (Nat.zero_le _)
                                    (Nat.zero_le _)
                              _ = 2 ^ (64 * (x.length + y.length)) := by
                                  rw [← pow_add, ← Nat.mul_add]
                          have hplSZ : (2 : Nat) ^
                              (64 * (x.length + y.length)) ≤ 2 ^ (64 * SIZE) :=
                            Nat.pow_le_pow_right (by norm_num) (by omega)
                          have hkey : natVal x * natVal y = natVal z0 +
                              2 ^ (64 * m) *
                                natVal (large_sub (large_sub z1 z2) z0) +
                              2 ^ (64 * (2 * m)) * natVal z2 := by
                            rw [hXsp, hYsp, hz0v, hz2v, hMv,
                              show 64 * (2 * m) = 64 * m + 64 * m from by
                                ring,
                              pow_add]
                            ring
                          obtain ⟨r2', hr2'eq, hr2'v, hr2'b, _, hr2'sz,
                              hr2'n⟩ :=
                            large_add_from_spec SIZE z0
                              (large_sub (large_sub z1 z2) z0) m hz0b hw2b
                              (by omega) (by omega) (by omega)
                          have heqr2 : r2' = res2 :=
                            Option.some.inj (hr2'eq.symm.trans hres2)
                          rw [heqr2] at hr2'v hr2'b hr2'sz hr2'n
                          obtain ⟨r', hr'eq, hr'v, hr'b, _, _, hr'n⟩ :=
                            large_add_from_spec SIZE res2 z2 (2 * m) hr2'b
                              hz2b hr2'sz (by omega) (by omega)
                          have heqr : r' = r :=
                            Option.some.inj (hr'eq.symm.trans hk)
                          rw [heqr] at hr'v hr'b hr'n
                          refine ⟨by omega, hr'b,
                            hr'n (hr2'n hz0n hw2n) hz2n⟩

/-- `large_mul` on success: product value, bounds, normalization. -/
theorem large_mul_spec (SIZE : Nat) (x y r : List Nat)
    (hx : limbs_bounded x) (hy : limbs_bounded y)
    (hfit : x.length + y.length + 2 ≤ SIZE)
    (hnx : is_normalized x = true) (hny : is_normalized y = true)
    (hlm : large_mul SIZE x y = some r) :
    natVal r = natVal x * natVal y ∧ limbs_bounded r ∧
      is_normalized r = true := by
  rw [large_mul] at hlm
  by_cases h1 : y.length = 1
  · rw [if_pos h1] at hlm
    injection hlm with hlm
    cases y with
    | nil => simp at h1
    | cons y0 ytl =>
      have hytl : ytl = [] := by
        simp only [List.length_cons] at h1
        exact List.length_eq_zero.1 (by omega)
      subst hytl
      have hy0 : y0 < 2 ^ 64 := hy y0 (by simp)
      have hy0pos : 0 < y0 := by
        have := (is_normalized_singleton_iff y0).1 hny
        omega
      have hfit0 : natVal x * y0 < 2 ^ (64 * SIZE) := by
        calc natVal x * y0 < 2 ^ (64 * x.length) * 2 ^ 64 :=
              mul_lt_mul'' (natVal_lt x hx) hy0 (Nat.zero_le _)
                (Nat.zero_le _)
          _ = 2 ^ (64 * x.length + 64) := (pow_add 2 _ _).symm
          _ ≤ 2 ^ (64 * SIZE) := by
              apply Nat.pow_le_pow_right (by norm_num)
              simp only [List.length_cons, List.length_nil] at hfit
              omega
      obtain ⟨hv, hb, _, _, hn⟩ := small_mul_spec SIZE x y0 hx hy0
        (by simp only [List.length_cons, List.length_nil] at hfit; omega)
        hfit0
      rw [← hlm]
      simp only [List.headD_cons]
      refine ⟨?_, hb, hn hnx hy0pos⟩
      rw [hv, natVal_cons, natVal_nil]
      ring
  · rw [if_neg h1] at hlm
    by_cases h2 : x.length < y.length
    · rw [if_pos h2] at hlm
      have hne : y ≠ [] ∨ x = [] := by
        left
        intro hcon
        rw [hcon] at h2
        simp at h2
      exact karatsuba_mul_spec SIZE y.length x y r (Nat.le_refl _) hx hy
        hfit hne hlm
    · rw [if_neg h2] at hlm
      have hne : x ≠ [] ∨ y = [] := by
        by_cases hxnil : x = []
        · right
          rw [hxnil] at h2
          simp only [List.length_nil, Nat.not_lt, Nat.le_zero] at h2
          exact List.length_eq_zero.1 h2
        · exact Or.inl hxnil
      obtain ⟨hv, hb, hn⟩ := karatsuba_mul_spec SIZE x.length y x r
        (Nat.le_refl _) hy hx (by omega) hne hlm
      exact ⟨by rw [hv]; ring, hb, hn⟩

/-- `large_quorem` leaves the remainder vector normalized whenever the
input was. -/
theorem large_quorem_norm (x y : List Nat) (hnx : is_normalized x = true) :
    is_normalized (large_quorem x y).2 = true := by
  rw [large_quorem]
  by_cases hlen : x.length < y.length
  · rw [if_pos hlen]
    exact hnx
  · rw [if_neg hlen]
    dsimp only
    split <;> split
    all_goals
      first
        | exact is_normalized_normalize _
        | exact hnx

theorem shl_bits_loop_len (x : List Nat) (n prev : Nat) :
    (shl_bits_loop x n prev).1.length = x.length := by
  induction x generalizing prev with
  | nil => rfl
  | cons l ls ih =>
    rw [shl_bits_loop]
    simp only [List.length_cons]
    rw [ih]

/-- The shift loop's returned `prev` is the last limb, and the last output
limb is the shifted last limb or-ed with a piece of its predecessor. -/
theorem shl_bits_loop_last (n : Nat) :
    ∀ (x : List Nat) (prev v : Nat), x.getLast? = some v →
      (shl_bits_loop x n prev).2 = v ∧
      ∃ p, (shl_bits_loop x n prev).1.getLast? =
        some ((v <<< n) % 2 ^ 64 ||| p >>> (64 - n)) := by
  intro x
  induction x with
  | nil =>
    intro prev v hv
    simp at hv
  | cons l ls ih =>
    intro prev v hv
    cases ls with
    | nil =>
      simp only [List.getLast?_singleton, Option.some.injEq] at hv
      subst hv
      exact ⟨rfl, ⟨prev, rfl⟩⟩
    | cons l2 ls2 =>
      have hv' : (l2 :: ls2).getLast? = some v := by
        rwa [List.getLast?_cons_cons] at hv
      obtain ⟨h2, p, hp⟩ := ih l v hv'
      rw [shl_bits_loop]
      refine ⟨h2, ⟨p, ?_⟩⟩
      have hne : (shl_bits_loop (l2 :: ls2) n l).1 ≠ [] := by
        intro hcon
        have := shl_bits_loop_len (l2 :: ls2) n l
        rw [hcon] at this
        simp at this
      dsimp only
      have hcons : ((l <<< n % 2 ^ 64 ||| prev >>> (64 - n)) ::
          (shl_bits_loop (l2 :: ls2) n l).1)
          = [l <<< n % 2 ^ 64 ||| prev >>> (64 - n)] ++
            (shl_bits_loop (l2 :: ls2) n l).1 := rfl
      rw [hcons, getLast?_append_right _ _ hne]
      exact hp

theorem lor_zero_left (a b : Nat) (h : a ||| b = 0) : a = 0 := by
  by_contra hne
  obtain ⟨i, hbit⟩ := Nat.exists_most_significant_bit hne
  have h2 : (a ||| b).testBit i = true := by
    rw [Nat.testBit_lor, hbit.1]
    rfl
  rw [h, Nat.zero_testBit] at h2
  exact Bool.false_ne_true h2

/-- A successful `shl_bits` leaves a normalized vector normalized
(`0 < n < 64`). -/
theorem shl_bits_norm (SIZE : Nat) (x : List Nat) (n : Nat) (hn0 : 0 < n)
    (hn : n < 64) (hnx : is_normalized x = true)
    (hs : (shl_bits SIZE x n).2 = true) :
    is_normalized (shl_bits SIZE x n).1 = true := by
  rw [shl_bits] at hs ⊢
  rcases hlast : x.getLast? with _ | v
  · -- x = []
    rw [List.getLast?_eq_none_iff] at hlast
    subst hlast
    have hred : shl_bits_loop ([] : List Nat) n 0 = ([], 0) := rfl
    rw [hred, if_neg (by simp)]
    rfl
  · have hvz : v ≠ 0 := by
      intro hcon
      rw [is_normalized, hlast, hcon] at hnx
      simp at hnx
    obtain ⟨h2, p, hp⟩ := shl_bits_loop_last n x 0 v hlast
    by_cases hc : (shl_bits_loop x n 0).2 >>> (64 - n) ≠ 0
    · rw [if_pos hc] at hs ⊢
      rcases hpush : try_push SIZE (shl_bits_loop x n 0).1
          ((shl_bits_loop x n 0).2 >>> (64 - n)) with _ | r
      · rw [hpush] at hs
        simp at hs
      · dsimp only
        rw [try_push] at hpush
        split at hpush
        · injection hpush with hpush
          rw [← hpush]
          exact is_normalized_concat _ _ hc
        · exact absurd hpush (by simp)
    · rw [if_neg hc] at hs ⊢
      dsimp only
      have hc0 : (shl_bits_loop x n 0).2 >>> (64 - n) = 0 := by omega
      rw [h2] at hc0
      rw [Nat.shiftRight_eq_div_pow] at hc0
      have hvlt : v < 2 ^ (64 - n) := by
        rcases Nat.lt_or_ge v (2 ^ (64 - n)) with h | h
        · exact h
        · exfalso
          have : 0 < v / 2 ^ (64 - n) := Nat.div_pos h (by positivity)
          omega
      have hshift : (v <<< n) % 2 ^ 64 = v * 2 ^ n := by
        rw [Nat.shiftLeft_eq]
        apply Nat.mod_eq_of_lt
        calc v * 2 ^ n < 2 ^ (64 - n) * 2 ^ n :=
              (Nat.mul_lt_mul_right (by positivity)).2 hvlt
          _ = 2 ^ 64 := by
              rw [← pow_add]
              congr 1
              omega
      rw [is_normalized, hp]
      have htop : (v <<< n) % 2 ^ 64 ||| p >>> (64 - n) ≠ 0 := by
        intro hcon
        have h1 := lor_zero_left _ _ hcon
        rw [hshift] at h1
        rcases Nat.mul_eq_zero.1 h1 with h | h
        · exact hvz h
        · exact absurd h (by positivity)
      simpa using htop

/-- A successful `shl` leaves a normalized vector normalized. -/
theorem shl_norm (SIZE : Nat) (x : List Nat) (n : Nat)
    (hnx : is_normalized x = true) (hs : (shl SIZE x n).2 = true) :
    is_normalized (shl SIZE x n).1 = true := by
  rw [shl] at hs ⊢
  by_cases hs1c : (if n % LIMB_BITS ≠ 0
      then shl_bits SIZE x (n % LIMB_BITS) else (x, true)).2 = true
  · rw [if_pos hs1c] at hs ⊢
    have hs1n : is_normalized (if n % LIMB_BITS ≠ 0
        then shl_bits SIZE x (n % LIMB_BITS) else (x, true)).1 = true := by
      by_cases hr : n % LIMB_BITS ≠ 0
      · rw [if_pos hr] at hs1c ⊢
        exact shl_bits_norm SIZE x _ (by omega)
          (by rw [LIMB_BITS]; exact Nat.mod_lt _ (by norm_num)) hnx hs1c
      · rw [if_neg hr]
        exact hnx
    by_cases hd : n / LIMB_BITS ≠ 0
    · rw [if_pos hd] at hs ⊢
      rw [shl_limbs] at hs ⊢
      by_cases hcap : SIZE < n / LIMB_BITS +
          (if n % LIMB_BITS ≠ 0
            then shl_bits SIZE x (n % LIMB_BITS) else (x, true)).1.length
      · rw [if_pos hcap] at hs
        simp at hs
      · rw [if_neg hcap] at hs ⊢
        by_cases hne : (if n % LIMB_BITS ≠ 0
            then shl_bits SIZE x (n % LIMB_BITS) else (x, true)).1 ≠ []
        · rw [if_pos hne]
          dsimp only
          rw [is_normalized_append _ _ hne]
          exact hs1n
        · rw [if_neg hne]
          exact hs1n
    · rw [if_neg hd]
      exact hs1n
  · rw [if_neg hs1c] at hs
    exact absurd hs hs1c

/-- The small-power-limit table never yields zero (the default arm is 1). -/
theorem u64_power_limit_pos (radix : Nat) : 1 ≤ u64_power_limit radix := by
  by_cases h : radix ≤ 36
  · interval_cases radix <;> decide
  · obtain ⟨k, rfl⟩ : ∃ k, radix = k + 37 := ⟨radix - 37, by omega⟩
    exact Nat.le_refl 1

/-- The `while exp >= small_step` loop: invariants and the remaining
exponent. -/
theorem pow_loop_aux_spec (SIZE base ss : Nat) (hb : 1 ≤ base)
    (hss : 1 ≤ ss) (hmn : base ^ ss < 2 ^ 64) :
    ∀ fuel x e, limbs_bounded x → x.length ≤ SIZE →
      is_normalized x = true →
      natVal x * base ^ e < 2 ^ (64 * SIZE) →
      limbs_bounded (pow_loop_aux SIZE (base ^ ss) ss fuel x e).1 ∧
      (pow_loop_aux SIZE (base ^ ss) ss fuel x e).1.length ≤ SIZE ∧
      is_normalized (pow_loop_aux SIZE (base ^ ss) ss fuel x e).1 = true ∧
      natVal (pow_loop_aux SIZE (base ^ ss) ss fuel x e).1 *
          base ^ (pow_loop_aux SIZE (base ^ ss) ss fuel x e).2
        = natVal x * base ^ e ∧
      (e ≤ fuel → (pow_loop_aux SIZE (base ^ ss) ss fuel x e).2 < ss) := by
  intro fuel
  induction fuel with
  | zero =>
    intro x e hx hxs hnx _
    rw [pow_loop_aux]
    exact ⟨hx, hxs, hnx, rfl, fun he => by omega⟩
  | succ f ih =>
    intro x e hx hxs hnx hfit
    rw [pow_loop_aux]
    by_cases hcond : 0 < ss ∧ ss ≤ e
    · rw [if_pos hcond]
      have hpowle : base ^ ss ≤ base ^ e :=
        Nat.pow_le_pow_right hb hcond.2
      have hmfit : natVal x * base ^ ss < 2 ^ (64 * SIZE) := by
        have := Nat.mul_le_mul_left (natVal x) hpowle
        omega
      obtain ⟨hmv, hmb, hml, _, hmn'⟩ :=
        small_mul_spec SIZE x (base ^ ss) hx hmn hxs hmfit
      have hstep : natVal (small_mul SIZE x (base ^ ss)) *
          base ^ (e - ss) = natVal x * base ^ e := by
        rw [hmv, Nat.mul_assoc, ← pow_add]
        congr 2
        omega
      obtain ⟨ihb, ihl, ihn, ihv, ihe⟩ := ih (small_mul SIZE x (base ^ ss))
        (e - ss) hmb hml
        (hmn' hnx (by positivity))
        (by rw [hstep]; exact hfit)
      refine ⟨ihb, ihl, ihn, ?_, fun he => ihe (by omega)⟩
      rw [ihv, hstep]
    · rw [if_neg hcond]
      refine ⟨hx, hxs, hnx, rfl, fun _ => by omega⟩

/-- `pow` (compact configuration): exact value `x * base^exp`, bounds and
normalization, within capacity and the native power limit. -/
theorem pow_spec (SIZE : Nat) (x : List Nat) (base exp : Nat)
    (hx : limbs_bounded x) (hxs : x.length ≤ SIZE)
    (hnx : is_normalized x = true) (hb : 1 ≤ base)
    (hmn : base ^ u64_power_limit base < 2 ^ 64)
    (hfit : natVal x * base ^ exp < 2 ^ (64 * SIZE)) :
    natVal (pow SIZE x base exp) = natVal x * base ^ exp ∧
      limbs_bounded (pow SIZE x base exp) ∧
      (pow SIZE x base exp).length ≤ SIZE ∧
      is_normalized (pow SIZE x base exp) = true := by
  rw [pow, pow_loop]
  have hss : 1 ≤ u64_power_limit base := u64_power_limit_pos base
  obtain ⟨hb', hl', hn', hv', hexit⟩ := pow_loop_aux_spec SIZE base
    (u64_power_limit base) hb hss hmn exp x exp hx hxs hnx hfit
  have hex := hexit (Nat.le_refl _)
  by_cases ht : (pow_loop_aux SIZE (base ^ u64_power_limit base)
      (u64_power_limit base) exp x exp).2 ≠ 0
  · rw [if_pos ht]
    simp only [int_pow_fast_path]
    have hblt : base ^ (pow_loop_aux SIZE (base ^ u64_power_limit base)
        (u64_power_limit base) exp x exp).2 < 2 ^ 64 := by
      calc base ^ (pow_loop_aux SIZE (base ^ u64_power_limit base)
            (u64_power_limit base) exp x exp).2
          ≤ base ^ u64_power_limit base :=
            Nat.pow_le_pow_right hb (by omega)
        _ < 2 ^ 64 := hmn
    obtain ⟨hmv, hmb, hml, _, hmn2⟩ := small_mul_spec SIZE
      (pow_loop_aux SIZE (base ^ u64_power_limit base)
        (u64_power_limit base) exp x exp).1
      (base ^ (pow_loop_aux SIZE (base ^ u64_power_limit base)
        (u64_power_limit base) exp x exp).2)
      hb' hblt hl' (by rw [hv']; exact hfit)
    refine ⟨?_, hmb, hml, hmn2 hn' (by positivity)⟩
    rw [hmv, hv']
  · rw [if_neg ht]
    have ht0 : (pow_loop_aux SIZE (base ^ u64_power_limit base)
        (u64_power_limit base) exp x exp).2 = 0 := by omega
    rw [ht0, pow_zero, Nat.mul_one] at hv'
    exact ⟨hv', hb', hl', hn'⟩

end LexBig
